import Mathlib

/-!
Shallow embedding of the Aether-Link belief-fusion engine, translated from
`src/logic/GraphModel.ts` (data model) and `src/logic/BayesianEngine.ts`
(prior estimator, the eight algorithm runners, consensus fusion, sensitivity
analysis).

Modelling conventions:
* JavaScript numbers are modelled as exact rationals (`ℚ`); IEEE-754 rounding
  noise is not modelled.  `toFixed(d)` followed by `parseFloat` is modelled as
  rounding half-up to `d` decimal places (`roundTo`).
* `Map<string, number>` score maps are modelled as total functions
  `String → ℚ`; every runner initialises its map over exactly the node list,
  so lookups at node ids agree with the source `Map`.  The source expression
  `m.get(x) ?? c` is modelled as `if containsId nodes x then m x else c`.
* `Record<string, T>` objects whose key set matters (evidence, per-neighbor
  weights, attributes, tags) are modelled as insertion-ordered association
  lists `List (String × T)`; `setA` replaces in place or appends, matching
  object/`Map` update semantics.
* `Math.random()` is modelled as an ambient stream `rng : ℕ → ℚ` consumed at
  an explicitly threaded index, and `Math.exp` as an ambient `fexp : ℚ → ℚ`;
  theorems quantify over both (adding hypotheses such as `fexp 0 > 0` where a
  concrete computation needs them).
* Division by zero yields `0` in `ℚ`; every place the source can divide by
  zero (or produce `NaN`, e.g. the MCMC acceptance-rate check with no
  candidates) is guarded explicitly in the embedding and commented.
* Node `beliefs` is accessed by the engine only at the key `'working'`; it is
  modelled as the single optional field `beliefsWorking`.
-/

namespace AetherLink

/-- Node kinds (`GraphModel.ts`, `NodeType`). -/
inductive NodeType | part | process | group
deriving DecidableEq

/-- Domain contexts (`GraphModel.ts`, `BOMContext`). -/
inductive BOMContext | design | manufacturing | support
deriving DecidableEq

/-- One custom attribute: an independent `{ value, confidence }` pair. -/
structure CustomAttr where
  value : ℚ
  confidence : ℚ
deriving DecidableEq

/-- Per-node learned state (`GraphNode.modelParams`); every field is optional,
mirroring the TypeScript optional fields. -/
structure ModelParams where
  weights : Option (List (String × ℚ)) := none
  attention : Option (List (String × ℚ)) := none
  bias : Option ℚ := none
  learningRate : Option ℚ := none
  lastError : Option ℚ := none
deriving DecidableEq

/-- A graph node.  Fields the engine never reads (labels, position, history,
parentId, collapsed, style) are omitted.  `beliefsWorking` models
`beliefs['working']` (present/absent). -/
structure GraphNode where
  id : String
  ntype : NodeType
  context : BOMContext
  beliefsWorking : Option ℚ := none
  customAttributes : Option (List (String × CustomAttr)) := none
  tags : Option (List (String × String)) := none
  modelParams : Option ModelParams := none
deriving DecidableEq

/-- A directed edge.  The engine reads only `source` and `target`; `weight`
and the edge kind never enter the algorithms and the kind is omitted. -/
structure GraphEdge where
  id : String
  source : String
  target : String
  weight : ℚ := 1
deriving DecidableEq

/-- The graph: an (insertion-ordered) node map modelled as a list, plus the
edge sequence. -/
structure KnowledgeGraph where
  nodes : List GraphNode
  edges : List GraphEdge
deriving DecidableEq

/-- Association-list lookup (`object[key]` / `Map.get`). -/
def lookupA {α : Type} (l : List (String × α)) (k : String) : Option α :=
  (l.find? (fun p => p.1 == k)).map (fun p => p.2)

/-- Association-list update (`object[key] = v` / `Map.set`): replaces in place
when the key is present, appends otherwise. -/
def setA {α : Type} (l : List (String × α)) (k : String) (v : α) :
    List (String × α) :=
  if (l.find? (fun p => p.1 == k)).isSome then
    l.map (fun p => if p.1 == k then (k, v) else p)
  else l ++ [(k, v)]

/-- Evidence: a partial map from node id to an override value. -/
abbrev Evidence := List (String × ℚ)

/-- A score map, total over strings; meaningful only at node ids. -/
abbrev Scores := String → ℚ

/-- Pointwise update of a score map (`Map.set`). -/
def setS (s : Scores) (k : String) (v : ℚ) : Scores :=
  fun id => if id == k then v else s id

/-- `graph.getParents(nodeId)`: sources of edges targeting the node. -/
def getParents (edges : List GraphEdge) (nodeId : String) : List String :=
  (edges.filter (fun e => e.target == nodeId)).map (fun e => e.source)

/-- `graph.adjacency.get(nodeId) || []`: targets of edges leaving the node
(the adjacency index is rebuilt from the edge list after every mutation). -/
def childrenOf (edges : List GraphEdge) (nodeId : String) : List String :=
  (edges.filter (fun e => e.source == nodeId)).map (fun e => e.target)

/-- `getNeighbors(node)`: parents then children, duplicates preserved. -/
def getNeighbors (edges : List GraphEdge) (nodeId : String) : List String :=
  getParents edges nodeId ++ childrenOf edges nodeId

/-- `graph.nodes.get(id)` on the node map. -/
def findNode (nodes : List GraphNode) (id : String) : Option GraphNode :=
  nodes.find? (fun n => n.id == id)

/-- The node ids, in insertion order. -/
def nodeIds (nodes : List GraphNode) : List String :=
  nodes.map (fun n => n.id)

/-- Membership of an id in the node map (`Map.has` / key-set membership). -/
def containsId (nodes : List GraphNode) (id : String) : Bool :=
  (nodeIds nodes).contains id

/-- Update the node at a list position (JS object mutation is by reference;
the runners iterate the node collection positionally). -/
def modifyAt (l : List GraphNode) (i : ℕ) (f : GraphNode → GraphNode) :
    List GraphNode :=
  match l[i]? with
  | some a => l.set i (f a)
  | none => l

/-- Clamp to `[0,1]` (`Math.max(0, Math.min(1, x))`). -/
def clamp01 (x : ℚ) : ℚ := max 0 (min 1 x)

/-- Floor of a rational, computably (`⌊q⌋`; `q.num / q.den` with Euclidean
integer division, which is floor division for the positive denominator). -/
def ratFloor (q : ℚ) : ℤ := q.num / (q.den : ℤ)

theorem ratFloor_eq (q : ℚ) : ratFloor q = ⌊q⌋ := Rat.floor_def.symm

/-- `parseFloat(x.toFixed(d))`: round half-up to `d` decimal places.  (On
exact decimal midpoints binary floats have no well-defined behaviour; away
from midpoints this agrees with the source.) -/
def roundTo (d : ℕ) (q : ℚ) : ℚ := ((ratFloor (q * 10 ^ d + 1 / 2) : ℚ)) / 10 ^ d

/-! ### String helpers

The prior estimator lower-cases tag values, tests a trailing `%`, parses
numbers with `parseFloat` and tests substring containment of tag keys.  These
are implemented on the character lists underlying `String` (ASCII scope; the
tags of interest are ASCII). -/

/-- ASCII lower-casing of one character. -/
def lowerChar (c : Char) : Char :=
  if 65 ≤ c.toNat && c.toNat ≤ 90 then Char.ofNat (c.toNat + 32) else c

/-- `String.prototype.toLowerCase`, ASCII scope. -/
def lowerStr (s : String) : String := ⟨s.data.map lowerChar⟩

/-- Does the second list begin with the first? -/
def beginsWith : List Char → List Char → Bool
  | [], _ => true
  | _ :: _, [] => false
  | p :: ps, c :: cs => p == c && beginsWith ps cs

/-- Sublist-of-consecutive-characters test. -/
def hasSubList (sub : List Char) : List Char → Bool
  | [] => beginsWith sub []
  | c :: cs => beginsWith sub (c :: cs) || hasSubList sub cs

/-- `key.includes(sub)`. -/
def hasSubstr (s sub : String) : Bool := hasSubList sub.data s.data

/-- `sVal.endsWith('%')`. -/
def endsWithPercent (s : String) : Bool := s.data.getLast? == some '%'

/-- ASCII digit test. -/
def isDigitC (c : Char) : Bool := 48 ≤ c.toNat && c.toNat ≤ 57

/-- Split off the leading run of digits. -/
def takeDigits : List Char → List Char × List Char
  | [] => ([], [])
  | c :: cs =>
    if isDigitC c then
      let (ds, r) := takeDigits cs
      (c :: ds, r)
    else ([], c :: cs)

/-- Numeric value of a digit run. -/
def digitsVal (l : List Char) : ℕ :=
  l.foldl (fun a c => a * 10 + (c.toNat - 48)) 0

/-- `parseFloat`, restricted to the grammar `[+-]? digits [. digits]?` with any
trailing characters ignored (as `parseFloat` parses the longest numeric
prefix); `none` corresponds to `NaN`.  Exponent notation and leading
whitespace are outside the modelled scope. -/
def parseFloatQ (s : String) : Option ℚ :=
  let cs := s.data
  let sgncs : ℚ × List Char :=
    match cs with
    | '-' :: r => (-1, r)
    | '+' :: r => (1, r)
    | _ => (1, cs)
  let (ip, rest) := takeDigits sgncs.2
  let fp : List Char :=
    match rest with
    | '.' :: r => (takeDigits r).1
    | _ => []
  if ip.isEmpty && fp.isEmpty then none
  else some (sgncs.1 * ((digitsVal ip : ℚ) + (digitsVal fp : ℚ) / 10 ^ fp.length))

/-! ### Prior estimator (`getNodePrior`) -/

/-- One step of the tag scan in `getNodePrior`: the parsed confidence factor
contributed by a tag entry, if any.  `sval` is the already lower-cased tag
value. -/
def tagFactor (key sval : String) : Option ℚ :=
  if endsWithPercent sval then
    match parseFloatQ sval with
    | some n => some (n / 100)
    | none => none
  else
    match parseFloatQ sval with
    | some n => if n ≤ 1 then some n else none
    | none =>
      if hasSubstr key "status" || hasSubstr key "quality" || hasSubstr key "health" then
        if sval == "high" || sval == "ok" || sval == "good" then some 0.98
        else if sval == "medium" || sval == "fair" then some 0.85
        else if sval == "low" || sval == "poor" || sval == "bad" then some 0.60
        else none
      else none

/-- `getNodePrior`: intrinsic, structure-independent confidence.  Attribute
confidences, if any exist, are definitive; otherwise tag-derived factors are
blended `0.6/0.4` with the optimism constant `0.95`; otherwise the stored
`beliefs['working']`; otherwise `0.95`. -/
def getNodePrior (node : GraphNode) : ℚ :=
  let attrs := node.customAttributes.getD []
  if node.customAttributes.isSome && !attrs.isEmpty then
    (attrs.map (fun p => p.2.confidence)).sum / attrs.length
  else
    let validFactors :=
      (node.tags.getD []).filterMap (fun p => tagFactor p.1 (lowerStr p.2))
    if !validFactors.isEmpty then
      0.95 * 0.4 + (validFactors.sum / validFactors.length) * 0.6
    else
      match node.beliefsWorking with
      | some b => b
      | none => 0.95

/-! ### Rational comparison helpers

Concrete rational (in)equalities are established through the numerator of a
difference, which reduces well computationally. -/

theorem qeq_num {a b : ℚ} (h : (a - b).num = 0) : a = b :=
  sub_eq_zero.mp (Rat.num_eq_zero.mp h)

theorem qne_num {a b : ℚ} (h : (a - b).num ≠ 0) : a ≠ b :=
  fun he => h (by rw [he, sub_self]; rfl)

theorem qle_num {a b : ℚ} (h : 0 ≤ (b - a).num) : a ≤ b :=
  sub_nonneg.mp (Rat.num_nonneg.mp h)

theorem qlt_num {a b : ℚ} (h : 0 < (b - a).num) : a < b :=
  sub_pos.mp (Rat.num_pos.mp h)

/-! ### Algorithm runners -/

/-- A runner's output (`AlgorithmResult` in the source): a score per node and
a self-assessed reliability. -/
structure AlgorithmResult where
  scores : Scores
  reliability : ℚ

/-- The initial score map every runner builds:
`evidence[node.id] ?? getNodePrior(node)` per node.  Ids outside the node map
(never read by the source through a `Map` holding exactly the node ids) are
mapped to `0`. -/
def initScores (nodes : List GraphNode) (ev : Evidence) : Scores := fun id =>
  match findNode nodes id with
  | some n => (lookupA ev n.id).getD (getNodePrior n)
  | none => 0

/-! #### Algorithm 1: Bayesian Network (loopy relaxation), `runBN` -/

/-- The running-minimum pattern used for the causal and diagnostic signals in
`runBN` (`pi`/`lambda` with their `hasPi`/`hasLambda` flags): the score of
each listed id (`?? 0.95` for ids outside the score map's key set, i.e.
outside the node map), folded by `min`. -/
def runningMinAux (nodes : List GraphNode) (s : Scores) :
    ℚ × Bool → List String → ℚ × Bool
  | p, [] => p
  | p, nid :: rest =>
    let val := if containsId nodes nid then s nid else 0.95
    runningMinAux nodes s (if !p.2 then (val, true) else (min p.1 val, true)) rest

/-- Initial accumulator `pi = 1.0`, `hasPi = false`. -/
def runningMin (nodes : List GraphNode) (s : Scores) (l : List String) :
    ℚ × Bool :=
  runningMinAux nodes s (1.0, false) l

/-- Step 3 ("Fusion") of a BN node update: the weighted blend of the prior
(weight 1.0), the causal signal (weight 1.5 when parents exist) and the
diagnostic signal (weight 2.0 when children exist). -/
def bnFuse (prior : ℚ) (pihas lamhas : ℚ × Bool) : ℚ :=
  let nd := (prior * 1.0, (1.0 : ℚ))
  let nd := if pihas.2 then (nd.1 + pihas.1 * 1.5, nd.2 + 1.5) else nd
  let numden := if lamhas.2 then (nd.1 + lamhas.1 * 2.0, nd.2 + 2.0) else nd
  numden.1 / numden.2

/-- The body of one node's update inside a `runBN` iteration: causal and
diagnostic running minima, weighted fusion with the prior, damping, and the
5-decimal store into `nextScores` together with the `maxDelta` update. -/
def bnNodeUpdate (nodes : List GraphNode) (edges : List GraphEdge)
    (ev : Evidence) (s : Scores) (acc : Scores × ℚ) (node : GraphNode) :
    Scores × ℚ :=
  if (lookupA ev node.id).isSome then acc
  else
    let parents := getParents edges node.id
    let children := childrenOf edges node.id
    -- 1. Causal
    let pihas := runningMin nodes s parents
    -- 2. Diagnostic
    let lamhas := runningMin nodes s children
    -- 3. Fusion
    let calculatedScore := bnFuse (getNodePrior node) pihas lamhas
    -- 4. Damping (damping = 0.2)
    let oldScore := s node.id
    let finalScore := calculatedScore * (1 - 0.2) + oldScore * 0.2
    let delta := |finalScore - oldScore|
    let maxDelta := if delta > acc.2 then delta else acc.2
    (setS acc.1 node.id (roundTo 5 finalScore), maxDelta)

/-- One `while`-iteration of `runBN`: builds `nextScores` from the current
map, returning the new map and this iteration's `maxDelta`. -/
def bnStep (nodes : List GraphNode) (edges : List GraphEdge) (ev : Evidence)
    (s : Scores) : Scores × ℚ :=
  nodes.foldl (bnNodeUpdate nodes edges ev s) (s, 0)

/-- The `while (iter < maxIter && maxDelta > tolerance)` loop of `runBN`,
with the remaining iteration budget as fuel.  Returns the final score map,
the final `maxDelta` and the number of iterations executed. -/
def bnLoop (nodes : List GraphNode) (edges : List GraphEdge) (ev : Evidence) :
    ℕ → Scores → ℚ → Scores × ℚ × ℕ
  | 0, s, d => (s, d, 0)
  | fuel + 1, s, d =>
    if d > 0.0001 then
      let sd := bnStep nodes edges ev s
      let rec' := bnLoop nodes edges ev fuel sd.1 sd.2
      (rec'.1, rec'.2.1, rec'.2.2 + 1)
    else (s, d, 0)

/-- `runBN`: loopy relaxation, up to 50 iterations, tolerance `1e-4`,
reliability `max(0.1, 1 − maxDelta·100)`, halved when the iteration cap was
hit without reaching tolerance. -/
def runBN (nodes : List GraphNode) (edges : List GraphEdge) (ev : Evidence) :
    AlgorithmResult :=
  let s0 := initScores nodes ev
  let res := bnLoop nodes edges ev 50 s0 1.0
  let maxDelta := res.2.1
  let iter := res.2.2
  let rel0 := max 0.1 (1.0 - maxDelta * 100)
  let reliability := if iter = 50 ∧ maxDelta > 0.0001 then rel0 * 0.5 else rel0
  { scores := res.1, reliability := reliability }

/-! #### Algorithm 2: Monte Carlo simulation, `runMCS` -/

/-- Trial initialisation: each node gets its prior (or evidence) plus noise
scaled by distance from `0.5`; one random draw is consumed per node.  Returns
the trial state and the next stream index. -/
def mcsInit (nodes : List GraphNode) (ev : Evidence) (rng : ℕ → ℚ) (k : ℕ) :
    Scores × ℕ :=
  nodes.foldl
    (fun (acc : Scores × ℕ) node =>
      let prior := (lookupA ev node.id).getD (getNodePrior node)
      let noise := (rng acc.2 - 0.5) * 0.4 * (1 - |prior - 0.5|)
      (setS acc.1 node.id (clamp01 (prior + noise)), acc.2 + 1))
    ((fun _ => 0), k)

/-- One propagation step of `runMCS`.  Translated faithfully from the source:
a `nextState` copy is built and filled with the blended values, then the loop
body ends with `state.forEach((v, k) => nextState.set(k, v))` and `state` is
never reassigned — the computed `nextState` is discarded, so the step leaves
`state` unchanged. -/
def mcsPropStep (nodes : List GraphNode) (edges : List GraphEdge)
    (ev : Evidence) (state : Scores) : Scores :=
  let nextState := nodes.foldl
    (fun ns node =>
      if (lookupA ev node.id).isSome then ns
      else
        let parents := getParents edges node.id
        if parents.isEmpty then ns
        else
          let ih := parents.foldl
            (fun (p : ℚ × Bool) pid =>
              let v := state pid
              if !p.2 then (v, true) else (min p.1 v, true))
            (1.0, false)
          let myCapacity := state node.id
          let combined := myCapacity * 0.4 + ih.1 * 0.6
          setS ns node.id combined)
    state
  let _overwritten := nodes.foldl (fun ns node => setS ns node.id (state node.id)) nextState
  state

/-- Accumulator of `runMCS`: per-node sums and sums of squares, and the
random-stream index. -/
structure McsAcc where
  sums : Scores
  sumsSq : Scores
  k : ℕ

/-- One full trial of `runMCS`: initialise, run 5 propagation steps,
accumulate the resulting state. -/
def mcsTrial (nodes : List GraphNode) (edges : List GraphEdge) (ev : Evidence)
    (rng : ℕ → ℚ) (acc : McsAcc) : McsAcc :=
  let ini := mcsInit nodes ev rng acc.k
  let state := (List.range 5).foldl (fun st _ => mcsPropStep nodes edges ev st) ini.1
  { sums := nodes.foldl (fun s node => setS s node.id (s node.id + state node.id)) acc.sums,
    sumsSq := nodes.foldl
      (fun s node => setS s node.id (s node.id + state node.id * state node.id)) acc.sumsSq,
    k := ini.2 }

/-- The 300-trial loop of `runMCS` (fuel-counted recursion). -/
def mcsTrials (nodes : List GraphNode) (edges : List GraphEdge) (ev : Evidence)
    (rng : ℕ → ℚ) : ℕ → McsAcc → McsAcc
  | 0, acc => acc
  | n + 1, acc => mcsTrials nodes edges ev rng n (mcsTrial nodes edges ev rng acc)

/-- `runMCS`: 300 trials with variance tracking; reliability
`1 / (1 + 10 · avgVariance)` over non-evidence nodes, where the divisor is
`nodes.size − (number of evidence keys)`. -/
def runMCS (nodes : List GraphNode) (edges : List GraphEdge) (ev : Evidence)
    (rng : ℕ → ℚ) (k : ℕ) : AlgorithmResult × ℕ :=
  let acc := mcsTrials nodes edges ev rng 300 ⟨(fun _ => 0), (fun _ => 0), k⟩
  let results : Scores := fun id => acc.sums id / 300
  let totalVariance := nodes.foldl
    (fun tv node =>
      let mean := acc.sums node.id / 300
      let variance := acc.sumsSq node.id / 300 - mean * mean
      if (lookupA ev node.id).isNone then tv + variance else tv)
    0
  let activeNodeCount : ℤ := (nodes.length : ℤ) - (ev.length : ℤ)
  let avgVariance := if activeNodeCount > 0 then totalVariance / (activeNodeCount : ℚ) else 0
  let reliability := 1.0 / (1.0 + avgVariance * 10)
  ({ scores := results, reliability := reliability }, acc.k)

/-! #### Algorithm 3: MCMC (Metropolis sampling), `runMCMC` -/

/-- `calculateInfluence`: sum of neighbor scores (with `?? 0.5` for ids
outside the score map) and the total weight (`1` per neighbor). -/
def calculateInfluence (nodes : List GraphNode) (edges : List GraphEdge)
    (node : GraphNode) (scores : Scores) : ℚ × ℚ :=
  let parents := getParents edges node.id
  let children := childrenOf edges node.id
  (parents ++ children).foldl
    (fun (p : ℚ × ℚ) nid =>
      let conf := if containsId nodes nid then scores nid else 0.5
      (p.1 + conf, p.2 + 1.0))
    (0, 0)

/-- `calculateLocalEnergy`: squared distance from the neighbor/prior-weighted
expectation. -/
def calculateLocalEnergy (nodes : List GraphNode) (edges : List GraphEdge)
    (node : GraphNode) (val : ℚ) (state : Scores) : ℚ :=
  let iw := calculateInfluence nodes edges node state
  let prior := getNodePrior node
  let expected := (iw.1 + prior * 0.5) / (iw.2 + 0.5)
  (val - expected) ^ 2

/-- Mutable state of the MCMC loop. -/
structure McmcSt where
  current : Scores
  stepSize : ℚ
  acceptanceCount : ℕ
  totalProposals : ℕ
  sums : Scores
  sumsSq : Scores
  k : ℕ

/-- One iteration (index `i`) of the MCMC loop: adaptive step-size update
every 50 iterations, one Metropolis proposal per candidate (two random draws
each: perturbation and acceptance test), and accumulation after burn-in. -/
def mcmcSweep (nodes : List GraphNode) (edges : List GraphEdge)
    (fexp : ℚ → ℚ) (rng : ℕ → ℚ) (candidates : List GraphNode) (burnIn : ℕ)
    (i : ℕ) (st : McmcSt) : McmcSt :=
  let st :=
    if i > 0 ∧ i % 50 = 0 then
      -- In the source, `rate` is `NaN` when `totalProposals = 0` and then
      -- neither comparison fires; this is modelled by the explicit guard.
      let rate := (st.acceptanceCount : ℚ) / (st.totalProposals : ℚ)
      let ss :=
        if st.totalProposals ≠ 0 then
          if rate < 0.2 then st.stepSize * 0.9
          else if rate > 0.3 then st.stepSize * 1.1
          else st.stepSize
        else st.stepSize
      { st with stepSize := ss, acceptanceCount := 0, totalProposals := 0 }
    else st
  let st := candidates.foldl
    (fun st target =>
      let st := { st with totalProposals := st.totalProposals + 1 }
      let currentVal := st.current target.id
      let proposedVal := clamp01 (currentVal + (rng st.k - 0.5) * st.stepSize)
      let curE := calculateLocalEnergy nodes edges target currentVal st.current
      let proE := calculateLocalEnergy nodes edges target proposedVal st.current
      let deltaE := proE - curE
      let acceptanceProb := fexp (-deltaE * 10)
      if rng (st.k + 1) < acceptanceProb then
        { st with current := setS st.current target.id proposedVal,
                  acceptanceCount := st.acceptanceCount + 1, k := st.k + 2 }
      else { st with k := st.k + 2 })
    st
  if i ≥ burnIn then
    { st with
      sums := nodes.foldl
        (fun s node => setS s node.id (s node.id + st.current node.id)) st.sums,
      sumsSq := nodes.foldl
        (fun s node => setS s node.id (s node.id + st.current node.id * st.current node.id))
        st.sumsSq }
  else st

/-- The `samples + burnIn` iteration loop of `runMCMC` (fuel plus the running
iteration index). -/
def mcmcLoop (nodes : List GraphNode) (edges : List GraphEdge) (fexp : ℚ → ℚ)
    (rng : ℕ → ℚ) (candidates : List GraphNode) (burnIn : ℕ) :
    ℕ → ℕ → McmcSt → McmcSt
  | 0, _, st => st
  | n + 1, i, st =>
    mcmcLoop nodes edges fexp rng candidates burnIn n (i + 1)
      (mcmcSweep nodes edges fexp rng candidates burnIn i st)

/-- `runMCMC`: 100 burn-in plus 400 recorded sweeps, candidates are the
non-evidence nodes; reliability `min(1, 1/(1 + 8 · avgVariance))`. -/
def runMCMC (nodes : List GraphNode) (edges : List GraphEdge) (ev : Evidence)
    (fexp : ℚ → ℚ) (rng : ℕ → ℚ) (k : ℕ) : AlgorithmResult × ℕ :=
  let candidates := nodes.filter (fun n => (lookupA ev n.id).isNone)
  let st := mcmcLoop nodes edges fexp rng candidates 100 500 0
    ⟨initScores nodes ev, 0.2, 0, 0, (fun _ => 0), (fun _ => 0), k⟩
  let results : Scores := fun id => st.sums id / 400
  let totalVariance := nodes.foldl
    (fun tv node =>
      let mean := st.sums node.id / 400
      let variance := st.sumsSq node.id / 400 - mean * mean
      if (lookupA ev node.id).isNone then tv + variance else tv)
    0
  let activeNodeCount := candidates.length
  let avgVariance := if activeNodeCount > 0 then totalVariance / (activeNodeCount : ℚ) else 0
  let reliability := min 1.0 (1.0 / (1.0 + avgVariance * 8))
  ({ scores := results, reliability := reliability }, st.k)

/-! #### Algorithm 4: Decision tree (rule-based), `runDT` -/

/-- One of the 5 passes of `runDT`: each non-evidence node with parents gets
the minimum of its parents' scores, capped by its own prior. -/
def dtPass (nodes : List GraphNode) (edges : List GraphEdge) (ev : Evidence)
    (scores : Scores) : Scores :=
  nodes.foldl
    (fun ns node =>
      if (lookupA ev node.id).isSome then ns
      else
        let parents := getParents edges node.id
        if parents.isEmpty then ns
        else
          let minVal := parents.foldl (fun m p => min m (scores p)) 1.0
          setS ns node.id (min minVal (getNodePrior node)))
    scores

/-- `runDT`: 5 rule passes, static reliability `0.6`. -/
def runDT (nodes : List GraphNode) (edges : List GraphEdge) (ev : Evidence) :
    AlgorithmResult :=
  let s := (List.range 5).foldl (fun s _ => dtPass nodes edges ev s) (initScores nodes ev)
  { scores := s, reliability := 0.6 }

/-! #### Algorithm 5: Linear regression (online SGD), `runLinearRegression`

The per-node learned parameters are mutated in place on the node objects;
here the node list is threaded through each pass, with nodes processed
positionally (mirroring `Map.forEach` order). -/

/-- Accumulator of one training pass over the nodes. -/
structure PassAcc where
  nodes : List GraphNode
  next : Scores
  maxChange : ℚ

/-- Processing of node `i` in one LR pass: lazy parameter initialisation,
forward pass, SGD update (weight/bias writes gated by `training`), and the
propagated 50/50 blend of prediction and prior. -/
def lrNodeUpdate (training : Bool) (edges : List GraphEdge) (ev : Evidence)
    (scores : Scores) (acc : PassAcc) (i : ℕ) : PassAcc :=
  match acc.nodes[i]? with
  | none => acc
  | some node =>
    if (lookupA ev node.id).isSome then acc
    else
      let neighbors := getNeighbors edges node.id
      if neighbors.isEmpty then acc
      else
        -- A. lazy parameter initialisation (`!x` also treats `0` as unset)
        let mp0 := node.modelParams.getD {}
        let weights0 := mp0.weights.getD []
        let bias := mp0.bias.getD 0.0
        let lr := match mp0.learningRate with
          | some r => if r = 0 then 0.01 else r
          | none => 0.01
        let weights1 := neighbors.foldl
          (fun w nid =>
            if (lookupA w nid).isSome then w
            else setA w nid (1.0 / (neighbors.length : ℚ)))
          weights0
        -- B. forward pass (clamped prediction)
        let predictedVal := clamp01 (neighbors.foldl
          (fun p nid => p + scores nid * (lookupA weights1 nid).getD 0) bias)
        -- C. error against the prior
        let targetVal := getNodePrior node
        let error := predictedVal - targetVal
        -- D. SGD update, gated by the training flag
        let weights2 := neighbors.foldl
          (fun w nid =>
            let input := scores nid
            let grad := error * input
            if training then setA w nid ((lookupA w nid).getD 0 - lr * grad) else w)
          weights1
        let bias2 := if training then bias - lr * error else bias
        let mp' : ModelParams :=
          { weights := some weights2, attention := mp0.attention,
            bias := some bias2, learningRate := some lr, lastError := some |error| }
        -- E. propagate the 50/50 blend
        let blended := predictedVal * 0.5 + targetVal * 0.5
        let diff := |blended - scores node.id|
        { nodes := modifyAt acc.nodes i (fun n => { n with modelParams := some mp' }),
          next := setS acc.next node.id blended,
          maxChange := if diff > acc.maxChange then diff else acc.maxChange }

/-- One full LR pass (`maxChange` is reset at the top of each pass). -/
def lrPass (training : Bool) (edges : List GraphEdge) (ev : Evidence)
    (st : List GraphNode × Scores × ℚ) : List GraphNode × Scores × ℚ :=
  let scores := st.2.1
  let acc := (List.range st.1.length).foldl (lrNodeUpdate training edges ev scores)
    ⟨st.1, scores, 0⟩
  (acc.nodes, acc.next, acc.maxChange)

/-- `runLinearRegression`: 5 online SGD passes; reliability
`max(0.1, 0.95 − 10 · maxChange)`.  Returns the result and the updated node
list (persisted `modelParams`). -/
def runLinearRegression (training : Bool) (nodes : List GraphNode)
    (edges : List GraphEdge) (ev : Evidence) : AlgorithmResult × List GraphNode :=
  let fin := (List.range 5).foldl (fun st _ => lrPass training edges ev st)
    (nodes, initScores nodes ev, 0)
  ({ scores := fin.2.1, reliability := max 0.1 (0.95 - fin.2.2 * 10) }, fin.1)

/-! #### Algorithm 6: Logistic regression (online SGD / sigmoid),
`runLogisticRegression` -/

/-- Processing of node `i` in one LogReg pass.  Evidence nodes are trained
(the evidence value is the supervised target, with boosted learning rate) but
their propagated score is never overwritten. -/
def logRegNodeUpdate (training : Bool) (fexp : ℚ → ℚ) (edges : List GraphEdge)
    (ev : Evidence) (scores : Scores) (acc : PassAcc) (i : ℕ) : PassAcc :=
  match acc.nodes[i]? with
  | none => acc
  | some node =>
    let isEvidence := (lookupA ev node.id).isSome
    let neighbors := getNeighbors edges node.id
    if neighbors.isEmpty then acc
    else
      -- A. lazy parameter initialisation (weights default to 1.0 here)
      let mp0 := node.modelParams.getD {}
      let weights0 := mp0.weights.getD []
      let bias := mp0.bias.getD 0.0
      let lrStored := match mp0.learningRate with
        | some r => if r = 0 then 0.05 else r
        | none => 0.05
      let weights1 := neighbors.foldl
        (fun w nid => if (lookupA w nid).isSome then w else setA w nid 1.0) weights0
      -- B. forward pass: inputs centred around 0.5, then the sigmoid
      let logit := neighbors.foldl
        (fun p nid => p + (scores nid - 0.5) * (lookupA weights1 nid).getD 0) bias
      let prediction := 1.0 / (1.0 + fexp (-logit))
      -- C. the evidence value, when present, is the target
      let targetVal := if isEvidence then (lookupA ev node.id).getD 0 else getNodePrior node
      let error := prediction - targetVal
      -- D. SGD with the sigmoid derivative; boosted rate on evidence
      let derivative := prediction * (1.0 - prediction)
      let lr := if isEvidence then 0.2 else (if lrStored = 0 then 0.05 else lrStored)
      let weights2 := neighbors.foldl
        (fun w nid =>
          let input := scores nid - 0.5
          let gradient := error * derivative * input
          if training then setA w nid ((lookupA w nid).getD 0 - lr * gradient) else w)
        weights1
      let bias2 := if training then bias - lr * error * derivative else bias
      let mp' : ModelParams :=
        { weights := some weights2, attention := mp0.attention,
          bias := some bias2, learningRate := some lrStored, lastError := some |error| }
      let nodes' := modifyAt acc.nodes i (fun n => { n with modelParams := some mp' })
      -- E. propagate, but never overwrite an evidence-locked score
      if !isEvidence then
        let blended := prediction * 0.6 + targetVal * 0.4
        let diff := |blended - scores node.id|
        { nodes := nodes', next := setS acc.next node.id blended,
          maxChange := if diff > acc.maxChange then diff else acc.maxChange }
      else { nodes := nodes', next := acc.next, maxChange := acc.maxChange }

/-- One full LogReg pass. -/
def logRegPass (training : Bool) (fexp : ℚ → ℚ) (edges : List GraphEdge)
    (ev : Evidence) (st : List GraphNode × Scores × ℚ) :
    List GraphNode × Scores × ℚ :=
  let scores := st.2.1
  let acc := (List.range st.1.length).foldl
    (logRegNodeUpdate training fexp edges ev scores) ⟨st.1, scores, 0⟩
  (acc.nodes, acc.next, acc.maxChange)

/-- `runLogisticRegression`: 5 online steps; reliability
`max(0.2, 0.98 − 8 · maxChange)`. -/
def runLogisticRegression (training : Bool) (fexp : ℚ → ℚ)
    (nodes : List GraphNode) (edges : List GraphEdge) (ev : Evidence) :
    AlgorithmResult × List GraphNode :=
  let fin := (List.range 5).foldl (fun st _ => logRegPass training fexp edges ev st)
    (nodes, initScores nodes ev, 0)
  ({ scores := fin.2.1, reliability := max 0.2 (0.98 - fin.2.2 * 8) }, fin.1)

/-! #### Algorithm 7: Variational inference (mean field), `runVI` -/

/-- One of the 15 VI iterations: each non-evidence node with neighbors moves
30/70 toward `0.8 · (mean of neighbor scores) + 0.2 · prior`. -/
def viPass (nodes : List GraphNode) (edges : List GraphEdge) (ev : Evidence)
    (means : Scores) : Scores × ℚ :=
  nodes.foldl
    (fun (acc : Scores × ℚ) node =>
      if (lookupA ev node.id).isSome then acc
      else
        let neighbors := getNeighbors edges node.id
        if neighbors.isEmpty then acc
        else
          let sumExp := neighbors.foldl (fun s nid => s + means nid) 0
          let localExpectation := sumExp / (neighbors.length : ℚ)
          let prior := getNodePrior node
          let target := localExpectation * 0.8 + prior * 0.2
          let current := acc.1 node.id
          let newVal := current * 0.3 + target * 0.7
          let delta := |newVal - current|
          (setS acc.1 node.id newVal, if delta > acc.2 then delta else acc.2))
    (means, 0)

/-- `runVI`: 15 iterations; reliability `max(0.1, 1 − 10 · maxDelta)`. -/
def runVI (nodes : List GraphNode) (edges : List GraphEdge) (ev : Evidence) :
    AlgorithmResult :=
  let fin := (List.range 15).foldl (fun (st : Scores × ℚ) _ => viPass nodes edges ev st.1)
    (initScores nodes ev, 0)
  { scores := fin.1, reliability := max 0.1 (1.0 - fin.2 * 10) }

/-! #### Algorithm 8: Graph transformer (self-attention), `runTransformer`

Note: the attention-logit update below is **not** gated by the training flag;
the source `runTransformer` never consults `this.trainingEnabled`. -/

/-- Processing of node `i` in one Transformer layer. -/
def tfNodeUpdate (fexp : ℚ → ℚ) (edges : List GraphEdge) (ev : Evidence)
    (scores : Scores) (acc : PassAcc) (i : ℕ) : PassAcc :=
  match acc.nodes[i]? with
  | none => acc
  | some node =>
    if (lookupA ev node.id).isSome then acc
    else
      let neighbors := getNeighbors edges node.id
      if neighbors.isEmpty then acc
      else
        -- A. lazy logit initialisation from semantic similarity
        let mp0 := node.modelParams.getD {}
        let att0 := mp0.attention.getD []
        let att1 := neighbors.foldl
          (fun a nid =>
            if (lookupA a nid).isSome then a
            else
              let sim : ℚ :=
                match findNode acc.nodes nid with
                | some nb =>
                  (if nb.context == node.context then (1.0 : ℚ) else 0) +
                    (if nb.ntype == node.ntype then 0.5 else 0)
                | none => 0  -- the source would fault on a dangling neighbor id
              setA a nid sim)
          att0
        -- B. softmax over the logits (max-shifted for stability)
        let logits := neighbors.map (fun nid => (lookupA att1 nid).getD 0)
        let maxLogit := match logits with
          | [] => 0
          | v :: vs => vs.foldl max v
        let attWexp := neighbors.foldl
          (fun m nid => setA m nid (fexp ((lookupA att1 nid).getD 0 - maxLogit))) []
        let sumExp := neighbors.foldl
          (fun s nid => s + fexp ((lookupA att1 nid).getD 0 - maxLogit)) 0
        let attWn := neighbors.foldl
          (fun m nid => setA m nid ((lookupA m nid).getD 0 / sumExp)) attWexp
        let attW : String → ℚ := fun nid => (lookupA attWn nid).getD 0
        -- C. aggregate neighbor values by attention weight
        let contextVector := neighbors.foldl (fun c nid => c + scores nid * attW nid) 0
        -- D. error and attention-logit update (unconditional: no training gate)
        let targetVal := getNodePrior node
        let error := contextVector - targetVal
        let att2 := neighbors.foldl
          (fun a nid =>
            let weight := attW nid
            let neighborVal := scores nid
            let grad := error * (neighborVal - contextVector) * weight
            setA a nid ((lookupA a nid).getD 0 - 0.05 * grad))
          att1
        let mp' : ModelParams :=
          { weights := mp0.weights, attention := some att2, bias := mp0.bias,
            learningRate := mp0.learningRate, lastError := mp0.lastError }
        -- E. residual update of the node state
        let current := acc.next node.id
        let newVal := current * 0.2 + contextVector * 0.8
        let delta := |newVal - current|
        { nodes := modifyAt acc.nodes i (fun n => { n with modelParams := some mp' }),
          next := setS acc.next node.id newVal,
          maxChange := if delta > acc.maxChange then delta else acc.maxChange }

/-- One Transformer layer. -/
def tfPass (fexp : ℚ → ℚ) (edges : List GraphEdge) (ev : Evidence)
    (st : List GraphNode × Scores × ℚ) : List GraphNode × Scores × ℚ :=
  let scores := st.2.1
  let acc := (List.range st.1.length).foldl (tfNodeUpdate fexp edges ev scores)
    ⟨st.1, scores, 0⟩
  (acc.nodes, acc.next, acc.maxChange)

/-- `runTransformer`: 3 attention layers; reliability
`max(0.1, 1 − 5 · maxDelta)`. -/
def runTransformer (fexp : ℚ → ℚ) (nodes : List GraphNode)
    (edges : List GraphEdge) (ev : Evidence) : AlgorithmResult × List GraphNode :=
  let fin := (List.range 3).foldl (fun st _ => tfPass fexp edges ev st)
    (nodes, initScores nodes ev, 0)
  ({ scores := fin.2.1, reliability := max 0.1 (1.0 - fin.2.2 * 5) }, fin.1)

/-! ### Consensus fusion (`analyze`) -/

/-- Fixed per-algorithm sophistication bias (the `switch` in
`addToConsensus`). -/
def baseBias (name : String) : ℚ :=
  if name == "BN" then 1.5
  else if name == "MCMC" then 1.2
  else if name == "MCS" then 1.2
  else if name == "Transformer" then 1.1
  else 0.8

/-- State threaded through `analyze`: the consensus accumulator, the total
weight, the (possibly mutated) node list and the random-stream index. -/
structure FusionState where
  cons : Scores
  totalWeight : ℚ
  nodes : List GraphNode
  k : ℕ

/-- `addToConsensus`: accumulate `score · weight` per node id, where
`weight = reliability · baseBias`.  `ids` is the key set of the runner's
score map, i.e. the node ids. -/
def addToConsensus (ids : List String) (st : FusionState)
    (result : AlgorithmResult) (name : String) : FusionState :=
  let weight := result.reliability * baseBias name
  { st with
    cons := ids.foldl (fun c id => setS c id (c id + result.scores id * weight)) st.cons,
    totalWeight := st.totalWeight + weight }

/-- The fixed order in which `analyze` consults its eight `if` statements. -/
def runnerOrder : List String :=
  ["BN", "MCS", "MCMC", "DT", "LR", "LogReg", "VI", "Transformer"]

/-- One runner invocation on the current engine state: the result, the node
list after the call (LR/LogReg/Transformer persist learned parameters) and
the next random-stream index (MCS/MCMC consume draws). -/
def stageRun (g : KnowledgeGraph) (ev : Evidence) (trainingEnabled : Bool)
    (rng : ℕ → ℚ) (fexp : ℚ → ℚ) (st : FusionState) (name : String) :
    AlgorithmResult × List GraphNode × ℕ :=
  if name == "BN" then (runBN st.nodes g.edges ev, st.nodes, st.k)
  else if name == "MCS" then
    let r := runMCS st.nodes g.edges ev rng st.k
    (r.1, st.nodes, r.2)
  else if name == "MCMC" then
    let r := runMCMC st.nodes g.edges ev fexp rng st.k
    (r.1, st.nodes, r.2)
  else if name == "DT" then (runDT st.nodes g.edges ev, st.nodes, st.k)
  else if name == "LR" then
    let r := runLinearRegression trainingEnabled st.nodes g.edges ev
    (r.1, r.2, st.k)
  else if name == "LogReg" then
    let r := runLogisticRegression trainingEnabled fexp st.nodes g.edges ev
    (r.1, r.2, st.k)
  else if name == "VI" then (runVI st.nodes g.edges ev, st.nodes, st.k)
  else if name == "Transformer" then
    let r := runTransformer fexp st.nodes g.edges ev
    (r.1, r.2, st.k)
  else (⟨fun _ => 0, 0⟩, st.nodes, st.k)

/-- One selected stage of `analyze`: run the runner and fold its result into
the consensus. -/
def stageFn (g : KnowledgeGraph) (ev : Evidence) (trainingEnabled : Bool)
    (rng : ℕ → ℚ) (fexp : ℚ → ℚ) (st : FusionState) (name : String) :
    FusionState :=
  let r := stageRun g ev trainingEnabled rng fexp st name
  { addToConsensus (nodeIds g.nodes) st r.1 name with nodes := r.2.1, k := r.2.2 }

/-- The runner-dispatch sequence of `analyze`: the eight `if
(algorithms.includes(name))` statements in source order (BN, MCS, MCMC, DT,
LR, LogReg, VI, Transformer), sharing the random stream and the mutable node
state.  Folding the guarded stage over the literal `runnerOrder` list unfolds
to exactly that chain of eight conditionals. -/
def analyzeCore (g : KnowledgeGraph) (ev : Evidence) (algorithms : List String)
    (trainingEnabled : Bool) (rng : ℕ → ℚ) (fexp : ℚ → ℚ) : FusionState :=
  runnerOrder.foldl
    (fun st name =>
      if algorithms.contains name then
        stageFn g ev trainingEnabled rng fexp st name
      else st)
    ⟨(fun _ => 0), 0, g.nodes, 0⟩

/-- `analyze`: run the selected runners, fuse by reliability weight and round
to 4 decimals; fall back to BN's raw scores when the total weight is zero.
(The source defaults are `algorithms = ['BN']`, `trainingEnabled = true`.)
Returns the fused score map and the post-call node list. -/
def analyze (g : KnowledgeGraph) (ev : Evidence) (algorithms : List String)
    (trainingEnabled : Bool) (rng : ℕ → ℚ) (fexp : ℚ → ℚ) :
    Scores × KnowledgeGraph :=
  let st := analyzeCore g ev algorithms trainingEnabled rng fexp
  if st.totalWeight > 0 then
    ((fun id => roundTo 4 (st.cons id / st.totalWeight)),
      { nodes := st.nodes, edges := g.edges })
  else
    ((runBN st.nodes g.edges ev).scores, { nodes := st.nodes, edges := g.edges })

/-! ### Sensitivity analysis (`runSensitivityAnalysis`) -/

/-- The estimator used inside the sensitivity analysis: DT when requested,
otherwise BN. -/
def runAlgoScores (alg : String) (nodes : List GraphNode)
    (edges : List GraphEdge) (ev : Evidence) : Scores :=
  if alg == "DT" then (runDT nodes edges ev).scores
  else (runBN nodes edges ev).scores

/-- Set the confidence of one named attribute of a node (in-place object
mutation in the source). -/
def setAttrConf (node : GraphNode) (attrKey : String) (c : ℚ) : GraphNode :=
  { node with
    customAttributes := node.customAttributes.map (fun l =>
      l.map (fun p =>
        if p.1 == attrKey then (p.1, { p.2 with confidence := c }) else p)) }

/-- Scenario A of the sensitivity analysis for one node (position `i`):
temporarily clear the override belief, compute a design baseline, then for
each attribute reduce its confidence by 0.2, rerun, restore, and record the
normalised effect on the target when it exceeds `0.005`. -/
def sensAttrScenario (alg : String) (edges : List GraphEdge) (ev : Evidence)
    (targetId : String) (i : ℕ) (node : GraphNode)
    (st : List (String × ℚ) × List GraphNode) :
    List (String × ℚ) × List GraphNode :=
  let realBelief := node.beliefsWorking
  let nodes1 :=
    if realBelief.isSome then
      modifyAt st.2 i (fun n => { n with beliefsWorking := none })
    else st.2
  let designBaselineTarget := runAlgoScores alg nodes1 edges ev targetId
  let st2 := (node.customAttributes.getD []).foldl
    (fun (acc : List (String × ℚ) × List GraphNode) entry =>
      let originalConf := entry.2.confidence
      let nodesP := modifyAt acc.2 i
        (fun n => setAttrConf n entry.1 (max 0 (originalConf - 0.2)))
      let newTargetVal := runAlgoScores alg nodesP edges ev targetId
      let nodesR := modifyAt nodesP i (fun n => setAttrConf n entry.1 originalConf)
      let delta := designBaselineTarget - newTargetVal
      let sensitivity := |delta / 0.2|
      if sensitivity > 0.005 then
        (setA acc.1 (node.id ++ ":" ++ entry.1) (roundTo 4 sensitivity), nodesR)
      else (acc.1, nodesR))
    (st.1, nodes1)
  let nodes3 :=
    if realBelief.isSome then
      modifyAt st2.2 i (fun n => { n with beliefsWorking := realBelief })
    else st2.2
  (st2.1, nodes3)

/-- Scenario B: perturb the node's evidence value down by 0.2 (clamped at 0)
and record the normalised effect on the target. -/
def sensStructScenario (alg : String) (edges : List GraphEdge) (ev : Evidence)
    (targetId : String) (globalBaselineTarget : ℚ) (node : GraphNode)
    (st : List (String × ℚ) × List GraphNode) :
    List (String × ℚ) × List GraphNode :=
  let currentVal := (lookupA ev node.id).getD (getNodePrior node)
  let perturbed := max 0 (currentVal - 0.2)
  let perturbedEvidence := setA ev node.id perturbed
  let newTargetVal := runAlgoScores alg st.2 edges perturbedEvidence targetId
  let delta := globalBaselineTarget - newTargetVal
  let actualPerturbation := currentVal - perturbed
  if actualPerturbation > 0.001 then
    let sensitivity := |delta / actualPerturbation|
    if sensitivity > 0.005 then
      (setA st.1 node.id (roundTo 4 sensitivity), st.2)
    else st
  else st

/-- `runSensitivityAnalysis`: for every node other than the target, run the
attribute scenario (when attributes exist) and the structural scenario,
accumulating the sensitivity map.  Returns the map and the final node list
(the perturbations are restored in place in the source). -/
def runSensitivityAnalysis (g : KnowledgeGraph) (targetId : String)
    (ev : Evidence) (alg : String) : List (String × ℚ) × KnowledgeGraph :=
  if containsId g.nodes targetId then
    let globalBaselineTarget := runAlgoScores alg g.nodes g.edges ev targetId
    let fin := (List.range g.nodes.length).foldl
      (fun (st : List (String × ℚ) × List GraphNode) i =>
        match st.2[i]? with
        | none => st
        | some node =>
          if node.id == targetId then st
          else
            let st :=
              if node.customAttributes.isSome &&
                  !(node.customAttributes.getD []).isEmpty then
                sensAttrScenario alg g.edges ev targetId i node st
              else st
            sensStructScenario alg g.edges ev targetId globalBaselineTarget node st)
      ([], g.nodes)
    (fin.1, { nodes := fin.2, edges := g.edges })
  else ([], g)

/-! ## Helper lemmas -/

theorem list_sum_nonneg {l : List ℚ} (h : ∀ x ∈ l, 0 ≤ x) : 0 ≤ l.sum := by
  induction l with
  | nil => simp
  | cons a l ih =>
    simp only [List.sum_cons]
    have ha := h a (by simp)
    have hl := ih (fun x hx => h x (by simp [hx]))
    linarith

theorem list_sum_le_length {l : List ℚ} (h : ∀ x ∈ l, x ≤ 1) :
    l.sum ≤ l.length := by
  induction l with
  | nil => simp
  | cons a l ih =>
    simp only [List.sum_cons, List.length_cons]
    have ha := h a (by simp)
    have hl := ih (fun x hx => h x (by simp [hx]))
    push_cast
    linarith

/-- The mean of a nonempty list of values in `[0,1]` lies in `[0,1]`. -/
theorem list_mean_mem_unit {l : List ℚ} (hne : l ≠ [])
    (h : ∀ x ∈ l, 0 ≤ x ∧ x ≤ 1) :
    0 ≤ l.sum / l.length ∧ l.sum / l.length ≤ 1 := by
  have hlen : (0 : ℚ) < l.length := by
    have := List.length_pos.mpr hne
    exact_mod_cast this
  constructor
  · exact div_nonneg (list_sum_nonneg fun x hx => (h x hx).1) (le_of_lt hlen)
  · rw [div_le_one hlen]
    exact list_sum_le_length fun x hx => (h x hx).2

/-! ## Claim C8 -/

/-- A node carrying a tag whose value parses to a negative number. -/
def c8Node : GraphNode :=
  { id := "T", ntype := .part, context := .design, tags := some [("x", "-5")] }

/-- Claim C8, counterexample: a node whose only intrinsic data is the
free-form tag `x: "-5"` (a numeric value `≤ 1`, so it is taken as a
confidence factor) gets the prior `0.95·0.4 + (−5)·0.6 = −2.62`, which is
not in `[0,1]`: the Prior Estimator does not return a scalar in `[0,1]` for
arbitrary free-form tags. -/
theorem C8_cx :
    getNodePrior c8Node = -2.62 ∧ getNodePrior c8Node < 0 := by
  constructor
  · exact qeq_num (by with_unfolding_all decide)
  · exact qlt_num (by with_unfolding_all decide)

/-- Claim C8 (amended): if every attribute confidence of the node lies in
`[0,1]`, its stored working belief (when present) lies in `[0,1]`, and every
tag-derived factor (percentage divided by 100, plain numeric `≤ 1`, or
qualitative table value) lies in `[0,1]`, then the Prior Estimator returns a
scalar in `[0,1]`.  (The original claim allowed arbitrary free-form tags, but
a tag parsing to a negative number, or a percentage above 166%, drives the
blended prior outside `[0,1]`.) -/
theorem C8_amended (node : GraphNode)
    (hattr : ∀ p ∈ node.customAttributes.getD [], 0 ≤ p.2.confidence ∧ p.2.confidence ≤ 1)
    (hwork : ∀ b, node.beliefsWorking = some b → 0 ≤ b ∧ b ≤ 1)
    (htag : ∀ p ∈ node.tags.getD [], ∀ q, tagFactor p.1 (lowerStr p.2) = some q →
      0 ≤ q ∧ q ≤ 1) :
    0 ≤ getNodePrior node ∧ getNodePrior node ≤ 1 := by
  by_cases h1 : (node.customAttributes.isSome &&
      !(node.customAttributes.getD []).isEmpty) = true
  · -- attribute branch: the mean of the confidences
    have hne : ((node.customAttributes.getD []).map (fun p => p.2.confidence)) ≠ [] := by
      cases hl : node.customAttributes.getD [] with
      | nil => rw [hl] at h1; simp at h1
      | cons a l => simp [hl]
    have hmem : ∀ x ∈ (node.customAttributes.getD []).map (fun p => p.2.confidence),
        0 ≤ x ∧ x ≤ 1 := by
      intro x hx
      rcases List.mem_map.mp hx with ⟨p, hp, rfl⟩
      exact hattr p hp
    have hm := list_mean_mem_unit hne hmem
    rw [List.length_map] at hm
    simpa only [getNodePrior, h1, if_true] using hm
  · -- tag / belief / default branch
    have h1' : (node.customAttributes.isSome &&
        !(node.customAttributes.getD []).isEmpty) = false := by
      simpa using h1
    by_cases h2 : (!((node.tags.getD []).filterMap
        (fun p => tagFactor p.1 (lowerStr p.2))).isEmpty) = true
    · -- blended tag factors
      have hne : ((node.tags.getD []).filterMap (fun p => tagFactor p.1 (lowerStr p.2))) ≠ [] := by
        cases hl : (node.tags.getD []).filterMap (fun p => tagFactor p.1 (lowerStr p.2)) with
        | nil => rw [hl] at h2; simp at h2
        | cons a l => simp [hl]
      have hmem : ∀ x ∈ (node.tags.getD []).filterMap (fun p => tagFactor p.1 (lowerStr p.2)),
          0 ≤ x ∧ x ≤ 1 := by
        intro x hx
        rcases List.mem_filterMap.mp hx with ⟨p, hp, hfx⟩
        exact htag p hp x hfx
      have hm := list_mean_mem_unit hne hmem
      simp only [getNodePrior, h1', Bool.false_eq_true, if_false, h2, if_true]
      constructor <;> nlinarith [hm.1, hm.2]
    · have h2' : (!((node.tags.getD []).filterMap
          (fun p => tagFactor p.1 (lowerStr p.2))).isEmpty) = false := by
        simpa using h2
      simp only [getNodePrior, h1', Bool.false_eq_true, if_false, h2', if_false]
      cases hb : node.beliefsWorking with
      | some b => exact hwork b hb
      | none => norm_num

/-- The witness node for C8. -/
def c8WNode : GraphNode :=
  { id := "W", ntype := .part, context := .design,
    beliefsWorking := some 0.5,
    customAttributes := some [("q", ⟨1, 0.2201⟩)],
    tags := some [("status", "HIGH")] }

/-- Claim C8, witness: a node with one attribute of confidence `0.2201`, a
working belief `0.5` and a qualitative tag satisfies the hypotheses, and the
amended range theorem applies to it. -/
theorem C8_witness : 0 ≤ getNodePrior c8WNode ∧ getNodePrior c8WNode ≤ 1 :=
  C8_amended c8WNode
    (by intro p hp; fin_cases hp; constructor <;>
      exact qle_num (by with_unfolding_all decide))
    (by intro b hb; injection hb with h; subst h; constructor <;>
      exact qle_num (by with_unfolding_all decide))
    (by
      intro p hp q hq
      fin_cases hp
      have hval : tagFactor ("status", ("HIGH" : String)).1
          (lowerStr ("status", ("HIGH" : String)).2) = some 0.98 := by
        with_unfolding_all decide
      rw [hval] at hq
      injection hq with h
      subst h
      exact ⟨qle_num (by with_unfolding_all decide),
        qle_num (by with_unfolding_all decide)⟩)

/-! ## Claim C6 -/

/-- Rounding to `d` decimals is monotone. -/
theorem roundTo_mono (d : ℕ) {q q' : ℚ} (h : q ≤ q') :
    roundTo d q ≤ roundTo d q' := by
  unfold roundTo
  rw [ratFloor_eq, ratFloor_eq, div_eq_mul_inv, div_eq_mul_inv]
  have h2 : (⌊q * 10 ^ d + 1 / 2⌋ : ℤ) ≤ ⌊q' * 10 ^ d + 1 / 2⌋ := by
    apply Int.floor_le_floor
    have hp : (0 : ℚ) < 10 ^ d := by positivity
    nlinarith
  have h3 : ((⌊q * 10 ^ d + 1 / 2⌋ : ℤ) : ℚ) ≤ ((⌊q' * 10 ^ d + 1 / 2⌋ : ℤ) : ℚ) := by
    exact_mod_cast h2
  exact mul_le_mul_of_nonneg_right h3 (by positivity)

/-- The `runningMin` fold: the flag is independent of the score map, and the
value is monotone in the underlying scores. -/
theorem runningMinAux_mono (nodes : List GraphNode) {s s' : Scores}
    (hs : ∀ id, s id ≤ s' id) (l : List String) :
    ∀ (p p' : ℚ × Bool), p.2 = p'.2 → p.1 ≤ p'.1 →
      (runningMinAux nodes s p l).2 = (runningMinAux nodes s' p' l).2 ∧
        (runningMinAux nodes s p l).1 ≤ (runningMinAux nodes s' p' l).1 := by
  induction l with
  | nil => intro p p' h2 h1; exact ⟨h2, h1⟩
  | cons a l ih =>
    intro p p' h2 h1
    obtain ⟨pv, pb⟩ := p
    obtain ⟨pv', pb'⟩ := p'
    simp only at h2 h1
    subst h2
    have hval : (if containsId nodes a then s a else 0.95) ≤
        (if containsId nodes a then s' a else 0.95) := by
      split
      · exact hs a
      · exact le_refl _
    rw [runningMinAux, runningMinAux]
    apply ih
    · cases pb <;> rfl
    · cases pb with
      | false => simpa using hval
      | true => simpa using min_le_min h1 hval

theorem runningMin_mono (nodes : List GraphNode) {s s' : Scores}
    (hs : ∀ id, s id ≤ s' id) (l : List String) :
    (runningMin nodes s l).2 = (runningMin nodes s' l).2 ∧
      (runningMin nodes s l).1 ≤ (runningMin nodes s' l).1 :=
  runningMinAux_mono nodes hs l (1.0, false) (1.0, false) rfl (le_refl _)

/-- Generic pairwise fold lemma: a relation preserved by corresponding steps
is preserved by corresponding folds. -/
theorem foldl_rel {σ σ' ι : Type} (R : σ → σ' → Prop) (f : σ → ι → σ)
    (g : σ' → ι → σ') (l : List ι) :
    ∀ (a : σ) (b : σ'), R a b → (∀ x ∈ l, ∀ a b, R a b → R (f a x) (g b x)) →
      R (l.foldl f a) (l.foldl g b) := by
  induction l with
  | nil => intro a b hab _; exact hab
  | cons x l ih =>
    intro a b hab hstep
    exact ih (f a x) (g b x) (hstep x (by simp) a b hab)
      (fun y hy => hstep y (by simp [hy]))

/-- Division by a fixed positive rational is monotone. -/
theorem qdiv_mono_num {a b c : ℚ} (h : a ≤ b) (hc : 0 < c) : a / c ≤ b / c := by
  rw [div_eq_mul_inv, div_eq_mul_inv]
  exact mul_le_mul_of_nonneg_right h (le_of_lt (inv_pos.mpr hc))

/-- Monotonicity of the BN fusion blend: for equal presence flags and
componentwise-ordered signals, the blend is ordered. -/
theorem bnFuse_mono {prior : ℚ} {P P' L L' : ℚ × Bool}
    (hP2 : P.2 = P'.2) (hP1 : P.1 ≤ P'.1) (hL2 : L.2 = L'.2) (hL1 : L.1 ≤ L'.1) :
    bnFuse prior P L ≤ bnFuse prior P' L' := by
  unfold bnFuse
  rw [hP2, hL2]
  cases hp : P'.2 <;> cases hl : L'.2 <;>
    simp only [Bool.false_eq_true, if_true, if_false] <;>
    apply qdiv_mono_num (by nlinarith) (by norm_num)

/-- Monotonicity of one BN node update in the score maps, for evidence
mappings with the same key set. -/
theorem bnNodeUpdate_mono (nodes : List GraphNode) (edges : List GraphEdge)
    {ev ev' : Evidence}
    (hk : ∀ id, (lookupA ev id).isSome = (lookupA ev' id).isSome)
    {s s' : Scores} (hs : ∀ id, s id ≤ s' id)
    {acc acc' : Scores × ℚ} (hacc : ∀ id, acc.1 id ≤ acc'.1 id)
    (node : GraphNode) :
    ∀ id, (bnNodeUpdate nodes edges ev s acc node).1 id ≤
      (bnNodeUpdate nodes edges ev' s' acc' node).1 id := by
  intro id
  unfold bnNodeUpdate
  simp only [hk node.id]
  split
  · exact hacc id
  · obtain ⟨hP2, hP1⟩ := runningMin_mono nodes hs (getParents edges node.id)
    obtain ⟨hL2, hL1⟩ := runningMin_mono nodes hs (childrenOf edges node.id)
    have hfin : bnFuse (getNodePrior node)
          (runningMin nodes s (getParents edges node.id))
          (runningMin nodes s (childrenOf edges node.id)) * (1 - 0.2) +
          s node.id * 0.2 ≤
        bnFuse (getNodePrior node)
          (runningMin nodes s' (getParents edges node.id))
          (runningMin nodes s' (childrenOf edges node.id)) * (1 - 0.2) +
          s' node.id * 0.2 := by
      have h1 := @bnFuse_mono (getNodePrior node) _ _ _ _ hP2 hP1 hL2 hL1
      have h2 := hs node.id
      nlinarith
    simp only [setS]
    split
    · exact roundTo_mono 5 hfin
    · exact hacc id

/-- Monotonicity of one full BN iteration. -/
theorem bnStep_mono (nodes : List GraphNode) (edges : List GraphEdge)
    {ev ev' : Evidence}
    (hk : ∀ id, (lookupA ev id).isSome = (lookupA ev' id).isSome)
    {s s' : Scores} (hs : ∀ id, s id ≤ s' id) :
    ∀ id, (bnStep nodes edges ev s).1 id ≤ (bnStep nodes edges ev' s').1 id := by
  show ∀ id, (nodes.foldl (bnNodeUpdate nodes edges ev s) (s, 0)).1 id ≤
    (nodes.foldl (bnNodeUpdate nodes edges ev' s') (s', 0)).1 id
  exact foldl_rel (fun (a b : Scores × ℚ) => ∀ id, a.1 id ≤ b.1 id)
    (bnNodeUpdate nodes edges ev s) (bnNodeUpdate nodes edges ev' s') nodes
    (s, 0) (s', 0) hs
    (fun x _ a b hab => bnNodeUpdate_mono nodes edges hk hs hab x)

/-- The BN relaxation run for a fixed number of iterations (the loop of
`runBN` without its early-stopping rule; it applies the same `bnStep`). -/
def bnIterN (nodes : List GraphNode) (edges : List GraphEdge) (ev : Evidence) :
    ℕ → Scores → Scores
  | 0, s => s
  | k + 1, s => bnIterN nodes edges ev k (bnStep nodes edges ev s).1

theorem bnIterN_mono (nodes : List GraphNode) (edges : List GraphEdge)
    {ev ev' : Evidence}
    (hk : ∀ id, (lookupA ev id).isSome = (lookupA ev' id).isSome) (k : ℕ) :
    ∀ {s s' : Scores}, (∀ id, s id ≤ s' id) →
      ∀ id, bnIterN nodes edges ev k s id ≤ bnIterN nodes edges ev' k s' id := by
  induction k with
  | zero => intro s s' hs id; exact hs id
  | succ k ih =>
    intro s s' hs id
    rw [bnIterN, bnIterN]
    exact ih (bnStep_mono nodes edges hk hs) id

/-- Monotonicity of the initial score assignment in the evidence values
(for evidence mappings with the same key set and pointwise-ordered values). -/
theorem initScores_mono (nodes : List GraphNode) {ev ev' : Evidence}
    (hk : ∀ id, (lookupA ev id).isSome = (lookupA ev' id).isSome)
    (hv : ∀ id v v', lookupA ev id = some v → lookupA ev' id = some v' → v ≤ v') :
    ∀ id, initScores nodes ev id ≤ initScores nodes ev' id := by
  intro id
  unfold initScores
  cases hf : findNode nodes id with
  | none => exact le_refl _
  | some n =>
    dsimp only
    cases he : lookupA ev n.id with
    | none =>
      have he' : lookupA ev' n.id = none := by
        have h := hk n.id
        rw [he] at h
        cases he2 : lookupA ev' n.id with
        | none => rfl
        | some v => rw [he2] at h; simp at h
      rw [he']
    | some v =>
      have h := hk n.id
      rw [he] at h
      cases he2 : lookupA ev' n.id with
      | none => rw [he2] at h; simp at h
      | some v' => simpa using hv n.id v v' he he2

/-! The 3-node chain `A → B → C` with intrinsic priors supplied through one
custom attribute per node (so `getNodePrior` returns exactly the given
value). -/

/-- The chain's nodes, with attribute-derived priors `qA`, `qB`, `qC`. -/
def chainNodes (qA qB qC : ℚ) : List GraphNode :=
  [{ id := "A", ntype := .part, context := .design,
     customAttributes := some [("q", ⟨1, qA⟩)] },
   { id := "B", ntype := .part, context := .design,
     customAttributes := some [("q", ⟨1, qB⟩)] },
   { id := "C", ntype := .part, context := .design,
     customAttributes := some [("q", ⟨1, qC⟩)] }]

/-- The chain's edges `A → B` and `B → C`. -/
def chainEdges : List GraphEdge :=
  [⟨"eAB", "A", "B", 1⟩, ⟨"eBC", "B", "C", 1⟩]

/-- The chain graph. -/
def chainGraph (qA qB qC : ℚ) : KnowledgeGraph :=
  { nodes := chainNodes qA qB qC, edges := chainEdges }

/-- Claim C6, counterexample: on the chain `A→B→C` with priors
`qB = 0.2201`, `qC = 0.9325`, BN only and evidence only on A, raising A's
evidence from `0.9886` to `0.9887` makes C's fused score drop from `0.8182`
to `0.8181` (the run with higher evidence satisfies the `1e-4` stopping
tolerance one iteration earlier, landing lower).  This refutes "raising A's
evidence toward 1.0 never decreases B's or C's resulting score". -/
theorem C6_cx :
    (0.9886 : ℚ) < 0.9887 ∧
    (analyze (chainGraph 0.5 0.2201 0.9325) [("A", 0.9886)] ["BN"] true
        (fun _ => 0) (fun _ => 1)).1 "C" = 0.8182 ∧
    (analyze (chainGraph 0.5 0.2201 0.9325) [("A", 0.9887)] ["BN"] true
        (fun _ => 0) (fun _ => 1)).1 "C" = 0.8181 ∧
    (analyze (chainGraph 0.5 0.2201 0.9325) [("A", 0.9887)] ["BN"] true
        (fun _ => 0) (fun _ => 1)).1 "C" <
      (analyze (chainGraph 0.5 0.2201 0.9325) [("A", 0.9886)] ["BN"] true
        (fun _ => 0) (fun _ => 1)).1 "C" := by
  refine ⟨by norm_num, ?_, ?_, ?_⟩
  · exact qeq_num (by with_unfolding_all decide)
  · exact qeq_num (by with_unfolding_all decide)
  · exact qlt_num (by with_unfolding_all decide)

/-- Claim C6 (amended): on every 3-node chain `A→B→C` (arbitrary intrinsic
priors), with evidence only on A, the BN relaxation compared at any **equal
iteration count** `k` is pointwise monotone: raising A's evidence never
decreases any node's `k`-step score (in particular B's and C's).  The
implemented runner adds an early-stopping rule (tolerance `1e-4`, cap 50)
which can stop the two runs at different iteration counts, breaking exact
monotonicity by about one rounding unit — as the counterexample exhibits. -/
theorem C6_amended (qA qB qC a a' : ℚ) (h : a ≤ a') (k : ℕ) :
    ∀ id, bnIterN (chainNodes qA qB qC) chainEdges [("A", a)] k
        (initScores (chainNodes qA qB qC) [("A", a)]) id ≤
      bnIterN (chainNodes qA qB qC) chainEdges [("A", a')] k
        (initScores (chainNodes qA qB qC) [("A", a')]) id := by
  have hk : ∀ id, (lookupA ([("A", a)] : Evidence) id).isSome =
      (lookupA ([("A", a')] : Evidence) id).isSome := by
    intro id
    simp only [lookupA, List.find?]
    cases hc : (("A", a) : String × ℚ).1 == id <;> simp_all
  have hv : ∀ id v v', lookupA ([("A", a)] : Evidence) id = some v →
      lookupA ([("A", a')] : Evidence) id = some v' → v ≤ v' := by
    intro id v v' hx hy
    simp only [lookupA, List.find?] at hx hy
    cases hc : (("A", a) : String × ℚ).1 == id <;> rw [hc] at hx <;> simp_all
  exact bnIterN_mono (chainNodes qA qB qC) chainEdges hk k
    (initScores_mono (chainNodes qA qB qC) hk hv)

/-- Claim C6, witness: the amended monotonicity theorem applied at the
counterexample's chain, evidence values `0.9886 ≤ 0.9887`, for 15
iterations. -/
theorem C6_witness :
    (0.9886 : ℚ) ≤ 0.9887 ∧
    ∀ id, bnIterN (chainNodes 0.5 0.2201 0.9325) chainEdges [("A", 0.9886)] 15
        (initScores (chainNodes 0.5 0.2201 0.9325) [("A", 0.9886)]) id ≤
      bnIterN (chainNodes 0.5 0.2201 0.9325) chainEdges [("A", 0.9887)] 15
        (initScores (chainNodes 0.5 0.2201 0.9325) [("A", 0.9887)]) id :=
  ⟨by norm_num, C6_amended 0.5 0.2201 0.9325 0.9886 0.9887 (by norm_num) 15⟩

/-! ## Claim C2

`runLinearRegression` and `runLogisticRegression` guard every weight and
bias write with `this.trainingEnabled`, but `runTransformer` updates the
attention logits unconditionally (and never reads the flag at all), so
`analyze` with `trainingEnabled = false` still mutates
`modelParams.attention`. -/

/-- The failing input for C2: `A → B ← C` with A and C evidenced (1 and 0),
and B's attention logits pre-initialised to 0 for both neighbors. -/
def c2Graph : KnowledgeGraph :=
  { nodes :=
      [{ id := "A", ntype := .part, context := .design },
       { id := "B", ntype := .part, context := .design,
         modelParams := some { attention := some [("A", 0), ("C", 0)] } },
       { id := "C", ntype := .part, context := .design }],
    edges := [⟨"e1", "A", "B", 1⟩, ⟨"e2", "C", "B", 1⟩] }

/-- B's attention logit for neighbor A after `analyze` with
`trainingEnabled = false` and only the Transformer selected.  (`fexp` is
instantiated to the constant 1; in the first layer all logits are equal, so
the softmax weights are `1/2` regardless of the exponential.) -/
def c2AttAfterA : ℚ :=
  (lookupA (((findNode (analyze c2Graph [("A", 1), ("C", 0)] ["Transformer"]
      false (fun _ => 0) (fun _ => 1)).2.nodes "B").getD
        ⟨"", .part, .design, none, none, none, none⟩).modelParams.getD
          {} |>.attention.getD []) "A").getD 999

/-- Claim C2, code-bug exhibit: with `trainingEnabled = false`, running
`analyze` with the Transformer changes node B's stored attention logit for A
from `0` to `27/1600 = 0.016875` — the attention-logit update in
`runTransformer` is not suppressed by the training gate, contradicting the
claim (and spec), which the explicit gates in `runLinearRegression` and
`runLogisticRegression` show to be the intent. -/
theorem C2_bug : c2AttAfterA = 27 / 1600 ∧ (27 / 1600 : ℚ) ≠ 0 := by
  constructor
  · exact qeq_num (by with_unfolding_all decide)
  · exact qne_num (by with_unfolding_all decide)

/-! ## Frame machinery: engine mutations touch only `modelParams` -/

/-- Two nodes that agree on everything except possibly `modelParams`. -/
def eqExceptMP (a b : GraphNode) : Prop :=
  b.id = a.id ∧ b.ntype = a.ntype ∧ b.context = a.context ∧
    b.beliefsWorking = a.beliefsWorking ∧
    b.customAttributes = a.customAttributes ∧ b.tags = a.tags

theorem eqExceptMP_refl (a : GraphNode) : eqExceptMP a a :=
  ⟨rfl, rfl, rfl, rfl, rfl, rfl⟩

theorem eqExceptMP_trans {a b c : GraphNode} (h1 : eqExceptMP a b)
    (h2 : eqExceptMP b c) : eqExceptMP a c :=
  ⟨h2.1.trans h1.1, h2.2.1.trans h1.2.1, h2.2.2.1.trans h1.2.2.1,
    h2.2.2.2.1.trans h1.2.2.2.1, h2.2.2.2.2.1.trans h1.2.2.2.2.1,
    h2.2.2.2.2.2.trans h1.2.2.2.2.2⟩

theorem eqExceptMP_setMP {a b : GraphNode} (h : eqExceptMP a b)
    (mp : Option ModelParams) : eqExceptMP a { b with modelParams := mp } := h

/-- A node equal up to `modelParams` has the same prior (the prior never
reads the learned parameters). -/
theorem eqExceptMP_prior {a b : GraphNode} (h : eqExceptMP a b) :
    getNodePrior b = getNodePrior a := by
  unfold getNodePrior
  rw [h.2.2.2.1, h.2.2.2.2.1, h.2.2.2.2.2]

/-- The frame relation on node lists. -/
def framedNodes (l l' : List GraphNode) : Prop := List.Forall₂ eqExceptMP l l'

theorem framedNodes_refl (l : List GraphNode) : framedNodes l l :=
  List.forall₂_same.mpr (fun x _ => eqExceptMP_refl x)

theorem framedNodes_trans {l₁ l₂ l₃ : List GraphNode} (h1 : framedNodes l₁ l₂)
    (h2 : framedNodes l₂ l₃) : framedNodes l₁ l₃ := by
  induction h1 generalizing l₃ with
  | nil => cases h2; exact List.Forall₂.nil
  | cons hab h ih =>
    cases h2 with
    | cons hbc h' => exact List.Forall₂.cons (eqExceptMP_trans hab hbc) (ih h')

theorem framedNodes_ids {l l' : List GraphNode} (h : framedNodes l l') :
    nodeIds l' = nodeIds l := by
  induction h with
  | nil => rfl
  | cons hab _ ih => simp only [nodeIds, List.map_cons] at ih ⊢; rw [hab.1, ih]

theorem framedNodes_length {l l' : List GraphNode} (h : framedNodes l l') :
    l'.length = l.length :=
  (List.Forall₂.length_eq h).symm

/-- `findNode` through the frame relation. -/
theorem framedNodes_findNode {l l' : List GraphNode} (h : framedNodes l l')
    (id : String) :
    (findNode l id = none → findNode l' id = none) ∧
      (∀ a, findNode l id = some a →
        ∃ b, findNode l' id = some b ∧ eqExceptMP a b) := by
  induction h with
  | nil => exact ⟨fun _ => rfl, fun a ha => by simp [findNode] at ha⟩
  | cons hab hrest ih =>
    rename_i x y l₁ l₂
    simp only [findNode, List.find?]
    rw [hab.1]
    cases hx : (x.id == id) with
    | false => exact ih
    | true =>
      exact ⟨fun hcontr => by simp at hcontr,
        fun a ha => ⟨y, rfl, by injection ha with h2; rwa [← h2]⟩⟩

/-! `modifyAt` lemmas -/

theorem modifyAt_nil (i : ℕ) (f : GraphNode → GraphNode) :
    modifyAt [] i f = [] := by
  unfold modifyAt; simp

theorem modifyAt_cons_zero (a : GraphNode) (l : List GraphNode)
    (f : GraphNode → GraphNode) : modifyAt (a :: l) 0 f = f a :: l := by
  unfold modifyAt; simp [List.set]

theorem modifyAt_cons_succ (a : GraphNode) (l : List GraphNode) (i : ℕ)
    (f : GraphNode → GraphNode) :
    modifyAt (a :: l) (i + 1) f = a :: modifyAt l i f := by
  unfold modifyAt
  cases h : l[i]? with
  | none => simp [h]
  | some b => simp [h, List.set]

theorem modifyAt_id (l : List GraphNode) (i : ℕ) :
    modifyAt l i (fun a => a) = l := by
  induction l generalizing i with
  | nil => exact modifyAt_nil i _
  | cons a l ih =>
    cases i with
    | zero => exact modifyAt_cons_zero a l _
    | succ i => rw [modifyAt_cons_succ, ih]

theorem modifyAt_comp (l : List GraphNode) (i : ℕ)
    (f g : GraphNode → GraphNode) :
    modifyAt (modifyAt l i f) i g = modifyAt l i (fun a => g (f a)) := by
  induction l generalizing i with
  | nil => rw [modifyAt_nil, modifyAt_nil, modifyAt_nil]
  | cons a l ih =>
    cases i with
    | zero => rw [modifyAt_cons_zero, modifyAt_cons_zero, modifyAt_cons_zero]
    | succ i => rw [modifyAt_cons_succ, modifyAt_cons_succ, modifyAt_cons_succ, ih]

theorem modifyAt_congr_fun (l : List GraphNode) (i : ℕ)
    {f g : GraphNode → GraphNode} (h : ∀ a, l[i]? = some a → f a = g a) :
    modifyAt l i f = modifyAt l i g := by
  unfold modifyAt
  cases hg : l[i]? with
  | none => rfl
  | some a => dsimp only; rw [h a hg]

theorem modifyAt_framed {l₀ l : List GraphNode} (h : framedNodes l₀ l) (i : ℕ)
    {f : GraphNode → GraphNode} (hf : ∀ a b, eqExceptMP a b → eqExceptMP a (f b)) :
    framedNodes l₀ (modifyAt l i f) := by
  induction h generalizing i with
  | nil => rw [modifyAt_nil]; exact List.Forall₂.nil
  | cons hab hrest ih =>
    cases i with
    | zero =>
      rw [modifyAt_cons_zero]
      exact List.Forall₂.cons (hf _ _ hab) hrest
    | succ i =>
      rw [modifyAt_cons_succ]
      exact List.Forall₂.cons hab (ih i)

/-- Generic fold invariant. -/
theorem foldl_inv {σ ι : Type} (l : List ι) (f : σ → ι → σ) (P : σ → Prop) :
    ∀ acc, P acc → (∀ acc x, x ∈ l → P acc → P (f acc x)) → P (l.foldl f acc) := by
  induction l with
  | nil => intro acc h _; exact h
  | cons x l ih =>
    intro acc h hstep
    exact ih (f acc x) (hstep acc x (by simp) h)
      (fun acc y hy => hstep acc y (by simp [hy]))

theorem lrNodeUpdate_framed {nodes₀ : List GraphNode} (training : Bool)
    (edges : List GraphEdge) (ev : Evidence) (scores : Scores) {acc : PassAcc}
    (h : framedNodes nodes₀ acc.nodes) (i : ℕ) :
    framedNodes nodes₀ (lrNodeUpdate training edges ev scores acc i).nodes := by
  unfold lrNodeUpdate
  cases hg : acc.nodes[i]? with
  | none => exact h
  | some node =>
    dsimp only
    split
    · exact h
    · split
      · exact h
      · exact modifyAt_framed h i (fun a b hab => eqExceptMP_setMP hab _)

theorem logRegNodeUpdate_framed {nodes₀ : List GraphNode} (training : Bool)
    (fexp : ℚ → ℚ) (edges : List GraphEdge) (ev : Evidence) (scores : Scores)
    {acc : PassAcc} (h : framedNodes nodes₀ acc.nodes) (i : ℕ) :
    framedNodes nodes₀ (logRegNodeUpdate training fexp edges ev scores acc i).nodes := by
  unfold logRegNodeUpdate
  cases hg : acc.nodes[i]? with
  | none => exact h
  | some node =>
    dsimp only
    split
    · exact h
    · split
      · exact modifyAt_framed h i (fun a b hab => eqExceptMP_setMP hab _)
      · exact modifyAt_framed h i (fun a b hab => eqExceptMP_setMP hab _)

theorem tfNodeUpdate_framed {nodes₀ : List GraphNode} (fexp : ℚ → ℚ)
    (edges : List GraphEdge) (ev : Evidence) (scores : Scores) {acc : PassAcc}
    (h : framedNodes nodes₀ acc.nodes) (i : ℕ) :
    framedNodes nodes₀ (tfNodeUpdate fexp edges ev scores acc i).nodes := by
  unfold tfNodeUpdate
  cases hg : acc.nodes[i]? with
  | none => exact h
  | some node =>
    dsimp only
    split
    · exact h
    · split
      · exact h
      · exact modifyAt_framed h i (fun a b hab => eqExceptMP_setMP hab _)

theorem runLinearRegression_framed (training : Bool) (nodes : List GraphNode)
    (edges : List GraphEdge) (ev : Evidence) :
    framedNodes nodes (runLinearRegression training nodes edges ev).2 := by
  unfold runLinearRegression
  dsimp only
  apply foldl_inv (List.range 5) _
    (fun (st : List GraphNode × Scores × ℚ) => framedNodes nodes st.1)
  · exact framedNodes_refl nodes
  · intro st _ _ hst
    unfold lrPass
    dsimp only
    exact foldl_inv (List.range st.1.length) _
      (fun (acc : PassAcc) => framedNodes nodes acc.nodes) ⟨st.1, st.2.1, 0⟩ hst
      (fun acc i _ hacc => lrNodeUpdate_framed training edges ev st.2.1 hacc i)

theorem runLogisticRegression_framed (training : Bool) (fexp : ℚ → ℚ)
    (nodes : List GraphNode) (edges : List GraphEdge) (ev : Evidence) :
    framedNodes nodes (runLogisticRegression training fexp nodes edges ev).2 := by
  unfold runLogisticRegression
  dsimp only
  apply foldl_inv (List.range 5) _
    (fun (st : List GraphNode × Scores × ℚ) => framedNodes nodes st.1)
  · exact framedNodes_refl nodes
  · intro st _ _ hst
    unfold logRegPass
    dsimp only
    exact foldl_inv (List.range st.1.length) _
      (fun (acc : PassAcc) => framedNodes nodes acc.nodes) ⟨st.1, st.2.1, 0⟩ hst
      (fun acc i _ hacc => logRegNodeUpdate_framed training fexp edges ev st.2.1 hacc i)

theorem runTransformer_framed (fexp : ℚ → ℚ) (nodes : List GraphNode)
    (edges : List GraphEdge) (ev : Evidence) :
    framedNodes nodes (runTransformer fexp nodes edges ev).2 := by
  unfold runTransformer
  dsimp only
  apply foldl_inv (List.range 3) _
    (fun (st : List GraphNode × Scores × ℚ) => framedNodes nodes st.1)
  · exact framedNodes_refl nodes
  · intro st _ _ hst
    unfold tfPass
    dsimp only
    exact foldl_inv (List.range st.1.length) _
      (fun (acc : PassAcc) => framedNodes nodes acc.nodes) ⟨st.1, st.2.1, 0⟩ hst
      (fun acc i _ hacc => tfNodeUpdate_framed fexp edges ev st.2.1 hacc i)

theorem stageFn_nodes (g : KnowledgeGraph) (ev : Evidence) (tr : Bool)
    (rng : ℕ → ℚ) (fexp : ℚ → ℚ) (st : FusionState) (name : String) :
    (stageFn g ev tr rng fexp st name).nodes =
      (stageRun g ev tr rng fexp st name).2.1 := rfl

theorem stageFn_cons (g : KnowledgeGraph) (ev : Evidence) (tr : Bool)
    (rng : ℕ → ℚ) (fexp : ℚ → ℚ) (st : FusionState) (name : String) :
    (stageFn g ev tr rng fexp st name).cons =
      (addToConsensus (nodeIds g.nodes) st
        (stageRun g ev tr rng fexp st name).1 name).cons := rfl

theorem stageFn_totalWeight (g : KnowledgeGraph) (ev : Evidence) (tr : Bool)
    (rng : ℕ → ℚ) (fexp : ℚ → ℚ) (st : FusionState) (name : String) :
    (stageFn g ev tr rng fexp st name).totalWeight =
      st.totalWeight + (stageRun g ev tr rng fexp st name).1.reliability *
        baseBias name := rfl

/-- Case analysis on the runner dispatched by a stage. -/
theorem stageRun_cases (g : KnowledgeGraph) (ev : Evidence) (tr : Bool)
    (rng : ℕ → ℚ) (fexp : ℚ → ℚ) (st : FusionState) (name : String)
    (P : AlgorithmResult × List GraphNode × ℕ → Prop)
    (hBN : P (runBN st.nodes g.edges ev, st.nodes, st.k))
    (hMCS : P ((runMCS st.nodes g.edges ev rng st.k).1, st.nodes,
      (runMCS st.nodes g.edges ev rng st.k).2))
    (hMCMC : P ((runMCMC st.nodes g.edges ev fexp rng st.k).1, st.nodes,
      (runMCMC st.nodes g.edges ev fexp rng st.k).2))
    (hDT : P (runDT st.nodes g.edges ev, st.nodes, st.k))
    (hLR : P ((runLinearRegression tr st.nodes g.edges ev).1,
      (runLinearRegression tr st.nodes g.edges ev).2, st.k))
    (hLogReg : P ((runLogisticRegression tr fexp st.nodes g.edges ev).1,
      (runLogisticRegression tr fexp st.nodes g.edges ev).2, st.k))
    (hVI : P (runVI st.nodes g.edges ev, st.nodes, st.k))
    (hTF : P ((runTransformer fexp st.nodes g.edges ev).1,
      (runTransformer fexp st.nodes g.edges ev).2, st.k))
    (hOther : P (⟨fun _ => 0, 0⟩, st.nodes, st.k)) :
    P (stageRun g ev tr rng fexp st name) := by
  unfold stageRun
  split
  · exact hBN
  · split
    · exact hMCS
    · split
      · exact hMCMC
      · split
        · exact hDT
        · split
          · exact hLR
          · split
            · exact hLogReg
            · split
              · exact hVI
              · split
                · exact hTF
                · exact hOther

set_option maxHeartbeats 2000000 in
/-- Through a full `analyze` stage, nodes change only in `modelParams`. -/
theorem stageFn_framed (g : KnowledgeGraph) (ev : Evidence) (tr : Bool)
    (rng : ℕ → ℚ) (fexp : ℚ → ℚ) {st : FusionState}
    (h : framedNodes g.nodes st.nodes) (name : String) :
    framedNodes g.nodes (stageFn g ev tr rng fexp st name).nodes := by
  rw [stageFn_nodes]
  apply stageRun_cases g ev tr rng fexp st name
    (fun r => framedNodes g.nodes r.2.1)
  · exact h
  · exact h
  · exact h
  · exact h
  · exact framedNodes_trans h (runLinearRegression_framed tr st.nodes g.edges ev)
  · exact framedNodes_trans h (runLogisticRegression_framed tr fexp st.nodes g.edges ev)
  · exact h
  · exact framedNodes_trans h (runTransformer_framed fexp st.nodes g.edges ev)
  · exact h

theorem analyzeCore_framed (g : KnowledgeGraph) (ev : Evidence)
    (algos : List String) (tr : Bool) (rng : ℕ → ℚ) (fexp : ℚ → ℚ) :
    framedNodes g.nodes (analyzeCore g ev algos tr rng fexp).nodes := by
  unfold analyzeCore
  apply foldl_inv runnerOrder _ (fun (st : FusionState) => framedNodes g.nodes st.nodes)
  · exact framedNodes_refl g.nodes
  · intro st name _ hst
    split
    · exact stageFn_framed g ev tr rng fexp hst name
    · exact hst

/-! ## Sensitivity analysis restores the graph (claim C10 machinery) -/

theorem modifyAt_getElem_self {l : List GraphNode} {i : ℕ} {a : GraphNode}
    (h : l[i]? = some a) (f : GraphNode → GraphNode) :
    (modifyAt l i f)[i]? = some (f a) := by
  induction l generalizing i with
  | nil => simp at h
  | cons b l ih =>
    cases i with
    | zero =>
      rw [List.getElem?_cons_zero] at h
      injection h with h
      rw [h, modifyAt_cons_zero, List.getElem?_cons_zero]
    | succ i =>
      rw [List.getElem?_cons_succ] at h
      rw [modifyAt_cons_succ, List.getElem?_cons_succ]
      exact ih h

/-- Lowering and then restoring the confidence of an attribute whose key
occurs only once restores the node exactly. -/
theorem setAttrConf_restore {m node : GraphNode}
    (hm : m.customAttributes = node.customAttributes)
    (hnd : ((node.customAttributes.getD []).map Prod.fst).Nodup)
    {k : String} {attr : CustomAttr}
    (hmem : (k, attr) ∈ node.customAttributes.getD []) (c : ℚ) :
    setAttrConf (setAttrConf m k c) k attr.confidence = m := by
  cases hca : node.customAttributes with
  | none => rw [hca] at hmem; simp at hmem
  | some l =>
    rw [hca] at hnd hmem
    rw [Option.getD_some] at hnd hmem
    have hinj := List.inj_on_of_nodup_map hnd
    unfold setAttrConf
    dsimp only
    rw [hm, hca]
    rw [Option.map_some', Option.map_some']
    rw [List.map_map]
    have hpt : l.map
        ((fun p : String × CustomAttr =>
            if p.1 == k then (p.1, { p.2 with confidence := attr.confidence }) else p) ∘
          (fun p : String × CustomAttr =>
            if p.1 == k then (p.1, { p.2 with confidence := c }) else p)) = l := by
      conv_rhs => rw [← List.map_id l]
      apply List.map_congr_left
      intro p hp
      by_cases h : p.1 = k
      · have hpk : p = (k, attr) := hinj hp hmem h
        rw [hpk]
        simp
      · simp [Function.comp, h]
    rw [hpt, ← hca, ← hm]

/-- One perturb-and-restore attribute step is the identity on the node list. -/
theorem sensRestore_step (i : ℕ) (node m : GraphNode) (nodes1 : List GraphNode)
    (hm1 : nodes1[i]? = some m)
    (hmca : m.customAttributes = node.customAttributes)
    (hnd : ((node.customAttributes.getD []).map Prod.fst).Nodup)
    (entry : String × CustomAttr) (hmem : entry ∈ node.customAttributes.getD [])
    (x : List GraphNode) (hx : x = nodes1) (c : ℚ) :
    modifyAt (modifyAt x i (fun n => setAttrConf n entry.1 c)) i
      (fun n => setAttrConf n entry.1 entry.2.confidence) = nodes1 := by
  subst hx
  have hfun : ∀ a, x[i]? = some a →
      setAttrConf (setAttrConf a entry.1 c) entry.1 entry.2.confidence = a := by
    intro a ha
    rw [hm1] at ha
    injection ha with ha
    rw [← ha]
    exact setAttrConf_restore hmca hnd hmem c
  rw [modifyAt_comp]
  rw [modifyAt_congr_fun x i hfun, modifyAt_id]

/-- The attribute scenario returns the node list it was given. -/
theorem sensAttrScenario_nodes (alg : String) (edges : List GraphEdge)
    (ev : Evidence) (targetId : String) (i : ℕ) (node : GraphNode)
    (st : List (String × ℚ) × List GraphNode) (hg : st.2[i]? = some node)
    (hnd : ((node.customAttributes.getD []).map Prod.fst).Nodup) :
    (sensAttrScenario alg edges ev targetId i node st).2 = st.2 := by
  unfold sensAttrScenario
  dsimp only
  by_cases hS : node.beliefsWorking.isSome
  · simp only [if_pos hS]
    have hm1 : (modifyAt st.2 i
        (fun n => { n with beliefsWorking := none }))[i]? =
        some ({ node with beliefsWorking := none }) :=
      modifyAt_getElem_self hg _
    have hmain : ∀ x : List GraphNode,
        x = modifyAt st.2 i (fun n => { n with beliefsWorking := none }) →
        modifyAt x i
          (fun n => { n with beliefsWorking := node.beliefsWorking }) = st.2 := by
      intro x hx
      subst hx
      have hfun : ∀ a, st.2[i]? = some a →
          ({ ({ a with beliefsWorking := none } : GraphNode) with
            beliefsWorking := node.beliefsWorking } : GraphNode) = a := by
        intro a ha
        rw [hg] at ha
        injection ha with ha
        rw [← ha]
      rw [modifyAt_comp]
      dsimp only
      rw [modifyAt_congr_fun st.2 i hfun, modifyAt_id]
    refine hmain _ (foldl_inv _ _
      (fun acc : List (String × ℚ) × List GraphNode =>
        acc.2 = modifyAt st.2 i (fun n => { n with beliefsWorking := none }))
      _ rfl ?_)
    intro acc entry hmem hacc
    dsimp only
    split
    · exact sensRestore_step i node ({ node with beliefsWorking := none }) _
        hm1 rfl hnd entry hmem acc.2 hacc _
    · exact sensRestore_step i node ({ node with beliefsWorking := none }) _
        hm1 rfl hnd entry hmem acc.2 hacc _
  · simp only [if_neg hS]
    refine foldl_inv _ _
      (fun acc : List (String × ℚ) × List GraphNode => acc.2 = st.2) _ rfl ?_
    intro acc entry hmem hacc
    dsimp only
    split
    · exact sensRestore_step i node node st.2 hg rfl hnd entry hmem acc.2 hacc _
    · exact sensRestore_step i node node st.2 hg rfl hnd entry hmem acc.2 hacc _

/-- The structural scenario never changes the node list. -/
theorem sensStructScenario_nodes (alg : String) (edges : List GraphEdge)
    (ev : Evidence) (targetId : String) (base : ℚ) (node : GraphNode)
    (st : List (String × ℚ) × List GraphNode) :
    (sensStructScenario alg edges ev targetId base node st).2 = st.2 := by
  unfold sensStructScenario
  dsimp only
  split
  · split
    · rfl
    · rfl
  · rfl

/-- The sensitivity analysis restores the graph exactly (the attribute keys of
each node are duplicate-free, as Record keys in the source are). -/
theorem runSensitivityAnalysis_restores (g : KnowledgeGraph) (targetId : String)
    (ev : Evidence) (alg : String)
    (hattr : ∀ n ∈ g.nodes, ((n.customAttributes.getD []).map Prod.fst).Nodup) :
    (runSensitivityAnalysis g targetId ev alg).2 = g := by
  unfold runSensitivityAnalysis
  split
  · dsimp only
    have hmain : ∀ x : List (String × ℚ) × List GraphNode, x.2 = g.nodes →
        ({ nodes := x.2, edges := g.edges } : KnowledgeGraph) = g := by
      intro x hx
      rw [hx]
    refine hmain _ (foldl_inv _ _
      (fun st : List (String × ℚ) × List GraphNode => st.2 = g.nodes)
      _ rfl ?_)
    intro st i _ hst
    cases hnode : st.2[i]? with
    | none => exact hst
    | some node =>
      dsimp only
      split
      · exact hst
      · rw [sensStructScenario_nodes]
        split
        · rw [sensAttrScenario_nodes alg g.edges ev targetId i node st hnode
            (hattr node (by rw [hst] at hnode; exact List.getElem?_mem hnode))]
          exact hst
        · exact hst
  · rfl

/-- The node list returned by `analyze` (through any runner selection). -/
theorem analyze_nodes_framed (g : KnowledgeGraph) (ev : Evidence)
    (algos : List String) (tr : Bool) (rng : ℕ → ℚ) (fexp : ℚ → ℚ) :
    framedNodes g.nodes (analyze g ev algos tr rng fexp).2.nodes := by
  unfold analyze
  dsimp only
  split
  · exact analyzeCore_framed g ev algos tr rng fexp
  · exact analyzeCore_framed g ev algos tr rng fexp

/-- `analyze` returns the edge list unchanged. -/
theorem analyze_edges (g : KnowledgeGraph) (ev : Evidence)
    (algos : List String) (tr : Bool) (rng : ℕ → ℚ) (fexp : ℚ → ℚ) :
    (analyze g ev algos tr rng fexp).2.edges = g.edges := by
  unfold analyze
  dsimp only
  split
  · rfl
  · rfl

/-- Claim C10: both public entry points leave all non-`modelParams` node state
intact.  `analyze` returns the edge list unchanged and changes each node at
most in `modelParams` (id, type, context, working belief, custom attributes
and tags are all preserved pointwise, so fused scores are never written back
into the beliefs); and `runSensitivityAnalysis` returns the graph exactly as
it was given (every temporary belief/attribute/evidence perturbation is
restored), given that each node's attribute keys are duplicate-free (Record
keys in the source are necessarily distinct). -/
theorem C10_frame (g : KnowledgeGraph) (ev : Evidence) (algos : List String)
    (tr : Bool) (rng : ℕ → ℚ) (fexp : ℚ → ℚ) (targetId : String) (alg : String)
    (hattr : ∀ n ∈ g.nodes, ((n.customAttributes.getD []).map Prod.fst).Nodup) :
    (analyze g ev algos tr rng fexp).2.edges = g.edges ∧
      framedNodes g.nodes (analyze g ev algos tr rng fexp).2.nodes ∧
      (runSensitivityAnalysis g targetId ev alg).2 = g :=
  ⟨analyze_edges g ev algos tr rng fexp,
    analyze_nodes_framed g ev algos tr rng fexp,
    runSensitivityAnalysis_restores g targetId ev alg hattr⟩

/-- A concrete two-node graph with an attribute, a tag and a working belief,
used to witness C10. -/
def c10Graph : KnowledgeGraph :=
  { nodes :=
      [{ id := "A", ntype := NodeType.part, context := BOMContext.design,
         beliefsWorking := some (1/2),
         customAttributes := some [("temp", ⟨3/4, 9/10⟩)],
         tags := some [("material", "steel")] },
       { id := "B", ntype := NodeType.process, context := BOMContext.design }],
    edges := [{ id := "e1", source := "A", target := "B" }] }

/-- Claim C10, witness: the frame theorem applied to a concrete graph,
evidence, runner selection and sensitivity target. -/
theorem C10_witness :
    (∀ n ∈ c10Graph.nodes,
        ((n.customAttributes.getD []).map Prod.fst).Nodup) ∧
      ((analyze c10Graph [("A", 1)] ["BN", "DT"] true (fun _ => 1/2)
            (fun _ => 1)).2.edges = c10Graph.edges ∧
        framedNodes c10Graph.nodes
          (analyze c10Graph [("A", 1)] ["BN", "DT"] true (fun _ => 1/2)
            (fun _ => 1)).2.nodes ∧
        (runSensitivityAnalysis c10Graph "B" [("A", 1)] "BN").2 = c10Graph) :=
  ⟨by decide,
    C10_frame c10Graph [("A", 1)] ["BN", "DT"] true (fun _ => 1/2) (fun _ => 1)
      "B" "BN" (by decide)⟩


/-! ## Claim C3: the MCS propagation loop is dead code -/

theorem mcsPropStep_id (nodes : List GraphNode) (edges : List GraphEdge)
    (ev : Evidence) (state : Scores) :
    mcsPropStep nodes edges ev state = state := rfl

theorem mcsTrial_edges (nodes : List GraphNode) (edges edges' : List GraphEdge)
    (ev : Evidence) (rng : ℕ → ℚ) (acc : McsAcc) :
    mcsTrial nodes edges ev rng acc = mcsTrial nodes edges' ev rng acc := rfl

theorem mcsTrials_edges (nodes : List GraphNode) (edges edges' : List GraphEdge)
    (ev : Evidence) (rng : ℕ → ℚ) (n : ℕ) (acc : McsAcc) :
    mcsTrials nodes edges ev rng n acc = mcsTrials nodes edges' ev rng n acc := by
  induction n generalizing acc with
  | zero => rfl
  | succ n ih =>
    show mcsTrials nodes edges ev rng n (mcsTrial nodes edges ev rng acc) = _
    rw [mcsTrial_edges nodes edges edges' ev rng acc]
    exact ih _

/-- Claim C3: the spec says each MCS trial applies 5 propagation steps
blending each non-evidence node with the minimum of its parents, and that
these steps affect the returned means.  In the source the loop builds
`nextState` but ends by copying `state` back over it and never reassigns
`state`, so a propagation step returns its input state unchanged — and
consequently `runMCS` does not depend on the edge list at all: the returned
per-node means are exactly the means of the 300 initialisation draws. -/
theorem C3_deadPropagation (nodes : List GraphNode)
    (edges edges' : List GraphEdge) (ev : Evidence) (state : Scores)
    (rng : ℕ → ℚ) (k : ℕ) :
    mcsPropStep nodes edges ev state = state ∧
      runMCS nodes edges ev rng k = runMCS nodes edges' ev rng k := by
  refine ⟨rfl, ?_⟩
  unfold runMCS
  rw [mcsTrials_edges nodes edges edges' ev rng 300]


/-! ## Score-map and node-lookup helpers -/

theorem setS_eq (s : Scores) (k : String) (v : ℚ) : setS s k v k = v := by
  unfold setS
  simp

theorem setS_ne {id k : String} (h : ¬ id = k) (s : Scores) (v : ℚ) :
    setS s k v id = s id := by
  unfold setS
  simp [h]

theorem findNode_id {nodes : List GraphNode} {id : String} {n : GraphNode}
    (h : findNode nodes id = some n) : n.id = id := by
  have := List.find?_some h
  simpa using this

theorem findNode_mem {nodes : List GraphNode} {id : String} {n : GraphNode}
    (h : findNode nodes id = some n) : n ∈ nodes :=
  List.mem_of_find?_eq_some h

/-- With duplicate-free ids, a member is found under its own id. -/
theorem findNode_of_nodup {nodes : List GraphNode} {node : GraphNode}
    (hnd : (nodeIds nodes).Nodup) (hmem : node ∈ nodes) :
    findNode nodes node.id = some node := by
  induction nodes with
  | nil => simp at hmem
  | cons a rest ih =>
    simp only [nodeIds, List.map_cons, List.nodup_cons] at hnd
    rcases List.mem_cons.mp hmem with h | h
    · subst h
      unfold findNode
      simp [List.find?]
    · have hne : a.id ≠ node.id := by
        intro he
        exact hnd.1 (he ▸ List.mem_map_of_mem (fun n => n.id) h)
      unfold findNode
      simp only [List.find?]
      rw [show (a.id == node.id) = false from beq_eq_false_iff_ne.mpr hne]
      exact ih hnd.2 h

/-- In a split with duplicate-free ids, everything right of the pivot has a
different id. -/
theorem nodup_right_ne {l1 l2 : List GraphNode} {node : GraphNode}
    (hnd : (nodeIds (l1 ++ node :: l2)).Nodup) :
    ∀ n ∈ l2, n.id ≠ node.id := by
  intro n hn he
  have h2 : (nodeIds (node :: l2)).Nodup := by
    have : nodeIds (l1 ++ node :: l2) = nodeIds l1 ++ nodeIds (node :: l2) := by
      simp [nodeIds]
    rw [this] at hnd
    exact (List.nodup_append.mp hnd).2.1
  simp only [nodeIds, List.map_cons, List.nodup_cons] at h2
  exact h2.1 (he ▸ List.mem_map_of_mem (fun n => n.id) hn)

/-- Accumulating `v` at every listed id adds `count · v` at each point. -/
theorem foldl_setS_count (ids : List String) (c : Scores) (v : String → ℚ)
    (id : String) :
    ids.foldl (fun m j => setS m j (m j + v j)) c id =
      c id + (ids.count id : ℚ) * v id := by
  induction ids generalizing c with
  | nil => simp
  | cons j ids ih =>
    show (ids.foldl _ (setS c j (c j + v j))) id = _
    rw [ih]
    by_cases h : id = j
    · subst h
      rw [setS_eq]
      simp only [List.count_cons]
      push_cast
      simp
      ring
    · rw [setS_ne h]
      have : (j == id) = false := beq_eq_false_iff_ne.mpr (fun he => h he.symm)
      simp only [List.count_cons, this]
      push_cast
      simp

theorem addToConsensus_cons (ids : List String) (st : FusionState)
    (r : AlgorithmResult) (name : String) (id : String) :
    (addToConsensus ids st r name).cons id =
      st.cons id +
        (ids.count id : ℚ) * (r.scores id * (r.reliability * baseBias name)) := by
  unfold addToConsensus
  dsimp only
  rw [foldl_setS_count]

theorem addToConsensus_totalWeight (ids : List String) (st : FusionState)
    (r : AlgorithmResult) (name : String) :
    (addToConsensus ids st r name).totalWeight =
      st.totalWeight + r.reliability * baseBias name := rfl

theorem initScores_at {nodes : List GraphNode} {ev : Evidence} {id : String}
    {n : GraphNode} (hfind : findNode nodes id = some n)
    (hev : lookupA ev id = none) :
    initScores nodes ev id = getNodePrior n := by
  unfold initScores
  rw [hfind]
  dsimp only
  rw [findNode_id hfind, hev]
  rfl


/-! ## Isolated nodes: per-runner score preservation (claim C7 machinery) -/

theorem getNeighbors_nil {edges : List GraphEdge} {id : String}
    (hpar : getParents edges id = []) (hchild : childrenOf edges id = []) :
    getNeighbors edges id = [] := by
  unfold getNeighbors
  rw [hpar, hchild]
  rfl

/-- A DT pass never writes at an id with no parents. -/
theorem dtPass_at (nodes : List GraphNode) (edges : List GraphEdge)
    (ev : Evidence) (s : Scores) (id : String)
    (hpar : getParents edges id = []) :
    dtPass nodes edges ev s id = s id := by
  unfold dtPass
  refine foldl_inv nodes _ (fun ns => ns id = s id) s rfl ?_
  intro ns n _ hns
  dsimp only
  split
  · exact hns
  · split
    · exact hns
    · rename_i hpe
      rw [setS_ne ?hne]
      · exact hns
      · intro he
        rw [← he, hpar] at hpe
        exact hpe rfl

theorem runDT_at {nodes : List GraphNode} {edges : List GraphEdge}
    {ev : Evidence} {id : String} {n : GraphNode}
    (hfind : findNode nodes id = some n) (hev : lookupA ev id = none)
    (hpar : getParents edges id = []) :
    (runDT nodes edges ev).scores id = getNodePrior n := by
  unfold runDT
  dsimp only
  refine foldl_inv (List.range 5) _ (fun (s : Scores) => s id = getNodePrior n) _
    (initScores_at hfind hev) ?_
  intro s _ _ hs
  rw [dtPass_at nodes edges ev s id hpar]
  exact hs

/-- A VI pass never writes at an id with no neighbors. -/
theorem viPass_at (nodes : List GraphNode) (edges : List GraphEdge)
    (ev : Evidence) (means : Scores) (id : String)
    (hne : getNeighbors edges id = []) :
    (viPass nodes edges ev means).1 id = means id := by
  unfold viPass
  refine (foldl_inv nodes _ (fun (acc : Scores × ℚ) => acc.1 id = means id) _
    rfl ?_)
  intro acc n _ hacc
  dsimp only
  split
  · exact hacc
  · split
    · exact hacc
    · rename_i hpe
      dsimp only
      rw [setS_ne ?hne2]
      · exact hacc
      · intro he
        rw [← he, hne] at hpe
        exact hpe rfl

theorem runVI_at {nodes : List GraphNode} {edges : List GraphEdge}
    {ev : Evidence} {id : String} {n : GraphNode}
    (hfind : findNode nodes id = some n) (hev : lookupA ev id = none)
    (hpar : getParents edges id = []) (hchild : childrenOf edges id = []) :
    (runVI nodes edges ev).scores id = getNodePrior n := by
  unfold runVI
  dsimp only
  refine foldl_inv (List.range 15) _
    (fun (st : Scores × ℚ) => st.1 id = getNodePrior n) _
    (initScores_at hfind hev) ?_
  intro st _ _ hst
  rw [viPass_at nodes edges ev st.1 id (getNeighbors_nil hpar hchild)]
  exact hst

/-- An LR node step never writes the score at an id with no neighbors. -/
theorem lrNodeUpdate_at (training : Bool) (edges : List GraphEdge)
    (ev : Evidence) (scores : Scores) (acc : PassAcc) (i : ℕ) (id : String)
    (hne : getNeighbors edges id = []) :
    (lrNodeUpdate training edges ev scores acc i).next id = acc.next id := by
  unfold lrNodeUpdate
  cases hg : acc.nodes[i]? with
  | none => rfl
  | some node =>
    dsimp only
    split
    · rfl
    · split
      · rfl
      · rename_i hpe
        dsimp only
        rw [setS_ne ?hne3]
        · intro he
          rw [← he, hne] at hpe
          exact hpe rfl

theorem runLinearRegression_at {nodes : List GraphNode}
    {edges : List GraphEdge} {ev : Evidence} {id : String} {n : GraphNode}
    (training : Bool) (hfind : findNode nodes id = some n)
    (hev : lookupA ev id = none) (hpar : getParents edges id = [])
    (hchild : childrenOf edges id = []) :
    (runLinearRegression training nodes edges ev).1.scores id =
      getNodePrior n := by
  unfold runLinearRegression
  dsimp only
  refine foldl_inv (List.range 5) _
    (fun (st : List GraphNode × Scores × ℚ) => st.2.1 id = getNodePrior n) _
    (initScores_at hfind hev) ?_
  intro st _ _ hst
  unfold lrPass
  dsimp only
  refine foldl_inv (List.range st.1.length) _
    (fun (acc : PassAcc) => acc.next id = getNodePrior n) _ hst ?_
  intro acc i _ hacc
  rw [lrNodeUpdate_at training edges ev st.2.1 acc i id
    (getNeighbors_nil hpar hchild)]
  exact hacc

/-- A LogReg node step never writes the score at an id with no neighbors. -/
theorem logRegNodeUpdate_at (training : Bool) (fexp : ℚ → ℚ)
    (edges : List GraphEdge) (ev : Evidence) (scores : Scores) (acc : PassAcc)
    (i : ℕ) (id : String) (hne : getNeighbors edges id = []) :
    (logRegNodeUpdate training fexp edges ev scores acc i).next id =
      acc.next id := by
  unfold logRegNodeUpdate
  cases hg : acc.nodes[i]? with
  | none => rfl
  | some node =>
    dsimp only
    split
    · rfl
    · rename_i hpe
      split
      · dsimp only
        rw [setS_ne ?hne4]
        · intro he
          rw [← he, hne] at hpe
          exact hpe rfl
      · rfl

theorem runLogisticRegression_at {nodes : List GraphNode}
    {edges : List GraphEdge} {ev : Evidence} {id : String} {n : GraphNode}
    (training : Bool) (fexp : ℚ → ℚ) (hfind : findNode nodes id = some n)
    (hev : lookupA ev id = none) (hpar : getParents edges id = [])
    (hchild : childrenOf edges id = []) :
    (runLogisticRegression training fexp nodes edges ev).1.scores id =
      getNodePrior n := by
  unfold runLogisticRegression
  dsimp only
  refine foldl_inv (List.range 5) _
    (fun (st : List GraphNode × Scores × ℚ) => st.2.1 id = getNodePrior n) _
    (initScores_at hfind hev) ?_
  intro st _ _ hst
  unfold logRegPass
  dsimp only
  refine foldl_inv (List.range st.1.length) _
    (fun (acc : PassAcc) => acc.next id = getNodePrior n) _ hst ?_
  intro acc i _ hacc
  rw [logRegNodeUpdate_at training fexp edges ev st.2.1 acc i id
    (getNeighbors_nil hpar hchild)]
  exact hacc

/-- A Transformer node step never writes the score at an id with no
neighbors. -/
theorem tfNodeUpdate_at (fexp : ℚ → ℚ) (edges : List GraphEdge)
    (ev : Evidence) (scores : Scores) (acc : PassAcc) (i : ℕ) (id : String)
    (hne : getNeighbors edges id = []) :
    (tfNodeUpdate fexp edges ev scores acc i).next id = acc.next id := by
  unfold tfNodeUpdate
  cases hg : acc.nodes[i]? with
  | none => rfl
  | some node =>
    dsimp only
    split
    · rfl
    · split
      · rfl
      · rename_i hpe
        dsimp only
        rw [setS_ne ?hne5]
        · intro he
          rw [← he, hne] at hpe
          exact hpe rfl

theorem runTransformer_at {nodes : List GraphNode} {edges : List GraphEdge}
    {ev : Evidence} {id : String} {n : GraphNode} (fexp : ℚ → ℚ)
    (hfind : findNode nodes id = some n) (hev : lookupA ev id = none)
    (hpar : getParents edges id = []) (hchild : childrenOf edges id = []) :
    (runTransformer fexp nodes edges ev).1.scores id = getNodePrior n := by
  unfold runTransformer
  dsimp only
  refine foldl_inv (List.range 3) _
    (fun (st : List GraphNode × Scores × ℚ) => st.2.1 id = getNodePrior n) _
    (initScores_at hfind hev) ?_
  intro st _ _ hst
  unfold tfPass
  dsimp only
  refine foldl_inv (List.range st.1.length) _
    (fun (acc : PassAcc) => acc.next id = getNodePrior n) _ hst ?_
  intro acc i _ hacc
  rw [tfNodeUpdate_at fexp edges ev st.2.1 acc i id
    (getNeighbors_nil hpar hchild)]
  exact hacc


/-! ## BN on an isolated node: convergence to the 5-decimal rounded prior -/

/-- Rounding is stable under the damped update: one more damped step from the
rounded value rounds back to the same value. -/
theorem roundTo_stab (p : ℚ) :
    roundTo 5 (p * (1 - 0.2) + roundTo 5 p * 0.2) = roundTo 5 p := by
  unfold roundTo
  rw [ratFloor_eq, ratFloor_eq]
  have h1 : (⌊p * 10 ^ 5 + 1 / 2⌋ : ℚ) ≤ p * 10 ^ 5 + 1 / 2 := Int.floor_le _
  have h2 : p * 10 ^ 5 + 1 / 2 < ⌊p * 10 ^ 5 + 1 / 2⌋ + 1 :=
    Int.lt_floor_add_one _
  have harg : (p * (1 - 0.2) + (⌊p * 10 ^ 5 + 1 / 2⌋ : ℚ) / 10 ^ 5 * 0.2) *
      10 ^ 5 + 1 / 2 =
      (p * 10 ^ 5) * (4 / 5) + (⌊p * 10 ^ 5 + 1 / 2⌋ : ℚ) * (1 / 5) + 1 / 2 := by
    ring
  rw [harg]
  have hfl : ⌊(p * 10 ^ 5) * (4 / 5) + (⌊p * 10 ^ 5 + 1 / 2⌋ : ℚ) * (1 / 5) +
      1 / 2⌋ = ⌊p * 10 ^ 5 + 1 / 2⌋ := by
    rw [Int.floor_eq_iff]
    constructor
    · linarith
    · linarith
  rw [hfl]

/-- The BN fusion of an isolated node is exactly its prior. -/
theorem bnFuse_isolated (prior : ℚ) :
    bnFuse prior (runningMin nodes s []) (runningMin nodes s []) = prior := by
  unfold runningMin runningMinAux bnFuse
  norm_num

/-- One BN iteration writes the damped prior blend at an isolated node. -/
theorem bnStep_at {nodes : List GraphNode} {node : GraphNode}
    (edges : List GraphEdge) (ev : Evidence) (s : Scores)
    (hmem : node ∈ nodes) (hnd : (nodeIds nodes).Nodup)
    (hev : lookupA ev node.id = none)
    (hpar : getParents edges node.id = [])
    (hchild : childrenOf edges node.id = []) :
    (bnStep nodes edges ev s).1 node.id =
      roundTo 5 (getNodePrior node * (1 - 0.2) + s node.id * 0.2) := by
  obtain ⟨l1, l2, rfl⟩ := List.append_of_mem hmem
  have hr := nodup_right_ne hnd
  unfold bnStep
  rw [List.foldl_append]
  refine foldl_inv l2 _
    (fun (acc : Scores × ℚ) =>
      acc.1 node.id =
        roundTo 5 (getNodePrior node * (1 - 0.2) + s node.id * 0.2)) _ ?_ ?_
  · show (bnNodeUpdate (l1 ++ node :: l2) edges ev s _ node).1 node.id = _
    unfold bnNodeUpdate
    rw [hev, if_neg (by simp)]
    rw [hpar, hchild]
    dsimp only
    rw [setS_eq, bnFuse_isolated]
  · intro acc n hn hacc
    unfold bnNodeUpdate
    split
    · exact hacc
    · dsimp only
      rw [setS_ne (fun he => hr n hn he.symm)]
      exact hacc

/-- The BN relaxation keeps an isolated node at its rounded prior. -/
theorem bnLoop_at {nodes : List GraphNode} {node : GraphNode}
    (edges : List GraphEdge) (ev : Evidence)
    (hmem : node ∈ nodes) (hnd : (nodeIds nodes).Nodup)
    (hev : lookupA ev node.id = none)
    (hpar : getParents edges node.id = [])
    (hchild : childrenOf edges node.id = []) :
    ∀ (fuel : ℕ) (s : Scores) (d : ℚ),
      s node.id = roundTo 5 (getNodePrior node) →
      (bnLoop nodes edges ev fuel s d).1 node.id =
        roundTo 5 (getNodePrior node) := by
  intro fuel
  induction fuel with
  | zero => intro s d hs; exact hs
  | succ n ih =>
    intro s d hs
    show (if d > 0.0001 then _ else (s, d, 0)).1 node.id = _
    split
    · dsimp only
      apply ih
      rw [bnStep_at edges ev s hmem hnd hev hpar hchild, hs, roundTo_stab]
    · exact hs

theorem bnLoop_succ (nodes : List GraphNode) (edges : List GraphEdge)
    (ev : Evidence) (fuel : ℕ) (s : Scores) (d : ℚ) :
    bnLoop nodes edges ev (fuel + 1) s d =
      if d > 0.0001 then
        ((bnLoop nodes edges ev fuel (bnStep nodes edges ev s).1
            (bnStep nodes edges ev s).2).1,
          (bnLoop nodes edges ev fuel (bnStep nodes edges ev s).1
            (bnStep nodes edges ev s).2).2.1,
          (bnLoop nodes edges ev fuel (bnStep nodes edges ev s).1
            (bnStep nodes edges ev s).2).2.2 + 1)
      else (s, d, 0) := rfl

/-- The BN runner reports the 5-decimal rounded prior for an isolated node
(the first iteration rounds, later iterations are stable). -/
theorem runBN_at {nodes : List GraphNode} {node : GraphNode}
    (edges : List GraphEdge) (ev : Evidence)
    (hmem : node ∈ nodes) (hnd : (nodeIds nodes).Nodup)
    (hev : lookupA ev node.id = none)
    (hpar : getParents edges node.id = [])
    (hchild : childrenOf edges node.id = []) :
    (runBN nodes edges ev).scores node.id = roundTo 5 (getNodePrior node) := by
  unfold runBN
  dsimp only
  have h50 : (50 : ℕ) = 49 + 1 := rfl
  rw [h50, bnLoop_succ, if_pos (by norm_num : (1.0 : ℚ) > 0.0001)]
  dsimp only
  apply bnLoop_at edges ev hmem hnd hev hpar hchild
  rw [bnStep_at edges ev _ hmem hnd hev hpar hchild,
    initScores_at (findNode_of_nodup hnd hmem) hev]
  have : getNodePrior node * (1 - 0.2) + getNodePrior node * 0.2 =
      getNodePrior node := by ring
  rw [this]


/-! ## Reliability lower bounds of the training-free stages -/

theorem runDT_reliability (nodes : List GraphNode) (edges : List GraphEdge)
    (ev : Evidence) : (runDT nodes edges ev).reliability = 0.6 := rfl

theorem runLR_reliability_ge (training : Bool) (nodes : List GraphNode)
    (edges : List GraphEdge) (ev : Evidence) :
    0.1 ≤ (runLinearRegression training nodes edges ev).1.reliability :=
  le_max_left _ _

theorem runLogReg_reliability_ge (training : Bool) (fexp : ℚ → ℚ)
    (nodes : List GraphNode) (edges : List GraphEdge) (ev : Evidence) :
    0.2 ≤ (runLogisticRegression training fexp nodes edges ev).1.reliability :=
  le_max_left _ _

theorem runVI_reliability_ge (nodes : List GraphNode) (edges : List GraphEdge)
    (ev : Evidence) : 0.1 ≤ (runVI nodes edges ev).reliability :=
  le_max_left _ _

theorem runTF_reliability_ge (fexp : ℚ → ℚ) (nodes : List GraphNode)
    (edges : List GraphEdge) (ev : Evidence) :
    0.1 ≤ (runTransformer fexp nodes edges ev).1.reliability :=
  le_max_left _ _

/-! ## The guarded stage fold of `analyzeCore`, as its own function -/

def analyzeFold (g : KnowledgeGraph) (ev : Evidence) (algos : List String)
    (tr : Bool) (rng : ℕ → ℚ) (fexp : ℚ → ℚ) (l : List String)
    (st : FusionState) : FusionState :=
  l.foldl
    (fun st name =>
      if algos.contains name then stageFn g ev tr rng fexp st name else st)
    st

theorem analyzeCore_eq_fold (g : KnowledgeGraph) (ev : Evidence)
    (algos : List String) (tr : Bool) (rng : ℕ → ℚ) (fexp : ℚ → ℚ) :
    analyzeCore g ev algos tr rng fexp =
      analyzeFold g ev algos tr rng fexp runnerOrder
        ⟨(fun _ => 0), 0, g.nodes, 0⟩ := rfl

theorem analyzeFold_nil (g : KnowledgeGraph) (ev : Evidence)
    (algos : List String) (tr : Bool) (rng : ℕ → ℚ) (fexp : ℚ → ℚ)
    (st : FusionState) : analyzeFold g ev algos tr rng fexp [] st = st := rfl

theorem analyzeFold_cons (g : KnowledgeGraph) (ev : Evidence)
    (algos : List String) (tr : Bool) (rng : ℕ → ℚ) (fexp : ℚ → ℚ)
    (name : String) (l : List String) (st : FusionState) :
    analyzeFold g ev algos tr rng fexp (name :: l) st =
      analyzeFold g ev algos tr rng fexp l
        (if algos.contains name then stageFn g ev tr rng fexp st name
         else st) := rfl

theorem analyzeFold_skip (g : KnowledgeGraph) (ev : Evidence)
    (algos : List String) (tr : Bool) (rng : ℕ → ℚ) (fexp : ℚ → ℚ)
    (l : List String) (hskip : ∀ name ∈ l, algos.contains name = false)
    (st : FusionState) : analyzeFold g ev algos tr rng fexp l st = st := by
  induction l generalizing st with
  | nil => rfl
  | cons name l ih =>
    rw [analyzeFold_cons, hskip name (by simp),
      ih (fun n hn => hskip n (by simp [hn]))]
    rfl


/-! ## Consensus over an isolated node (claim C7 fold machinery) -/

/-- One selected stage whose runner reports the prior at the isolated node
and has positive fusion weight keeps the consensus proportional to the
prior and strictly increases the total weight. -/
theorem C7_stage_step (g : KnowledgeGraph) (ev : Evidence) (tr : Bool)
    (rng : ℕ → ℚ) (fexp : ℚ → ℚ) {id : String} {node : GraphNode} {c : ℚ}
    (hmem : node ∈ g.nodes) (hid : node.id = id)
    (hnd : (nodeIds g.nodes).Nodup) (st : FusionState)
    (hf : framedNodes g.nodes st.nodes)
    (hc : st.cons id = c * st.totalWeight) (name : String)
    (hscore : (stageRun g ev tr rng fexp st name).1.scores id = c)
    (hrel : 0 < (stageRun g ev tr rng fexp st name).1.reliability *
      baseBias name) :
    framedNodes g.nodes (stageFn g ev tr rng fexp st name).nodes ∧
      (stageFn g ev tr rng fexp st name).cons id =
        c * (stageFn g ev tr rng fexp st name).totalWeight ∧
      st.totalWeight < (stageFn g ev tr rng fexp st name).totalWeight := by
  have hcount : (nodeIds g.nodes).count id = 1 :=
    List.count_eq_one_of_mem hnd (hid ▸ List.mem_map_of_mem (fun n => n.id) hmem)
  refine ⟨stageFn_framed g ev tr rng fexp hf name, ?_, ?_⟩
  · rw [stageFn_cons, addToConsensus_cons, hcount, hc, hscore,
      stageFn_totalWeight]
    push_cast
    ring
  · rw [stageFn_totalWeight]
    linarith

/-- The guarded stage fold over any sublist of the runner order, starting
from a consensus proportional to the isolated node's prior, keeps that
proportionality; the total weight never decreases, and strictly increases as
soon as one listed runner is selected (BN, MCS and MCMC not selected). -/
theorem C7_fold (g : KnowledgeGraph) (ev : Evidence) (algos : List String)
    (tr : Bool) (rng : ℕ → ℚ) (fexp : ℚ → ℚ) {id : String} {node : GraphNode}
    (hmem : node ∈ g.nodes) (hid : node.id = id)
    (hnd : (nodeIds g.nodes).Nodup) (hev : lookupA ev id = none)
    (hpar : getParents g.edges id = []) (hchild : childrenOf g.edges id = [])
    (hBN : algos.contains "BN" = false) (hMCS : algos.contains "MCS" = false)
    (hMCMC : algos.contains "MCMC" = false) :
    ∀ (l : List String), (∀ name ∈ l, name ∈ runnerOrder) →
      ∀ st : FusionState, framedNodes g.nodes st.nodes →
        st.cons id = getNodePrior node * st.totalWeight →
        (framedNodes g.nodes (analyzeFold g ev algos tr rng fexp l st).nodes ∧
          (analyzeFold g ev algos tr rng fexp l st).cons id =
            getNodePrior node *
              (analyzeFold g ev algos tr rng fexp l st).totalWeight ∧
          st.totalWeight ≤
            (analyzeFold g ev algos tr rng fexp l st).totalWeight ∧
          ((∃ name ∈ l, algos.contains name = true) →
            st.totalWeight <
              (analyzeFold g ev algos tr rng fexp l st).totalWeight)) := by
  intro l
  induction l with
  | nil =>
    intro _ st hf hc
    exact ⟨hf, hc, le_refl _, fun ⟨name, hn, _⟩ => absurd hn (by simp)⟩
  | cons name l ih =>
    intro hsub st hf hc
    rw [analyzeFold_cons]
    by_cases hcn : algos.contains name = true
    · simp only [if_pos hcn]
      have hfg : findNode g.nodes id = some node :=
        hid ▸ findNode_of_nodup hnd hmem
      obtain ⟨n2, hfind2, he2⟩ := (framedNodes_findNode hf id).2 node hfg
      have hprior2 : getNodePrior n2 = getNodePrior node := eqExceptMP_prior he2
      have hids : nodeIds st.nodes = nodeIds g.nodes := framedNodes_ids hf
      have hnm := hsub name (by simp)
      have hstep : framedNodes g.nodes (stageFn g ev tr rng fexp st name).nodes ∧
          (stageFn g ev tr rng fexp st name).cons id =
            getNodePrior node *
              (stageFn g ev tr rng fexp st name).totalWeight ∧
          st.totalWeight < (stageFn g ev tr rng fexp st name).totalWeight := by
        simp only [runnerOrder, List.mem_cons, List.not_mem_nil, or_false]
          at hnm
        rcases hnm with rfl | rfl | rfl | rfl | rfl | rfl | rfl | rfl
        · rw [hBN] at hcn; exact absurd hcn (by simp)
        · rw [hMCS] at hcn; exact absurd hcn (by simp)
        · rw [hMCMC] at hcn; exact absurd hcn (by simp)
        · refine C7_stage_step g ev tr rng fexp hmem hid hnd st hf hc "DT" ?_ ?_
          · show (runDT st.nodes g.edges ev).scores id = _
            rw [runDT_at hfind2 hev hpar, hprior2]
          · show (0:ℚ) < (runDT st.nodes g.edges ev).reliability * baseBias "DT"
            rw [runDT_reliability]
            have hb : baseBias "DT" = 0.8 := rfl
            rw [hb]
            norm_num
        · refine C7_stage_step g ev tr rng fexp hmem hid hnd st hf hc "LR" ?_ ?_
          · show (runLinearRegression tr st.nodes g.edges ev).1.scores id = _
            rw [runLinearRegression_at tr hfind2 hev hpar hchild, hprior2]
          · show (0:ℚ) <
              (runLinearRegression tr st.nodes g.edges ev).1.reliability *
                baseBias "LR"
            have := runLR_reliability_ge tr st.nodes g.edges ev
            have hb : baseBias "LR" = 0.8 := rfl
            rw [hb]
            nlinarith
        · refine C7_stage_step g ev tr rng fexp hmem hid hnd st hf hc
            "LogReg" ?_ ?_
          · show (runLogisticRegression tr fexp st.nodes g.edges ev).1.scores
              id = _
            rw [runLogisticRegression_at tr fexp hfind2 hev hpar hchild,
              hprior2]
          · show (0:ℚ) <
              (runLogisticRegression tr fexp st.nodes g.edges ev).1.reliability
                * baseBias "LogReg"
            have := runLogReg_reliability_ge tr fexp st.nodes g.edges ev
            have hb : baseBias "LogReg" = 0.8 := rfl
            rw [hb]
            nlinarith
        · refine C7_stage_step g ev tr rng fexp hmem hid hnd st hf hc "VI" ?_ ?_
          · show (runVI st.nodes g.edges ev).scores id = _
            rw [runVI_at hfind2 hev hpar hchild, hprior2]
          · show (0:ℚ) < (runVI st.nodes g.edges ev).reliability * baseBias "VI"
            have := runVI_reliability_ge st.nodes g.edges ev
            have hb : baseBias "VI" = 0.8 := rfl
            rw [hb]
            nlinarith
        · refine C7_stage_step g ev tr rng fexp hmem hid hnd st hf hc
            "Transformer" ?_ ?_
          · show (runTransformer fexp st.nodes g.edges ev).1.scores id = _
            rw [runTransformer_at fexp hfind2 hev hpar hchild, hprior2]
          · show (0:ℚ) <
              (runTransformer fexp st.nodes g.edges ev).1.reliability *
                baseBias "Transformer"
            have := runTF_reliability_ge fexp st.nodes g.edges ev
            have hb : baseBias "Transformer" = 1.1 := rfl
            rw [hb]
            nlinarith
      obtain ⟨hf', hc', hlt⟩ := hstep
      obtain ⟨H1, H2, H3, _⟩ :=
        ih (fun n hn => hsub n (by simp [hn])) _ hf' hc'
      exact ⟨H1, H2, le_trans (le_of_lt hlt) H3,
        fun _ => lt_of_lt_of_le hlt H3⟩
    · have hcn' : algos.contains name = false := by simpa using hcn
      simp only [hcn', Bool.false_eq_true, if_false]
      obtain ⟨H1, H2, H3, H4⟩ :=
        ih (fun n hn => hsub n (by simp [hn])) st hf hc
      refine ⟨H1, H2, H3, fun ⟨n, hn, ht⟩ => ?_⟩
      rcases List.mem_cons.mp hn with rfl | hn'
      · rw [hcn'] at ht; exact absurd ht (by simp)
      · exact H4 ⟨n, hn', ht⟩


/-- Claim C7 (corrected): the spec says a node with no parents, no children
and no evidence receives a fused score equal to its prior.  In fact the DT
runner reports the prior exactly and the BN runner reports the prior rounded
to 5 decimals, while the Monte-Carlo runners (MCS, MCMC) report sample means
that need not equal the prior; under the side condition that BN, MCS and
MCMC are all deselected, the fused output is the prior rounded to 4 decimals
when at least one algorithm is selected, and BN's 5-decimal rounding via the
fallback when none is — equal to the prior itself only when the prior
happens to be a 4-decimal fraction. -/
theorem C7_isolated (g : KnowledgeGraph) (ev : Evidence) (algos : List String)
    (tr : Bool) (rng : ℕ → ℚ) (fexp : ℚ → ℚ) (id : String) (node : GraphNode)
    (hmem : node ∈ g.nodes) (hid : node.id = id)
    (hnd : (nodeIds g.nodes).Nodup) (hev : lookupA ev id = none)
    (hpar : getParents g.edges id = []) (hchild : childrenOf g.edges id = [])
    (hBN : algos.contains "BN" = false) (hMCS : algos.contains "MCS" = false)
    (hMCMC : algos.contains "MCMC" = false) :
    (runDT g.nodes g.edges ev).scores id = getNodePrior node ∧
      (runBN g.nodes g.edges ev).scores id = roundTo 5 (getNodePrior node) ∧
      ((∃ name ∈ runnerOrder, algos.contains name = true) →
        (analyze g ev algos tr rng fexp).1 id =
          roundTo 4 (getNodePrior node)) ∧
      ((∀ name ∈ runnerOrder, algos.contains name = false) →
        (analyze g ev algos tr rng fexp).1 id =
          roundTo 5 (getNodePrior node)) := by
  subst hid
  have hfg : findNode g.nodes node.id = some node := findNode_of_nodup hnd hmem
  refine ⟨runDT_at hfg hev hpar, runBN_at g.edges ev hmem hnd hev hpar hchild,
    ?_, ?_⟩
  · intro hex
    obtain ⟨Hf, Hc, Hle, Hlt⟩ :=
      C7_fold g ev algos tr rng fexp hmem rfl hnd hev hpar hchild hBN hMCS
        hMCMC runnerOrder (fun n hn => hn) ⟨(fun _ => 0), 0, g.nodes, 0⟩
        (framedNodes_refl _) (by simp)
    have hpos : 0 < (analyzeFold g ev algos tr rng fexp runnerOrder
        ⟨(fun _ => 0), 0, g.nodes, 0⟩).totalWeight := Hlt hex
    unfold analyze
    dsimp only
    rw [analyzeCore_eq_fold]
    rw [if_pos hpos]
    dsimp only
    rw [Hc, mul_div_assoc, div_self (ne_of_gt hpos), mul_one]
  · intro hnone
    unfold analyze
    dsimp only
    rw [analyzeCore_eq_fold,
      analyzeFold_skip g ev algos tr rng fexp runnerOrder hnone]
    rw [if_neg (by show ¬((0:ℚ) > 0); norm_num)]
    dsimp only
    exact runBN_at g.edges ev hmem hnd hev hpar hchild

/-- An isolated node whose prior is not a 4-decimal fraction. -/
def c7Node : GraphNode :=
  { id := "X", ntype := NodeType.part, context := BOMContext.design,
    beliefsWorking := some 0.12346 }

def c7Graph : KnowledgeGraph := { nodes := [c7Node], edges := [] }

/-- Claim C7, counterexample: with only DT selected, the isolated node's
fused score is its prior rounded to 4 decimals, which differs from the
prior. -/
theorem C7_cx :
    getNodePrior c7Node = 0.12346 ∧
      (analyze c7Graph [] ["DT"] true (fun _ => 0) (fun _ => 1)).1 "X" =
        0.1235 ∧
      (analyze c7Graph [] ["DT"] true (fun _ => 0) (fun _ => 1)).1 "X" ≠
        getNodePrior c7Node := by
  refine ⟨?_, ?_, ?_⟩
  · apply qeq_num
    with_unfolding_all decide
  · apply qeq_num
    with_unfolding_all decide
  · apply qne_num
    with_unfolding_all decide

/-- Claim C7, witness: the corrected statement applied to the concrete
isolated node with only DT selected. -/
theorem C7_witness :
    (c7Node ∈ c7Graph.nodes ∧ c7Node.id = "X" ∧
      (nodeIds c7Graph.nodes).Nodup ∧
      lookupA ([] : Evidence) "X" = none ∧
      getParents c7Graph.edges "X" = [] ∧
      childrenOf c7Graph.edges "X" = [] ∧
      (["DT"] : List String).contains "BN" = false ∧
      (["DT"] : List String).contains "MCS" = false ∧
      (["DT"] : List String).contains "MCMC" = false ∧
      (∃ name ∈ runnerOrder, (["DT"] : List String).contains name = true)) ∧
    (analyze c7Graph [] ["DT"] true (fun _ => 0) (fun _ => 1)).1 "X" =
      roundTo 4 (getNodePrior c7Node) := by
  refine ⟨⟨List.mem_cons_self _ _, rfl, by decide, rfl, rfl, rfl, by decide,
    by decide, by decide, ⟨"DT", by decide, by decide⟩⟩, ?_⟩
  exact (C7_isolated c7Graph [] ["DT"] true (fun _ => 0) (fun _ => 1) "X"
    c7Node (List.mem_cons_self _ _) rfl (by decide) rfl rfl rfl (by decide)
    (by decide) (by decide)).2.2.1 ⟨"DT", by decide, by decide⟩


/-! ## Claim C5: the fused output is the reliability-weighted consensus -/

/-- The fusion weight a stage result enters the consensus with. -/
def stageWeight (p : AlgorithmResult × String) : ℚ :=
  p.1.reliability * baseBias p.2

/-- A stage result's contribution to the consensus numerator at one id. -/
def stageContrib (id : String) (p : AlgorithmResult × String) : ℚ :=
  p.1.scores id * stageWeight p

/-- The sequence of (result, name) pairs produced by the selected stages, in
dispatch order, threading the same engine state as `analyzeCore`. -/
def stageSeqAux (g : KnowledgeGraph) (ev : Evidence) (algos : List String)
    (tr : Bool) (rng : ℕ → ℚ) (fexp : ℚ → ℚ) :
    List String → FusionState → List (AlgorithmResult × String)
  | [], _ => []
  | name :: rest, st =>
    if algos.contains name then
      ((stageRun g ev tr rng fexp st name).1, name) ::
        stageSeqAux g ev algos tr rng fexp rest
          (stageFn g ev tr rng fexp st name)
    else stageSeqAux g ev algos tr rng fexp rest st

def stageSeq (g : KnowledgeGraph) (ev : Evidence) (algos : List String)
    (tr : Bool) (rng : ℕ → ℚ) (fexp : ℚ → ℚ) :
    List (AlgorithmResult × String) :=
  stageSeqAux g ev algos tr rng fexp runnerOrder ⟨(fun _ => 0), 0, g.nodes, 0⟩

theorem stageSeqAux_skip (g : KnowledgeGraph) (ev : Evidence)
    (algos : List String) (tr : Bool) (rng : ℕ → ℚ) (fexp : ℚ → ℚ)
    (l : List String) (hskip : ∀ name ∈ l, algos.contains name = false)
    (st : FusionState) : stageSeqAux g ev algos tr rng fexp l st = [] := by
  induction l generalizing st with
  | nil => rfl
  | cons name l ih =>
    show (if algos.contains name then _ else _) = []
    rw [hskip name (by simp)]
    simp only [Bool.false_eq_true, if_false]
    exact ih (fun n hn => hskip n (by simp [hn])) st

/-- The consensus accumulator and total weight are the sums of the per-stage
contributions and weights (each node id is counted once). -/
theorem analyzeFold_seq (g : KnowledgeGraph) (ev : Evidence)
    (algos : List String) (tr : Bool) (rng : ℕ → ℚ) (fexp : ℚ → ℚ)
    (id : String) (hcount : (nodeIds g.nodes).count id = 1) :
    ∀ (l : List String) (st : FusionState),
      (analyzeFold g ev algos tr rng fexp l st).cons id =
        st.cons id +
          ((stageSeqAux g ev algos tr rng fexp l st).map
            (stageContrib id)).sum ∧
      (analyzeFold g ev algos tr rng fexp l st).totalWeight =
        st.totalWeight +
          ((stageSeqAux g ev algos tr rng fexp l st).map stageWeight).sum := by
  intro l
  induction l with
  | nil =>
    intro st
    rw [analyzeFold_nil]
    show _ = st.cons id + (List.map _ []).sum ∧
      _ = st.totalWeight + (List.map _ []).sum
    simp
  | cons name rest ih =>
    intro st
    rw [analyzeFold_cons]
    by_cases hc : algos.contains name = true
    · simp only [if_pos hc]
      have hseq : stageSeqAux g ev algos tr rng fexp (name :: rest) st =
          ((stageRun g ev tr rng fexp st name).1, name) ::
            stageSeqAux g ev algos tr rng fexp rest
              (stageFn g ev tr rng fexp st name) := by
        show (if algos.contains name then _ else _) = _
        rw [if_pos hc]
      rw [hseq]
      obtain ⟨ih1, ih2⟩ := ih (stageFn g ev tr rng fexp st name)
      constructor
      · rw [ih1, stageFn_cons, addToConsensus_cons, hcount]
        simp only [List.map_cons, List.sum_cons]
        unfold stageContrib stageWeight
        push_cast
        ring
      · rw [ih2, stageFn_totalWeight]
        simp only [List.map_cons, List.sum_cons]
        unfold stageWeight
        ring
    · have hc' : algos.contains name = false := by simpa using hc
      simp only [hc', Bool.false_eq_true, if_false]
      have hseq : stageSeqAux g ev algos tr rng fexp (name :: rest) st =
          stageSeqAux g ev algos tr rng fexp rest st := by
        show (if algos.contains name then _ else _) = _
        rw [hc']
        simp
      rw [hseq]
      exact ih st

/-- Claim C5: with duplicate-free node ids, every fused value is the
reliability-weighted consensus Σ(score·weight)/Σ(weight) over the selected
stages, rounded to 4 decimals; when the total weight is not positive the
output falls back to the BN runner's raw scores, and an empty selection
yields exactly BN's raw scores on the unchanged node list. -/
theorem C5_consensus (g : KnowledgeGraph) (ev : Evidence) (algos : List String)
    (tr : Bool) (rng : ℕ → ℚ) (fexp : ℚ → ℚ) (id : String)
    (hnd : (nodeIds g.nodes).Nodup) (hid : id ∈ nodeIds g.nodes) :
    (0 < ((stageSeq g ev algos tr rng fexp).map stageWeight).sum →
        (analyze g ev algos tr rng fexp).1 id =
          roundTo 4
            (((stageSeq g ev algos tr rng fexp).map (stageContrib id)).sum /
              ((stageSeq g ev algos tr rng fexp).map stageWeight).sum)) ∧
      (¬ 0 < ((stageSeq g ev algos tr rng fexp).map stageWeight).sum →
        (analyze g ev algos tr rng fexp).1 id =
          (runBN (analyzeCore g ev algos tr rng fexp).nodes g.edges
            ev).scores id) ∧
      ((∀ name ∈ runnerOrder, algos.contains name = false) →
        stageSeq g ev algos tr rng fexp = [] ∧
        (analyze g ev algos tr rng fexp).1 id =
          (runBN g.nodes g.edges ev).scores id) := by
  have hcount : (nodeIds g.nodes).count id = 1 :=
    List.count_eq_one_of_mem hnd hid
  obtain ⟨hcons, htw⟩ := analyzeFold_seq g ev algos tr rng fexp id hcount
    runnerOrder ⟨(fun _ => 0), 0, g.nodes, 0⟩
  have hcons' : (analyzeCore g ev algos tr rng fexp).cons id =
      ((stageSeq g ev algos tr rng fexp).map (stageContrib id)).sum := by
    rw [analyzeCore_eq_fold, hcons]
    show (0 : ℚ) + _ = _
    rw [zero_add]
    rfl
  have htw' : (analyzeCore g ev algos tr rng fexp).totalWeight =
      ((stageSeq g ev algos tr rng fexp).map stageWeight).sum := by
    rw [analyzeCore_eq_fold, htw]
    show (0 : ℚ) + _ = _
    rw [zero_add]
    rfl
  refine ⟨?_, ?_, ?_⟩
  · intro hpos
    unfold analyze
    dsimp only
    rw [if_pos (htw' ▸ hpos)]
    dsimp only
    rw [hcons', htw']
  · intro hneg
    unfold analyze
    dsimp only
    rw [if_neg (fun hgt => hneg (htw' ▸ hgt))]
  · intro hnone
    have hempty : stageSeq g ev algos tr rng fexp = [] :=
      stageSeqAux_skip g ev algos tr rng fexp runnerOrder hnone _
    refine ⟨hempty, ?_⟩
    have hneg : ¬ 0 <
        ((stageSeq g ev algos tr rng fexp).map stageWeight).sum := by
      rw [hempty]
      norm_num
    unfold analyze
    dsimp only
    rw [if_neg (fun hgt => hneg (htw' ▸ hgt)), analyzeCore_eq_fold,
      analyzeFold_skip g ev algos tr rng fexp runnerOrder hnone]

/-- Claim C5, witness: the consensus formula applied to a concrete graph with
the DT runner selected. -/
theorem C5_witness :
    ((nodeIds c7Graph.nodes).Nodup ∧ "X" ∈ nodeIds c7Graph.nodes ∧
      0 < ((stageSeq c7Graph [] ["DT"] true (fun _ => 0) (fun _ => 1)).map
        stageWeight).sum) ∧
    (analyze c7Graph [] ["DT"] true (fun _ => 0) (fun _ => 1)).1 "X" =
      roundTo 4
        (((stageSeq c7Graph [] ["DT"] true (fun _ => 0) (fun _ => 1)).map
            (stageContrib "X")).sum /
          ((stageSeq c7Graph [] ["DT"] true (fun _ => 0) (fun _ => 1)).map
            stageWeight).sum) := by
  have hpos : 0 < ((stageSeq c7Graph [] ["DT"] true (fun _ => 0)
      (fun _ => 1)).map stageWeight).sum := by
    apply qlt_num
    with_unfolding_all decide
  exact ⟨⟨by decide, by decide, hpos⟩,
    (C5_consensus c7Graph [] ["DT"] true (fun _ => 0) (fun _ => 1) "X"
      (by decide) (by decide)).1 hpos⟩


/-! ## Per-runner reliability ranges (claim C4 machinery): the easy runners -/

theorem lrPass_mc_nonneg (training : Bool) (edges : List GraphEdge)
    (ev : Evidence) (st : List GraphNode × Scores × ℚ) :
    0 ≤ (lrPass training edges ev st).2.2 := by
  unfold lrPass
  dsimp only
  refine foldl_inv (List.range st.1.length) _
    (fun (acc : PassAcc) => 0 ≤ acc.maxChange) _ le_rfl ?_
  intro acc i _ hacc
  unfold lrNodeUpdate
  cases hg : acc.nodes[i]? with
  | none => exact hacc
  | some node =>
    dsimp only
    split
    · exact hacc
    · split
      · exact hacc
      · dsimp only
        split
        · exact abs_nonneg _
        · exact hacc

theorem runLR_reliability_le (training : Bool) (nodes : List GraphNode)
    (edges : List GraphEdge) (ev : Evidence) :
    (runLinearRegression training nodes edges ev).1.reliability ≤ 0.95 := by
  unfold runLinearRegression
  dsimp only
  have hmc : 0 ≤ ((List.range 5).foldl
      (fun st _ => lrPass training edges ev st)
      (nodes, initScores nodes ev, 0)).2.2 := by
    refine foldl_inv (List.range 5) _
      (fun (st : List GraphNode × Scores × ℚ) => 0 ≤ st.2.2) _ le_rfl ?_
    intro st _ _ _
    exact lrPass_mc_nonneg training edges ev st
  apply max_le
  · norm_num
  · linarith

theorem logRegPass_mc_nonneg (training : Bool) (fexp : ℚ → ℚ)
    (edges : List GraphEdge) (ev : Evidence)
    (st : List GraphNode × Scores × ℚ) :
    0 ≤ (logRegPass training fexp edges ev st).2.2 := by
  unfold logRegPass
  dsimp only
  refine foldl_inv (List.range st.1.length) _
    (fun (acc : PassAcc) => 0 ≤ acc.maxChange) _ le_rfl ?_
  intro acc i _ hacc
  unfold logRegNodeUpdate
  cases hg : acc.nodes[i]? with
  | none => exact hacc
  | some node =>
    dsimp only
    repeat' split
    all_goals first
      | exact hacc
      | exact abs_nonneg _

theorem runLogReg_reliability_le (training : Bool) (fexp : ℚ → ℚ)
    (nodes : List GraphNode) (edges : List GraphEdge) (ev : Evidence) :
    (runLogisticRegression training fexp nodes edges ev).1.reliability ≤
      0.98 := by
  unfold runLogisticRegression
  dsimp only
  have hmc : 0 ≤ ((List.range 5).foldl
      (fun st _ => logRegPass training fexp edges ev st)
      (nodes, initScores nodes ev, 0)).2.2 := by
    refine foldl_inv (List.range 5) _
      (fun (st : List GraphNode × Scores × ℚ) => 0 ≤ st.2.2) _ le_rfl ?_
    intro st _ _ _
    exact logRegPass_mc_nonneg training fexp edges ev st
  apply max_le
  · norm_num
  · linarith

theorem viPass_mc_nonneg (nodes : List GraphNode) (edges : List GraphEdge)
    (ev : Evidence) (means : Scores) : 0 ≤ (viPass nodes edges ev means).2 := by
  unfold viPass
  refine foldl_inv nodes _ (fun (acc : Scores × ℚ) => 0 ≤ acc.2) _ le_rfl ?_
  intro acc node _ hacc
  dsimp only
  split
  · exact hacc
  · split
    · exact hacc
    · dsimp only
      split
      · exact abs_nonneg _
      · exact hacc

theorem runVI_reliability_le (nodes : List GraphNode) (edges : List GraphEdge)
    (ev : Evidence) : (runVI nodes edges ev).reliability ≤ 1 := by
  unfold runVI
  dsimp only
  have hmc : 0 ≤ ((List.range 15).foldl
      (fun (st : Scores × ℚ) _ => viPass nodes edges ev st.1)
      (initScores nodes ev, 0)).2 := by
    refine foldl_inv (List.range 15) _
      (fun (st : Scores × ℚ) => 0 ≤ st.2) _ le_rfl ?_
    intro st _ _ _
    exact viPass_mc_nonneg nodes edges ev st.1
  apply max_le
  · norm_num
  · linarith

theorem tfPass_mc_nonneg (fexp : ℚ → ℚ) (edges : List GraphEdge)
    (ev : Evidence) (st : List GraphNode × Scores × ℚ) :
    0 ≤ (tfPass fexp edges ev st).2.2 := by
  unfold tfPass
  dsimp only
  refine foldl_inv (List.range st.1.length) _
    (fun (acc : PassAcc) => 0 ≤ acc.maxChange) _ le_rfl ?_
  intro acc i _ hacc
  unfold tfNodeUpdate
  cases hg : acc.nodes[i]? with
  | none => exact hacc
  | some node =>
    dsimp only
    split
    · exact hacc
    · split
      · exact hacc
      · dsimp only
        split
        · exact abs_nonneg _
        · exact hacc

theorem runTF_reliability_le (fexp : ℚ → ℚ) (nodes : List GraphNode)
    (edges : List GraphEdge) (ev : Evidence) :
    (runTransformer fexp nodes edges ev).1.reliability ≤ 1 := by
  unfold runTransformer
  dsimp only
  have hmc : 0 ≤ ((List.range 3).foldl
      (fun st _ => tfPass fexp edges ev st)
      (nodes, initScores nodes ev, 0)).2.2 := by
    refine foldl_inv (List.range 3) _
      (fun (st : List GraphNode × Scores × ℚ) => 0 ≤ st.2.2) _ le_rfl ?_
    intro st _ _ _
    exact tfPass_mc_nonneg fexp edges ev st
  apply max_le
  · norm_num
  · linarith

/-! BN: the final `maxDelta` is nonnegative, so the reliability lies in
`[0.05, 1]`. -/

theorem bnStep_delta_nonneg (nodes : List GraphNode) (edges : List GraphEdge)
    (ev : Evidence) (s : Scores) : 0 ≤ (bnStep nodes edges ev s).2 := by
  unfold bnStep
  refine foldl_inv nodes _ (fun (acc : Scores × ℚ) => 0 ≤ acc.2) _ le_rfl ?_
  intro acc node _ hacc
  unfold bnNodeUpdate
  split
  · exact hacc
  · dsimp only
    split
    · exact abs_nonneg _
    · exact hacc

theorem bnLoop_delta_nonneg (nodes : List GraphNode) (edges : List GraphEdge)
    (ev : Evidence) :
    ∀ (fuel : ℕ) (s : Scores) (d : ℚ), 0 ≤ d →
      0 ≤ (bnLoop nodes edges ev fuel s d).2.1 := by
  intro fuel
  induction fuel with
  | zero => intro s d hd; exact hd
  | succ n ih =>
    intro s d hd
    rw [bnLoop_succ]
    split
    · exact ih _ _ (bnStep_delta_nonneg nodes edges ev s)
    · exact hd

theorem runBN_reliability_bounds (nodes : List GraphNode)
    (edges : List GraphEdge) (ev : Evidence) :
    0.05 ≤ (runBN nodes edges ev).reliability ∧
      (runBN nodes edges ev).reliability ≤ 1 := by
  unfold runBN
  dsimp only
  have hd : 0 ≤ (bnLoop nodes edges ev 50 (initScores nodes ev) 1.0).2.1 :=
    bnLoop_delta_nonneg nodes edges ev 50 _ _ (by norm_num)
  have h1 : (0.1 : ℚ) ≤ max 0.1
      (1.0 - (bnLoop nodes edges ev 50 (initScores nodes ev) 1.0).2.1 * 100) :=
    le_max_left _ _
  have h2 : max 0.1
      (1.0 - (bnLoop nodes edges ev 50 (initScores nodes ev) 1.0).2.1 * 100) ≤
      1 := by
    apply max_le
    · norm_num
    · linarith
  constructor
  · split
    · linarith
    · linarith
  · split
    · linarith
    · linarith


/-! ## Sample variance is nonnegative: MCS reliability bounds -/

/-- Cauchy–Schwarz for lists: the square of the sum is at most the length
times the sum of squares. -/
theorem list_sq_sum_le (l : List ℚ) :
    l.sum ^ 2 ≤ (l.length : ℚ) * (l.map (fun x => x * x)).sum := by
  induction l with
  | nil => simp
  | cons a l ih =>
    simp only [List.sum_cons, List.map_cons, List.length_cons]
    push_cast
    have hq : 0 ≤ (l.map (fun x => x * x)).sum := by
      apply list_sum_nonneg
      intro x hx
      obtain ⟨y, _, rfl⟩ := List.mem_map.mp hx
      exact mul_self_nonneg y
    by_cases hl : l = []
    · subst hl
      simp
      nlinarith [sq_nonneg a]
    · have hn : (0 : ℚ) < l.length := by
        have := List.length_pos.mpr hl
        exact_mod_cast this
      nlinarith [ih, hq, sq_nonneg (l.sum - (l.length : ℚ) * a), hn,
        sq_nonneg a, sq_nonneg l.sum]

/-- A pair of running sums that is an actual sample sum / sum of squares. -/
def hasSamples (t : ℕ) (ssum ssq : ℚ) : Prop :=
  ∃ l : List ℚ, l.length = t ∧ ssum = l.sum ∧
    ssq = (l.map (fun x => x * x)).sum

theorem hasSamples_zero : hasSamples 0 0 0 := ⟨[], rfl, rfl, rfl⟩

theorem hasSamples_step {t : ℕ} {a b : ℚ} (h : hasSamples t a b) (v : ℚ) :
    hasSamples (t + 1) (a + v) (b + v * v) := by
  obtain ⟨l, hl, ha, hb⟩ := h
  exact ⟨v :: l, by simp [hl], by simp [ha, add_comm],
    by simp [hb, add_comm]⟩

/-- The sample mean square never exceeds the mean square sum. -/
theorem hasSamples_variance_nonneg {t : ℕ} {a b : ℚ} (h : hasSamples t a b)
    (ht : 0 < t) :
    a / t * (a / t) ≤ b / t := by
  obtain ⟨l, hl, ha, hb⟩ := h
  subst ha hb hl
  have hcs := list_sq_sum_le l
  have htq : (0 : ℚ) < l.length := by exact_mod_cast ht
  rw [div_mul_div_comm, div_le_div_iff₀ (by positivity) htq]
  nlinarith [hcs, htq]

/-- A per-node accumulation fold adds `count · v` at each id. -/
theorem nodesFold_sums (nodes : List GraphNode) (w : String → ℚ)
    (s0 : Scores) (id : String) :
    nodes.foldl (fun s node => setS s node.id (s node.id + w node.id)) s0 id =
      s0 id + ((nodeIds nodes).count id : ℚ) * w id := by
  have hconv : nodes.foldl
      (fun s node => setS s node.id (s node.id + w node.id)) s0 =
      (nodeIds nodes).foldl (fun s j => setS s j (s j + w j)) s0 := by
    unfold nodeIds
    rw [List.foldl_map]
  rw [hconv, foldl_setS_count]

/-- One MCS trial appends one sample per (uniquely named) node. -/
theorem mcsTrial_samples (nodes : List GraphNode) (edges : List GraphEdge)
    (ev : Evidence) (rng : ℕ → ℚ) (id : String)
    (hcount : (nodeIds nodes).count id = 1) {t : ℕ} {acc : McsAcc}
    (h : hasSamples t (acc.sums id) (acc.sumsSq id)) :
    hasSamples (t + 1) ((mcsTrial nodes edges ev rng acc).sums id)
      ((mcsTrial nodes edges ev rng acc).sumsSq id) := by
  unfold mcsTrial
  dsimp only
  generalize List.foldl (fun st _ => mcsPropStep nodes edges ev st)
    (mcsInit nodes ev rng acc.k).1 (List.range 5) = state
  rw [nodesFold_sums nodes state acc.sums id,
    nodesFold_sums nodes (fun j => state j * state j) acc.sumsSq id, hcount]
  push_cast
  rw [one_mul, one_mul]
  exact hasSamples_step h _

/-- Through the MCS trial loop, the accumulators remain sample sums. -/
theorem mcsTrials_samples (nodes : List GraphNode) (edges : List GraphEdge)
    (ev : Evidence) (rng : ℕ → ℚ) (id : String)
    (hcount : (nodeIds nodes).count id = 1) :
    ∀ (n t : ℕ) (acc : McsAcc),
      hasSamples t (acc.sums id) (acc.sumsSq id) →
      hasSamples (t + n) ((mcsTrials nodes edges ev rng n acc).sums id)
        ((mcsTrials nodes edges ev rng n acc).sumsSq id) := by
  intro n
  induction n with
  | zero => intro t acc h; exact h
  | succ n ih =>
    intro t acc h
    show hasSamples _ ((mcsTrials nodes edges ev rng n
      (mcsTrial nodes edges ev rng acc)).sums id) _
    rw [show t + (n + 1) = (t + 1) + n from by omega]
    exact ih (t + 1) _ (mcsTrial_samples nodes edges ev rng id hcount h)

/-- Arithmetic form of the MCS reliability bound. -/
theorem mcsRel_bounds {tv : ℚ} (htv : 0 ≤ tv) (an : ℤ) :
    0 < 1.0 / (1.0 + (if an > 0 then tv / (an : ℚ) else 0) * 10) ∧
      1.0 / (1.0 + (if an > 0 then tv / (an : ℚ) else 0) * 10) ≤ 1 := by
  have hav : 0 ≤ (if an > 0 then tv / (an : ℚ) else 0) := by
    split
    · apply div_nonneg htv
      rename_i han
      exact_mod_cast le_of_lt han
    · exact le_rfl
  constructor
  · apply div_pos
    · norm_num
    · linarith
  · rw [div_le_one (by linarith)]
    linarith

/-- The MCS reliability always lies in `(0, 1]` (duplicate-free node ids). -/
theorem runMCS_reliability_bounds (nodes : List GraphNode)
    (edges : List GraphEdge) (ev : Evidence) (rng : ℕ → ℚ) (k : ℕ)
    (hnd : (nodeIds nodes).Nodup) :
    0 < (runMCS nodes edges ev rng k).1.reliability ∧
      (runMCS nodes edges ev rng k).1.reliability ≤ 1 := by
  unfold runMCS
  dsimp only
  refine mcsRel_bounds ?_ _
  refine foldl_inv nodes _ (fun tv => 0 ≤ tv) 0 le_rfl ?_
  intro tv node hmemn htv
  dsimp only
  split
  · have hcount : (nodeIds nodes).count node.id = 1 :=
      List.count_eq_one_of_mem hnd
        (List.mem_map_of_mem (fun n => n.id) hmemn)
    have hs := mcsTrials_samples nodes edges ev rng node.id hcount 300 0
      ⟨(fun _ => 0), (fun _ => 0), k⟩ hasSamples_zero
    rw [Nat.zero_add] at hs
    have hvar := hasSamples_variance_nonneg hs (by norm_num)
    push_cast at hvar
    linarith
  · exact htv


/-! ## MCMC reliability bounds (claim C4 machinery) -/

theorem mcmcLoop_succ (nodes : List GraphNode) (edges : List GraphEdge)
    (fexp : ℚ → ℚ) (rng : ℕ → ℚ) (cands : List GraphNode) (burnIn : ℕ)
    (n i : ℕ) (st : McmcSt) :
    mcmcLoop nodes edges fexp rng cands burnIn (n + 1) i st =
      mcmcLoop nodes edges fexp rng cands burnIn n (i + 1)
        (mcmcSweep nodes edges fexp rng cands burnIn i st) := rfl

theorem mcmcLoop_add (nodes : List GraphNode) (edges : List GraphEdge)
    (fexp : ℚ → ℚ) (rng : ℕ → ℚ) (cands : List GraphNode) (burnIn : ℕ) :
    ∀ (a b i : ℕ) (st : McmcSt),
      mcmcLoop nodes edges fexp rng cands burnIn (a + b) i st =
        mcmcLoop nodes edges fexp rng cands burnIn b (i + a)
          (mcmcLoop nodes edges fexp rng cands burnIn a i st) := by
  intro a
  induction a with
  | zero =>
    intro b i st
    rw [Nat.zero_add, Nat.add_zero]
    rfl
  | succ a ih =>
    intro b i st
    rw [show a + 1 + b = (a + b) + 1 from by omega, mcmcLoop_succ,
      mcmcLoop_succ, ih, show i + 1 + a = i + (a + 1) from by omega]

/-- During burn-in, a sweep leaves the sample accumulators untouched. -/
theorem mcmcSweep_sums_burn (nodes : List GraphNode) (edges : List GraphEdge)
    (fexp : ℚ → ℚ) (rng : ℕ → ℚ) (cands : List GraphNode) (burnIn : ℕ)
    (i : ℕ) (st : McmcSt) (hi : i < burnIn) :
    (mcmcSweep nodes edges fexp rng cands burnIn i st).sums = st.sums ∧
      (mcmcSweep nodes edges fexp rng cands burnIn i st).sumsSq =
        st.sumsSq := by
  unfold mcmcSweep
  dsimp only
  rw [if_neg (by omega : ¬ i ≥ burnIn)]
  refine foldl_inv cands _
    (fun s : McmcSt => s.sums = st.sums ∧ s.sumsSq = st.sumsSq) _ ?_ ?_
  · split
    · exact ⟨rfl, rfl⟩
    · exact ⟨rfl, rfl⟩
  · intro s target _ hs
    dsimp only
    split
    · exact hs
    · exact hs

/-- Through the whole burn-in phase the accumulators stay untouched. -/
theorem mcmcLoop_sums_burn (nodes : List GraphNode) (edges : List GraphEdge)
    (fexp : ℚ → ℚ) (rng : ℕ → ℚ) (cands : List GraphNode) (burnIn : ℕ) :
    ∀ (n i : ℕ) (st : McmcSt), i + n ≤ burnIn →
      (mcmcLoop nodes edges fexp rng cands burnIn n i st).sums = st.sums ∧
        (mcmcLoop nodes edges fexp rng cands burnIn n i st).sumsSq =
          st.sumsSq := by
  intro n
  induction n with
  | zero => intro i st _; exact ⟨rfl, rfl⟩
  | succ n ih =>
    intro i st hle
    rw [mcmcLoop_succ]
    obtain ⟨h1, h2⟩ := ih (i + 1)
      (mcmcSweep nodes edges fexp rng cands burnIn i st) (by omega)
    obtain ⟨h3, h4⟩ := mcmcSweep_sums_burn nodes edges fexp rng cands burnIn
      i st (by omega)
    exact ⟨h1.trans h3, h2.trans h4⟩

/-- Recording one sample (once per uniquely named node id). -/
theorem recordStep_samples {t : ℕ} {id : String} (nodes : List GraphNode)
    (st2 : McmcSt) (ssum ssq : ℚ)
    (hcount : (nodeIds nodes).count id = 1)
    (hsum : st2.sums id = ssum) (hsq : st2.sumsSq id = ssq)
    (h : hasSamples t ssum ssq) :
    hasSamples (t + 1)
      (nodes.foldl
        (fun s node => setS s node.id (s node.id + st2.current node.id))
        st2.sums id)
      (nodes.foldl
        (fun s node =>
          setS s node.id
            (s node.id + st2.current node.id * st2.current node.id))
        st2.sumsSq id) := by
  rw [nodesFold_sums nodes (fun j => st2.current j) st2.sums id,
    nodesFold_sums nodes (fun j => st2.current j * st2.current j) st2.sumsSq
      id,
    hcount, hsum, hsq]
  push_cast
  rw [one_mul, one_mul]
  exact hasSamples_step h _

/-- A recorded sweep appends exactly one sample per uniquely named node. -/
theorem mcmcSweep_samples (nodes : List GraphNode) (edges : List GraphEdge)
    (fexp : ℚ → ℚ) (rng : ℕ → ℚ) (cands : List GraphNode) (burnIn : ℕ)
    (id : String) (hcount : (nodeIds nodes).count id = 1) (i : ℕ)
    (st : McmcSt) {t : ℕ} (hi : i ≥ burnIn)
    (h : hasSamples t (st.sums id) (st.sumsSq id)) :
    hasSamples (t + 1)
      ((mcmcSweep nodes edges fexp rng cands burnIn i st).sums id)
      ((mcmcSweep nodes edges fexp rng cands burnIn i st).sumsSq id) := by
  unfold mcmcSweep
  dsimp only
  rw [if_pos hi]
  dsimp only
  refine recordStep_samples nodes _ (st.sums id) (st.sumsSq id) hcount ?_ ?_ h
  · refine foldl_inv cands _ (fun s : McmcSt => s.sums id = st.sums id) _ ?_ ?_
    · split
      · rfl
      · rfl
    · intro s target _ hs
      dsimp only
      split
      · exact hs
      · exact hs
  · refine foldl_inv cands _
      (fun s : McmcSt => s.sumsSq id = st.sumsSq id) _ ?_ ?_
    · split
      · rfl
      · rfl
    · intro s target _ hs
      dsimp only
      split
      · exact hs
      · exact hs

/-- Through the recording phase the accumulators are true sample sums. -/
theorem mcmcLoop_samples (nodes : List GraphNode) (edges : List GraphEdge)
    (fexp : ℚ → ℚ) (rng : ℕ → ℚ) (cands : List GraphNode) (burnIn : ℕ)
    (id : String) (hcount : (nodeIds nodes).count id = 1) :
    ∀ (n i t : ℕ) (st : McmcSt), burnIn ≤ i →
      hasSamples t (st.sums id) (st.sumsSq id) →
      hasSamples (t + n)
        ((mcmcLoop nodes edges fexp rng cands burnIn n i st).sums id)
        ((mcmcLoop nodes edges fexp rng cands burnIn n i st).sumsSq id) := by
  intro n
  induction n with
  | zero => intro i t st _ h; exact h
  | succ n ih =>
    intro i t st hi h
    rw [mcmcLoop_succ, show t + (n + 1) = (t + 1) + n from by omega]
    exact ih (i + 1) (t + 1) _ (by omega)
      (mcmcSweep_samples nodes edges fexp rng cands burnIn id hcount i st
        hi h)

/-- Arithmetic form of the MCMC reliability bound. -/
theorem mcmcRel_bounds {tv : ℚ} (htv : 0 ≤ tv) (an : ℕ) :
    0 < min 1.0 (1.0 / (1.0 + (if an > 0 then tv / (an : ℚ) else 0) * 8)) ∧
      min 1.0 (1.0 / (1.0 + (if an > 0 then tv / (an : ℚ) else 0) * 8)) ≤
        1 := by
  have hav : 0 ≤ (if an > 0 then tv / (an : ℚ) else 0) := by
    split
    · exact div_nonneg htv (Nat.cast_nonneg an)
    · exact le_rfl
  constructor
  · apply lt_min
    · norm_num
    · apply div_pos
      · norm_num
      · linarith
  · exact le_trans (min_le_left _ _) (by norm_num)

/-- The MCMC reliability always lies in `(0, 1]` (duplicate-free node ids). -/
theorem runMCMC_reliability_bounds (nodes : List GraphNode)
    (edges : List GraphEdge) (ev : Evidence) (fexp : ℚ → ℚ) (rng : ℕ → ℚ)
    (k : ℕ) (hnd : (nodeIds nodes).Nodup) :
    0 < (runMCMC nodes edges ev fexp rng k).1.reliability ∧
      (runMCMC nodes edges ev fexp rng k).1.reliability ≤ 1 := by
  unfold runMCMC
  dsimp only
  refine mcmcRel_bounds ?_ _
  refine foldl_inv nodes _ (fun tv => 0 ≤ tv) 0 le_rfl ?_
  intro tv node hmemn htv
  dsimp only
  split
  · have hcount : (nodeIds nodes).count node.id = 1 :=
      List.count_eq_one_of_mem hnd
        (List.mem_map_of_mem (fun n => n.id) hmemn)
    have hsplit : ∀ st : McmcSt,
        mcmcLoop nodes edges fexp rng
          (nodes.filter (fun n => (lookupA ev n.id).isNone)) 100 500 0 st =
        mcmcLoop nodes edges fexp rng
          (nodes.filter (fun n => (lookupA ev n.id).isNone)) 100 400 (0 + 100)
          (mcmcLoop nodes edges fexp rng
            (nodes.filter (fun n => (lookupA ev n.id).isNone)) 100 100 0
            st) := by
      intro st
      rw [show (500 : ℕ) = 100 + 400 from rfl, mcmcLoop_add]
    have hburn := mcmcLoop_sums_burn nodes edges fexp rng
      (nodes.filter (fun n => (lookupA ev n.id).isNone)) 100 100 0
      ⟨initScores nodes ev, 0.2, 0, 0, (fun _ => 0), (fun _ => 0), k⟩
      (by norm_num)
    have h0 : hasSamples 0
        ((mcmcLoop nodes edges fexp rng
          (nodes.filter (fun n => (lookupA ev n.id).isNone)) 100 100 0
          ⟨initScores nodes ev, 0.2, 0, 0, (fun _ => 0), (fun _ => 0),
            k⟩).sums node.id)
        ((mcmcLoop nodes edges fexp rng
          (nodes.filter (fun n => (lookupA ev n.id).isNone)) 100 100 0
          ⟨initScores nodes ev, 0.2, 0, 0, (fun _ => 0), (fun _ => 0),
            k⟩).sumsSq node.id) := by
      rw [hburn.1, hburn.2]
      exact hasSamples_zero
    have hs := mcmcLoop_samples nodes edges fexp rng
      (nodes.filter (fun n => (lookupA ev n.id).isNone)) 100 node.id hcount
      400 (0 + 100) 0 _ (by omega) h0
    rw [← hsplit] at hs
    rw [Nat.zero_add] at hs
    have hvar := hasSamples_variance_nonneg hs (by norm_num)
    push_cast at hvar
    linarith
  · exact htv


/-- Claim C4 (corrected): the spec claims every runner's reliability lies in
[0.1, 1] (LogReg in [0.2, 1]) and in particular BN's never falls below 0.1.
In fact BN's halving penalty can push its reliability down to 0.05 (see the
counterexample); the provable per-runner ranges are: BN ∈ [0.05, 1],
MCS ∈ (0, 1], MCMC ∈ (0, 1] (both under duplicate-free node ids, with no
constant positive lower bound), DT = 0.6, LR ∈ [0.1, 0.95],
LogReg ∈ [0.2, 0.98], VI ∈ [0.1, 1] and Transformer ∈ [0.1, 1]. -/
theorem C4_ranges (nodes : List GraphNode) (edges : List GraphEdge)
    (ev : Evidence) (rng : ℕ → ℚ) (fexp : ℚ → ℚ) (k : ℕ) (tr : Bool)
    (hnd : (nodeIds nodes).Nodup) :
    (0.05 ≤ (runBN nodes edges ev).reliability ∧
      (runBN nodes edges ev).reliability ≤ 1) ∧
    (0 < (runMCS nodes edges ev rng k).1.reliability ∧
      (runMCS nodes edges ev rng k).1.reliability ≤ 1) ∧
    (0 < (runMCMC nodes edges ev fexp rng k).1.reliability ∧
      (runMCMC nodes edges ev fexp rng k).1.reliability ≤ 1) ∧
    (runDT nodes edges ev).reliability = 0.6 ∧
    (0.1 ≤ (runLinearRegression tr nodes edges ev).1.reliability ∧
      (runLinearRegression tr nodes edges ev).1.reliability ≤ 0.95) ∧
    (0.2 ≤ (runLogisticRegression tr fexp nodes edges ev).1.reliability ∧
      (runLogisticRegression tr fexp nodes edges ev).1.reliability ≤ 0.98) ∧
    (0.1 ≤ (runVI nodes edges ev).reliability ∧
      (runVI nodes edges ev).reliability ≤ 1) ∧
    (0.1 ≤ (runTransformer fexp nodes edges ev).1.reliability ∧
      (runTransformer fexp nodes edges ev).1.reliability ≤ 1) :=
  ⟨runBN_reliability_bounds nodes edges ev,
    runMCS_reliability_bounds nodes edges ev rng k hnd,
    runMCMC_reliability_bounds nodes edges ev fexp rng k hnd,
    runDT_reliability nodes edges ev,
    ⟨runLR_reliability_ge tr nodes edges ev,
      runLR_reliability_le tr nodes edges ev⟩,
    ⟨runLogReg_reliability_ge tr fexp nodes edges ev,
      runLogReg_reliability_le tr fexp nodes edges ev⟩,
    ⟨runVI_reliability_ge nodes edges ev, runVI_reliability_le nodes edges ev⟩,
    ⟨runTF_reliability_ge fexp nodes edges ev,
      runTF_reliability_le fexp nodes edges ev⟩⟩

/-- A tag-derived runaway prior: the Prior Estimator parses the tag value as
the number −10¹², so BN never converges and hits the halving penalty. -/
def c4NodeA : GraphNode :=
  { id := "A", ntype := NodeType.part, context := BOMContext.design,
    tags := some [("material", "-1000000000000")] }

def c4NodeB : GraphNode :=
  { id := "B", ntype := NodeType.part, context := BOMContext.design }

def c4Graph : KnowledgeGraph :=
  { nodes := [c4NodeA, c4NodeB],
    edges := [{ id := "e", source := "A", target := "B" }] }

set_option maxRecDepth 4000000 in
/-- Claim C4, counterexample: on this graph BN runs all 50 iterations with a
huge residual delta, and its reliability is 0.05, strictly below the claimed
lower bound 0.1. -/
theorem C4_cx :
    (runBN c4Graph.nodes c4Graph.edges []).reliability = 1 / 20 ∧
      (1 / 20 : ℚ) < 0.1 := by
  constructor
  · apply qeq_num
    with_unfolding_all decide
  · norm_num

/-- Claim C4, witness: the corrected ranges applied to a concrete graph. -/
theorem C4_witness :
    (nodeIds c4Graph.nodes).Nodup ∧
      (0.05 ≤ (runBN c4Graph.nodes c4Graph.edges []).reliability ∧
        (runBN c4Graph.nodes c4Graph.edges []).reliability ≤ 1) :=
  ⟨by decide,
    (C4_ranges c4Graph.nodes c4Graph.edges [] (fun _ => 0) (fun _ => 1) 0
      true (by decide)).1⟩


/-! ## Evidence fidelity per runner (claim C1 machinery) -/

theorem initScores_ev {nodes : List GraphNode} {ev : Evidence} {id : String}
    {n : GraphNode} {v : ℚ} (hfind : findNode nodes id = some n)
    (hev : lookupA ev id = some v) : initScores nodes ev id = v := by
  unfold initScores
  rw [hfind]
  dsimp only
  rw [findNode_id hfind, hev]
  rfl

/-- A BN iteration never writes at an id with an evidence entry. -/
theorem bnStep_ev_at (nodes : List GraphNode) (edges : List GraphEdge)
    (ev : Evidence) (s : Scores) (id : String)
    (hev : (lookupA ev id).isSome = true) :
    (bnStep nodes edges ev s).1 id = s id := by
  unfold bnStep
  refine foldl_inv nodes _ (fun (acc : Scores × ℚ) => acc.1 id = s id) _
    rfl ?_
  intro acc n _ hacc
  unfold bnNodeUpdate
  split
  · exact hacc
  · rename_i hnev
    dsimp only
    rw [setS_ne ?c1hne1]
    · exact hacc
    · intro he
      rw [← he, hev] at hnev
      exact hnev rfl

theorem runBN_ev {nodes : List GraphNode} {edges : List GraphEdge}
    {ev : Evidence} {id : String} {n : GraphNode} {v : ℚ}
    (hfind : findNode nodes id = some n) (hev : lookupA ev id = some v) :
    (runBN nodes edges ev).scores id = v := by
  have hso : (lookupA ev id).isSome = true := by rw [hev]; rfl
  have hloop : ∀ (fuel : ℕ) (s : Scores) (d : ℚ), s id = v →
      (bnLoop nodes edges ev fuel s d).1 id = v := by
    intro fuel
    induction fuel with
    | zero => intro s d hs; exact hs
    | succ m ih =>
      intro s d hs
      rw [bnLoop_succ]
      split
      · exact ih _ _ (by rw [bnStep_ev_at nodes edges ev s id hso, hs])
      · exact hs
  unfold runBN
  dsimp only
  exact hloop 50 _ _ (initScores_ev hfind hev)

/-- A DT pass never writes at an id with an evidence entry. -/
theorem dtPass_ev_at (nodes : List GraphNode) (edges : List GraphEdge)
    (ev : Evidence) (s : Scores) (id : String)
    (hev : (lookupA ev id).isSome = true) :
    dtPass nodes edges ev s id = s id := by
  unfold dtPass
  refine foldl_inv nodes _ (fun ns => ns id = s id) s rfl ?_
  intro ns n _ hns
  dsimp only
  split
  · exact hns
  · rename_i hnev
    split
    · exact hns
    · rw [setS_ne ?c1hne2]
      · exact hns
      · intro he
        rw [← he, hev] at hnev
        exact hnev rfl

theorem runDT_ev {nodes : List GraphNode} {edges : List GraphEdge}
    {ev : Evidence} {id : String} {n : GraphNode} {v : ℚ}
    (hfind : findNode nodes id = some n) (hev : lookupA ev id = some v) :
    (runDT nodes edges ev).scores id = v := by
  have hso : (lookupA ev id).isSome = true := by rw [hev]; rfl
  unfold runDT
  dsimp only
  refine foldl_inv (List.range 5) _ (fun (s : Scores) => s id = v) _
    (initScores_ev hfind hev) ?_
  intro s _ _ hs
  rw [dtPass_ev_at nodes edges ev s id hso]
  exact hs

/-- A VI pass never writes at an id with an evidence entry. -/
theorem viPass_ev_at (nodes : List GraphNode) (edges : List GraphEdge)
    (ev : Evidence) (means : Scores) (id : String)
    (hev : (lookupA ev id).isSome = true) :
    (viPass nodes edges ev means).1 id = means id := by
  unfold viPass
  refine foldl_inv nodes _ (fun (acc : Scores × ℚ) => acc.1 id = means id) _
    rfl ?_
  intro acc n _ hacc
  dsimp only
  split
  · exact hacc
  · rename_i hnev
    split
    · exact hacc
    · dsimp only
      rw [setS_ne ?c1hne3]
      · exact hacc
      · intro he
        rw [← he, hev] at hnev
        exact hnev rfl

theorem runVI_ev {nodes : List GraphNode} {edges : List GraphEdge}
    {ev : Evidence} {id : String} {n : GraphNode} {v : ℚ}
    (hfind : findNode nodes id = some n) (hev : lookupA ev id = some v) :
    (runVI nodes edges ev).scores id = v := by
  have hso : (lookupA ev id).isSome = true := by rw [hev]; rfl
  unfold runVI
  dsimp only
  refine foldl_inv (List.range 15) _
    (fun (st : Scores × ℚ) => st.1 id = v) _ (initScores_ev hfind hev) ?_
  intro st _ _ hst
  rw [viPass_ev_at nodes edges ev st.1 id hso]
  exact hst

/-- An LR node step never writes the score at an id with an evidence
entry. -/
theorem lrNodeUpdate_ev_at (training : Bool) (edges : List GraphEdge)
    (ev : Evidence) (scores : Scores) (acc : PassAcc) (i : ℕ) (id : String)
    (hev : (lookupA ev id).isSome = true) :
    (lrNodeUpdate training edges ev scores acc i).next id = acc.next id := by
  unfold lrNodeUpdate
  cases hg : acc.nodes[i]? with
  | none => rfl
  | some node =>
    dsimp only
    split
    · rfl
    · rename_i hnev
      split
      · rfl
      · dsimp only
        rw [setS_ne ?c1hne4]
        · intro he
          rw [← he, hev] at hnev
          exact hnev rfl

theorem runLinearRegression_ev {nodes : List GraphNode}
    {edges : List GraphEdge} {ev : Evidence} {id : String} {n : GraphNode}
    {v : ℚ} (training : Bool) (hfind : findNode nodes id = some n)
    (hev : lookupA ev id = some v) :
    (runLinearRegression training nodes edges ev).1.scores id = v := by
  have hso : (lookupA ev id).isSome = true := by rw [hev]; rfl
  unfold runLinearRegression
  dsimp only
  refine foldl_inv (List.range 5) _
    (fun (st : List GraphNode × Scores × ℚ) => st.2.1 id = v) _
    (initScores_ev hfind hev) ?_
  intro st _ _ hst
  unfold lrPass
  dsimp only
  refine foldl_inv (List.range st.1.length) _
    (fun (acc : PassAcc) => acc.next id = v) _ hst ?_
  intro acc i _ hacc
  rw [lrNodeUpdate_ev_at training edges ev st.2.1 acc i id hso]
  exact hacc

/-- A LogReg node step trains on an evidence node but never overwrites its
propagated score. -/
theorem logRegNodeUpdate_ev_at (training : Bool) (fexp : ℚ → ℚ)
    (edges : List GraphEdge) (ev : Evidence) (scores : Scores) (acc : PassAcc)
    (i : ℕ) (id : String) (hev : (lookupA ev id).isSome = true) :
    (logRegNodeUpdate training fexp edges ev scores acc i).next id =
      acc.next id := by
  unfold logRegNodeUpdate
  cases hg : acc.nodes[i]? with
  | none => rfl
  | some node =>
    dsimp only
    split
    · rfl
    · split
      · rename_i hnev
        dsimp only
        rw [setS_ne ?c1hne5]
        · intro he
          rw [← he] at hnev
          rw [hev] at hnev
          simp at hnev
      · rfl

theorem runLogisticRegression_ev {nodes : List GraphNode}
    {edges : List GraphEdge} {ev : Evidence} {id : String} {n : GraphNode}
    {v : ℚ} (training : Bool) (fexp : ℚ → ℚ)
    (hfind : findNode nodes id = some n) (hev : lookupA ev id = some v) :
    (runLogisticRegression training fexp nodes edges ev).1.scores id = v := by
  have hso : (lookupA ev id).isSome = true := by rw [hev]; rfl
  unfold runLogisticRegression
  dsimp only
  refine foldl_inv (List.range 5) _
    (fun (st : List GraphNode × Scores × ℚ) => st.2.1 id = v) _
    (initScores_ev hfind hev) ?_
  intro st _ _ hst
  unfold logRegPass
  dsimp only
  refine foldl_inv (List.range st.1.length) _
    (fun (acc : PassAcc) => acc.next id = v) _ hst ?_
  intro acc i _ hacc
  rw [logRegNodeUpdate_ev_at training fexp edges ev st.2.1 acc i id hso]
  exact hacc

/-- A Transformer node step never writes the score at an id with an evidence
entry. -/
theorem tfNodeUpdate_ev_at (fexp : ℚ → ℚ) (edges : List GraphEdge)
    (ev : Evidence) (scores : Scores) (acc : PassAcc) (i : ℕ) (id : String)
    (hev : (lookupA ev id).isSome = true) :
    (tfNodeUpdate fexp edges ev scores acc i).next id = acc.next id := by
  unfold tfNodeUpdate
  cases hg : acc.nodes[i]? with
  | none => rfl
  | some node =>
    dsimp only
    split
    · rfl
    · rename_i hnev
      split
      · rfl
      · dsimp only
        rw [setS_ne ?c1hne6]
        · intro he
          rw [← he, hev] at hnev
          exact hnev rfl

theorem runTransformer_ev {nodes : List GraphNode} {edges : List GraphEdge}
    {ev : Evidence} {id : String} {n : GraphNode} {v : ℚ} (fexp : ℚ → ℚ)
    (hfind : findNode nodes id = some n) (hev : lookupA ev id = some v) :
    (runTransformer fexp nodes edges ev).1.scores id = v := by
  have hso : (lookupA ev id).isSome = true := by rw [hev]; rfl
  unfold runTransformer
  dsimp only
  refine foldl_inv (List.range 3) _
    (fun (st : List GraphNode × Scores × ℚ) => st.2.1 id = v) _
    (initScores_ev hfind hev) ?_
  intro st _ _ hst
  unfold tfPass
  dsimp only
  refine foldl_inv (List.range st.1.length) _
    (fun (acc : PassAcc) => acc.next id = v) _ hst ?_
  intro acc i _ hacc
  rw [tfNodeUpdate_ev_at fexp edges ev st.2.1 acc i id hso]
  exact hacc


/-! ## MCMC evidence fidelity: evidence nodes are never proposed -/

/-- A sweep never changes the current value at an id that is not a
candidate. -/
theorem mcmcSweep_current (nodes : List GraphNode) (edges : List GraphEdge)
    (fexp : ℚ → ℚ) (rng : ℕ → ℚ) (cands : List GraphNode) (burnIn : ℕ)
    (id : String) (hcand : ∀ target ∈ cands, target.id ≠ id) (i : ℕ)
    (st : McmcSt) :
    (mcmcSweep nodes edges fexp rng cands burnIn i st).current id =
      st.current id := by
  unfold mcmcSweep
  dsimp only
  split
  · dsimp only
    refine foldl_inv cands _
      (fun s : McmcSt => s.current id = st.current id) _ ?_ ?_
    · split
      · rfl
      · rfl
    · intro s target htm hs
      dsimp only
      split
      · dsimp only
        rw [setS_ne (fun he => hcand target htm he.symm)]
        exact hs
      · exact hs
  · refine foldl_inv cands _
      (fun s : McmcSt => s.current id = st.current id) _ ?_ ?_
    · split
      · rfl
      · rfl
    · intro s target htm hs
      dsimp only
      split
      · dsimp only
        rw [setS_ne (fun he => hcand target htm he.symm)]
        exact hs
      · exact hs

/-- Recording one sweep adds the current value once at a uniquely named,
non-candidate id. -/
theorem recordSums_at {id : String} {v ssum : ℚ} (nodes : List GraphNode)
    (st2 : McmcSt) (hcount : (nodeIds nodes).count id = 1)
    (hcur : st2.current id = v) (hsum : st2.sums id = ssum) :
    nodes.foldl
      (fun s node => setS s node.id (s node.id + st2.current node.id))
      st2.sums id = ssum + v := by
  rw [nodesFold_sums nodes (fun j => st2.current j) st2.sums id, hcount,
    hcur, hsum]
  push_cast
  ring

/-- One recorded sweep at a non-candidate id: current kept, sum advanced. -/
theorem mcmcSweep_ev (nodes : List GraphNode) (edges : List GraphEdge)
    (fexp : ℚ → ℚ) (rng : ℕ → ℚ) (cands : List GraphNode) (burnIn : ℕ)
    (id : String) (v : ℚ) (hcand : ∀ target ∈ cands, target.id ≠ id)
    (hcount : (nodeIds nodes).count id = 1) (i : ℕ) (st : McmcSt)
    (hi : burnIn ≤ i) (hcur : st.current id = v) :
    (mcmcSweep nodes edges fexp rng cands burnIn i st).current id = v ∧
      (mcmcSweep nodes edges fexp rng cands burnIn i st).sums id =
        st.sums id + v := by
  refine ⟨by
    rw [mcmcSweep_current nodes edges fexp rng cands burnIn id hcand i st]
    exact hcur, ?_⟩
  unfold mcmcSweep
  dsimp only
  rw [if_pos hi]
  dsimp only
  refine recordSums_at nodes _ hcount ?_ ?_
  · refine foldl_inv cands _ (fun s : McmcSt => s.current id = v) _ ?_ ?_
    · split
      · exact hcur
      · exact hcur
    · intro s target htm hs
      dsimp only
      split
      · dsimp only
        rw [setS_ne (fun he => hcand target htm he.symm)]
        exact hs
      · exact hs
  · refine foldl_inv cands _ (fun s : McmcSt => s.sums id = st.sums id) _
      ?_ ?_
    · split
      · rfl
      · rfl
    · intro s target _ hs
      dsimp only
      split
      · exact hs
      · exact hs

/-- The recording loop accumulates exactly `n · v` at such an id. -/
theorem mcmcLoop_ev (nodes : List GraphNode) (edges : List GraphEdge)
    (fexp : ℚ → ℚ) (rng : ℕ → ℚ) (cands : List GraphNode) (burnIn : ℕ)
    (id : String) (v : ℚ) (hcand : ∀ target ∈ cands, target.id ≠ id)
    (hcount : (nodeIds nodes).count id = 1) :
    ∀ (n i : ℕ) (st : McmcSt), burnIn ≤ i → st.current id = v →
      (mcmcLoop nodes edges fexp rng cands burnIn n i st).current id = v ∧
        (mcmcLoop nodes edges fexp rng cands burnIn n i st).sums id =
          st.sums id + n * v := by
  intro n
  induction n with
  | zero =>
    intro i st _ hcur
    refine ⟨hcur, ?_⟩
    show st.sums id = st.sums id + ((0 : ℕ) : ℚ) * v
    simp
  | succ n ih =>
    intro i st hi hcur
    rw [mcmcLoop_succ]
    obtain ⟨h1, h2⟩ := mcmcSweep_ev nodes edges fexp rng cands burnIn id v
      hcand hcount i st hi hcur
    obtain ⟨h3, h4⟩ := ih (i + 1)
      (mcmcSweep nodes edges fexp rng cands burnIn i st) (by omega) h1
    refine ⟨h3, ?_⟩
    rw [h4, h2]
    push_cast
    ring

/-- During burn-in the current value at a non-candidate id is preserved. -/
theorem mcmcLoop_current (nodes : List GraphNode) (edges : List GraphEdge)
    (fexp : ℚ → ℚ) (rng : ℕ → ℚ) (cands : List GraphNode) (burnIn : ℕ)
    (id : String) (hcand : ∀ target ∈ cands, target.id ≠ id) :
    ∀ (n i : ℕ) (st : McmcSt),
      (mcmcLoop nodes edges fexp rng cands burnIn n i st).current id =
        st.current id := by
  intro n
  induction n with
  | zero => intro i st; rfl
  | succ n ih =>
    intro i st
    rw [mcmcLoop_succ, ih,
      mcmcSweep_current nodes edges fexp rng cands burnIn id hcand i st]

/-- The MCMC runner reports exactly the evidence value at an evidence id. -/
theorem runMCMC_ev {nodes : List GraphNode} {edges : List GraphEdge}
    {ev : Evidence} {id : String} {n : GraphNode} {v : ℚ} (fexp : ℚ → ℚ)
    (rng : ℕ → ℚ) (k : ℕ) (hnd : (nodeIds nodes).Nodup)
    (hfind : findNode nodes id = some n) (hev : lookupA ev id = some v) :
    (runMCMC nodes edges ev fexp rng k).1.scores id = v := by
  have hcount : (nodeIds nodes).count id = 1 := by
    refine List.count_eq_one_of_mem hnd ?_
    rw [← findNode_id hfind]
    exact List.mem_map_of_mem (fun m => m.id) (findNode_mem hfind)
  have hcand : ∀ target ∈ nodes.filter (fun m => (lookupA ev m.id).isNone),
      target.id ≠ id := by
    intro target htm he
    have := List.of_mem_filter htm
    rw [he, hev] at this
    simp at this
  unfold runMCMC
  dsimp only
  have hsplit :
      mcmcLoop nodes edges fexp rng
        (nodes.filter (fun m => (lookupA ev m.id).isNone)) 100 500 0
        ⟨initScores nodes ev, 0.2, 0, 0, (fun _ => 0), (fun _ => 0), k⟩ =
      mcmcLoop nodes edges fexp rng
        (nodes.filter (fun m => (lookupA ev m.id).isNone)) 100 400 (0 + 100)
        (mcmcLoop nodes edges fexp rng
          (nodes.filter (fun m => (lookupA ev m.id).isNone)) 100 100 0
          ⟨initScores nodes ev, 0.2, 0, 0, (fun _ => 0), (fun _ => 0),
            k⟩) := by
    rw [show (500 : ℕ) = 100 + 400 from rfl, mcmcLoop_add]
  rw [hsplit]
  obtain ⟨_, h4⟩ := mcmcLoop_ev nodes edges fexp rng
    (nodes.filter (fun m => (lookupA ev m.id).isNone)) 100 id v hcand hcount
    400 (0 + 100)
    (mcmcLoop nodes edges fexp rng
      (nodes.filter (fun m => (lookupA ev m.id).isNone)) 100 100 0
      ⟨initScores nodes ev, 0.2, 0, 0, (fun _ => 0), (fun _ => 0), k⟩)
    (by omega)
    (by
      rw [mcmcLoop_current nodes edges fexp rng
        (nodes.filter (fun m => (lookupA ev m.id).isNone)) 100 id hcand
        100 0]
      exact initScores_ev hfind hev)
  rw [h4,
    (mcmcLoop_sums_burn nodes edges fexp rng
      (nodes.filter (fun m => (lookupA ev m.id).isNone)) 100 100 0
      ⟨initScores nodes ev, 0.2, 0, 0, (fun _ => 0), (fun _ => 0), k⟩
      (by norm_num)).1]
  show ((0 : ℚ) + 400 * v) / 400 = v
  norm_num


/-! ## Consensus over an evidence node (claim C1 fold) -/

/-- The guarded stage fold with MCS deselected keeps the consensus at an
evidence id proportional to the evidence value. -/
theorem C1_fold (g : KnowledgeGraph) (ev : Evidence) (algos : List String)
    (tr : Bool) (rng : ℕ → ℚ) (fexp : ℚ → ℚ) {id : String} {node : GraphNode}
    {v : ℚ} (hmem : node ∈ g.nodes) (hid : node.id = id)
    (hnd : (nodeIds g.nodes).Nodup) (hev : lookupA ev id = some v)
    (hMCS : algos.contains "MCS" = false) :
    ∀ (l : List String), (∀ name ∈ l, name ∈ runnerOrder) →
      ∀ st : FusionState, framedNodes g.nodes st.nodes →
        st.cons id = v * st.totalWeight →
        (framedNodes g.nodes (analyzeFold g ev algos tr rng fexp l st).nodes ∧
          (analyzeFold g ev algos tr rng fexp l st).cons id =
            v * (analyzeFold g ev algos tr rng fexp l st).totalWeight ∧
          st.totalWeight ≤
            (analyzeFold g ev algos tr rng fexp l st).totalWeight ∧
          ((∃ name ∈ l, algos.contains name = true) →
            st.totalWeight <
              (analyzeFold g ev algos tr rng fexp l st).totalWeight)) := by
  have hcount : (nodeIds g.nodes).count id = 1 :=
    List.count_eq_one_of_mem hnd
      (hid ▸ List.mem_map_of_mem (fun m => m.id) hmem)
  have hfg : findNode g.nodes id = some node :=
    hid ▸ findNode_of_nodup hnd hmem
  intro l
  induction l with
  | nil =>
    intro _ st hf hc
    exact ⟨hf, hc, le_refl _, fun ⟨name, hn, _⟩ => absurd hn (by simp)⟩
  | cons name l ih =>
    intro hsub st hf hc
    rw [analyzeFold_cons]
    by_cases hcn : algos.contains name = true
    · simp only [if_pos hcn]
      obtain ⟨n2, hfind2, _⟩ := (framedNodes_findNode hf id).2 node hfg
      have hnd2 : (nodeIds st.nodes).Nodup := by
        rw [framedNodes_ids hf]
        exact hnd
      have hnm := hsub name (by simp)
      have hstep : framedNodes g.nodes (stageFn g ev tr rng fexp st name).nodes ∧
          (stageFn g ev tr rng fexp st name).cons id =
            v * (stageFn g ev tr rng fexp st name).totalWeight ∧
          st.totalWeight < (stageFn g ev tr rng fexp st name).totalWeight := by
        simp only [runnerOrder, List.mem_cons, List.not_mem_nil, or_false]
          at hnm
        rcases hnm with rfl | rfl | rfl | rfl | rfl | rfl | rfl | rfl
        · refine C7_stage_step g ev tr rng fexp hmem hid hnd st hf hc
            "BN" ?_ ?_
          · show (runBN st.nodes g.edges ev).scores id = _
            exact runBN_ev hfind2 hev
          · show (0:ℚ) < (runBN st.nodes g.edges ev).reliability *
              baseBias "BN"
            have := (runBN_reliability_bounds st.nodes g.edges ev).1
            have hb : baseBias "BN" = 1.5 := rfl
            rw [hb]
            nlinarith
        · rw [hMCS] at hcn; exact absurd hcn (by simp)
        · refine C7_stage_step g ev tr rng fexp hmem hid hnd st hf hc
            "MCMC" ?_ ?_
          · show (runMCMC st.nodes g.edges ev fexp rng st.k).1.scores id = _
            exact runMCMC_ev fexp rng st.k hnd2 hfind2 hev
          · show (0:ℚ) <
              (runMCMC st.nodes g.edges ev fexp rng st.k).1.reliability *
                baseBias "MCMC"
            have := (runMCMC_reliability_bounds st.nodes g.edges ev fexp rng
              st.k hnd2).1
            have hb : baseBias "MCMC" = 1.2 := rfl
            rw [hb]
            nlinarith
        · refine C7_stage_step g ev tr rng fexp hmem hid hnd st hf hc
            "DT" ?_ ?_
          · show (runDT st.nodes g.edges ev).scores id = _
            exact runDT_ev hfind2 hev
          · show (0:ℚ) < (runDT st.nodes g.edges ev).reliability *
              baseBias "DT"
            rw [runDT_reliability]
            have hb : baseBias "DT" = 0.8 := rfl
            rw [hb]
            norm_num
        · refine C7_stage_step g ev tr rng fexp hmem hid hnd st hf hc
            "LR" ?_ ?_
          · show (runLinearRegression tr st.nodes g.edges ev).1.scores id = _
            exact runLinearRegression_ev tr hfind2 hev
          · show (0:ℚ) <
              (runLinearRegression tr st.nodes g.edges ev).1.reliability *
                baseBias "LR"
            have := runLR_reliability_ge tr st.nodes g.edges ev
            have hb : baseBias "LR" = 0.8 := rfl
            rw [hb]
            nlinarith
        · refine C7_stage_step g ev tr rng fexp hmem hid hnd st hf hc
            "LogReg" ?_ ?_
          · show (runLogisticRegression tr fexp st.nodes g.edges
              ev).1.scores id = _
            exact runLogisticRegression_ev tr fexp hfind2 hev
          · show (0:ℚ) <
              (runLogisticRegression tr fexp st.nodes g.edges
                ev).1.reliability * baseBias "LogReg"
            have := runLogReg_reliability_ge tr fexp st.nodes g.edges ev
            have hb : baseBias "LogReg" = 0.8 := rfl
            rw [hb]
            nlinarith
        · refine C7_stage_step g ev tr rng fexp hmem hid hnd st hf hc
            "VI" ?_ ?_
          · show (runVI st.nodes g.edges ev).scores id = _
            exact runVI_ev hfind2 hev
          · show (0:ℚ) < (runVI st.nodes g.edges ev).reliability *
              baseBias "VI"
            have := runVI_reliability_ge st.nodes g.edges ev
            have hb : baseBias "VI" = 0.8 := rfl
            rw [hb]
            nlinarith
        · refine C7_stage_step g ev tr rng fexp hmem hid hnd st hf hc
            "Transformer" ?_ ?_
          · show (runTransformer fexp st.nodes g.edges ev).1.scores id = _
            exact runTransformer_ev fexp hfind2 hev
          · show (0:ℚ) <
              (runTransformer fexp st.nodes g.edges ev).1.reliability *
                baseBias "Transformer"
            have := runTF_reliability_ge fexp st.nodes g.edges ev
            have hb : baseBias "Transformer" = 1.1 := rfl
            rw [hb]
            nlinarith
      obtain ⟨hf', hc', hlt⟩ := hstep
      obtain ⟨H1, H2, H3, _⟩ :=
        ih (fun m hm => hsub m (by simp [hm])) _ hf' hc'
      exact ⟨H1, H2, le_trans (le_of_lt hlt) H3,
        fun _ => lt_of_lt_of_le hlt H3⟩
    · have hcn' : algos.contains name = false := by simpa using hcn
      simp only [hcn', Bool.false_eq_true, if_false]
      obtain ⟨H1, H2, H3, H4⟩ :=
        ih (fun m hm => hsub m (by simp [hm])) st hf hc
      refine ⟨H1, H2, H3, fun ⟨m, hm, ht⟩ => ?_⟩
      rcases List.mem_cons.mp hm with rfl | hm'
      · rw [hcn'] at ht; exact absurd ht (by simp)
      · exact H4 ⟨m, hm', ht⟩


/-- Claim C1 (corrected): the spec says every runner's and the fused score at
a node with an evidence entry equals the evidence value exactly.  The seven
non-MCS runners do report the evidence value exactly; but the MCS runner does
not (its per-trial initialisation adds noise to evidence nodes and the dead
propagation loop never restores them — see the counterexample), and even
with MCS deselected the fused output is the evidence value rounded to 4
decimals, not the value itself (it is exact only when nothing is selected
and BN's raw scores are returned). -/
theorem C1_evidence (g : KnowledgeGraph) (ev : Evidence) (algos : List String)
    (tr : Bool) (rng : ℕ → ℚ) (fexp : ℚ → ℚ) (k : ℕ) (id : String)
    (node : GraphNode) (v : ℚ) (hmem : node ∈ g.nodes) (hid : node.id = id)
    (hnd : (nodeIds g.nodes).Nodup) (hev : lookupA ev id = some v)
    (hMCS : algos.contains "MCS" = false) :
    (runBN g.nodes g.edges ev).scores id = v ∧
      (runMCMC g.nodes g.edges ev fexp rng k).1.scores id = v ∧
      (runDT g.nodes g.edges ev).scores id = v ∧
      (runLinearRegression tr g.nodes g.edges ev).1.scores id = v ∧
      (runLogisticRegression tr fexp g.nodes g.edges ev).1.scores id = v ∧
      (runVI g.nodes g.edges ev).scores id = v ∧
      (runTransformer fexp g.nodes g.edges ev).1.scores id = v ∧
      ((∃ name ∈ runnerOrder, algos.contains name = true) →
        (analyze g ev algos tr rng fexp).1 id = roundTo 4 v) ∧
      ((∀ name ∈ runnerOrder, algos.contains name = false) →
        (analyze g ev algos tr rng fexp).1 id = v) := by
  have hfg : findNode g.nodes id = some node :=
    hid ▸ findNode_of_nodup hnd hmem
  refine ⟨runBN_ev hfg hev, runMCMC_ev fexp rng k hnd hfg hev,
    runDT_ev hfg hev, runLinearRegression_ev tr hfg hev,
    runLogisticRegression_ev tr fexp hfg hev, runVI_ev hfg hev,
    runTransformer_ev fexp hfg hev, ?_, ?_⟩
  · intro hex
    obtain ⟨Hf, Hc, Hle, Hlt⟩ :=
      C1_fold g ev algos tr rng fexp hmem hid hnd hev hMCS runnerOrder
        (fun m hm => hm) ⟨(fun _ => 0), 0, g.nodes, 0⟩ (framedNodes_refl _)
        (by simp)
    have hpos : 0 < (analyzeFold g ev algos tr rng fexp runnerOrder
        ⟨(fun _ => 0), 0, g.nodes, 0⟩).totalWeight := Hlt hex
    unfold analyze
    dsimp only
    rw [analyzeCore_eq_fold]
    rw [if_pos hpos]
    dsimp only
    rw [Hc, mul_div_assoc, div_self (ne_of_gt hpos), mul_one]
  · intro hnone
    unfold analyze
    dsimp only
    rw [analyzeCore_eq_fold,
      analyzeFold_skip g ev algos tr rng fexp runnerOrder hnone]
    rw [if_neg (by show ¬((0:ℚ) > 0); norm_num)]
    dsimp only
    exact runBN_ev hfg hev

/-- Claim C1, witness: the corrected statement applied to a concrete
two-node graph with evidence on one node and BN plus DT selected. -/
theorem C1_witness :
    (c4NodeA ∈ c4Graph.nodes ∧ c4NodeA.id = "A" ∧
      (nodeIds c4Graph.nodes).Nodup ∧
      lookupA [("A", (1/4 : ℚ))] "A" = some (1/4) ∧
      (["BN", "DT"] : List String).contains "MCS" = false ∧
      (∃ name ∈ runnerOrder,
        (["BN", "DT"] : List String).contains name = true)) ∧
    (runDT c4Graph.nodes c4Graph.edges [("A", (1/4 : ℚ))]).scores "A" =
      1/4 ∧
    (analyze c4Graph [("A", (1/4 : ℚ))] ["BN", "DT"] true (fun _ => 0)
      (fun _ => 1)).1 "A" = roundTo 4 (1/4) := by
  have happ := C1_evidence c4Graph [("A", (1/4 : ℚ))] ["BN", "DT"] true
    (fun _ => 0) (fun _ => 1) 0 "A" c4NodeA (1/4)
    (List.mem_cons_self _ _) rfl (by decide) rfl (by decide)
  exact ⟨⟨List.mem_cons_self _ _, rfl, by decide, rfl, by decide,
    ⟨"BN", by decide, by decide⟩⟩,
    happ.2.2.1, happ.2.2.2.2.2.2.2.1 ⟨"BN", by decide, by decide⟩⟩

/-! ## Closed form of the MCS trial loop on a single node -/

/-- One MCS trial's (initialisation) value for a single node: the dead
propagation loop leaves it unchanged. -/
def mcsVal (n : GraphNode) (ev : Evidence) (rng : ℕ → ℚ) (t : ℕ) : ℚ :=
  let prior := (lookupA ev n.id).getD (getNodePrior n)
  clamp01 (prior + (rng t - 0.5) * 0.4 * (1 - |prior - 0.5|))

theorem foldl_mcsProp (nodes : List GraphNode) (edges : List GraphEdge)
    (ev : Evidence) :
    ∀ (l : List ℕ) (x : Scores),
      l.foldl (fun st _ => mcsPropStep nodes edges ev st) x = x := by
  intro l
  induction l with
  | nil => intro x; rfl
  | cons a l ih => intro x; exact ih x

theorem mcsTrial_single (n : GraphNode) (edges : List GraphEdge)
    (ev : Evidence) (rng : ℕ → ℚ) (acc : McsAcc) :
    (mcsTrial [n] edges ev rng acc).sums n.id =
        acc.sums n.id + mcsVal n ev rng acc.k ∧
      (mcsTrial [n] edges ev rng acc).sumsSq n.id =
        acc.sumsSq n.id + mcsVal n ev rng acc.k * mcsVal n ev rng acc.k ∧
      (mcsTrial [n] edges ev rng acc).k = acc.k + 1 := by
  have hinit : (mcsInit [n] ev rng acc.k).1 n.id = mcsVal n ev rng acc.k := by
    unfold mcsInit mcsVal
    simp only [List.foldl_cons, List.foldl_nil]
    rw [setS_eq]
  simp only [mcsTrial]
  rw [foldl_mcsProp]
  simp only [List.foldl_cons, List.foldl_nil]
  rw [setS_eq, setS_eq, hinit]
  exact ⟨rfl, rfl, rfl⟩

theorem range_map_sum_shift (f : ℕ → ℚ) (k m : ℕ) :
    ((List.range (m + 1)).map (fun j => f (k + j))).sum =
      f k + ((List.range m).map (fun j => f ((k + 1) + j))).sum := by
  rw [List.range_succ_eq_map]
  simp only [List.map_cons, List.sum_cons, List.map_map]
  congr 1
  refine congrArg List.sum (List.map_congr_left ?_)
  intro j _
  show f (k + (j + 1)) = f ((k + 1) + j)
  rw [show k + (j + 1) = (k + 1) + j from by omega]

theorem range_map_sum_const (c : ℚ) (m : ℕ) :
    ((List.range m).map (fun _ => c)).sum = m * c := by
  induction m with
  | zero => simp
  | succ m ih =>
    rw [List.range_succ]
    simp only [List.map_append, List.sum_append, List.map_cons,
      List.sum_cons, List.map_nil, List.sum_nil, ih]
    push_cast
    ring

/-- Closed form of the MCS accumulators on a single-node graph: every trial
contributes exactly its initialisation draw. -/
theorem mcsTrials_single (n : GraphNode) (edges : List GraphEdge)
    (ev : Evidence) (rng : ℕ → ℚ) :
    ∀ (m : ℕ) (acc : McsAcc),
      (mcsTrials [n] edges ev rng m acc).sums n.id =
          acc.sums n.id +
            ((List.range m).map (fun j => mcsVal n ev rng (acc.k + j))).sum ∧
        (mcsTrials [n] edges ev rng m acc).sumsSq n.id =
          acc.sumsSq n.id +
            ((List.range m).map (fun j =>
              mcsVal n ev rng (acc.k + j) * mcsVal n ev rng (acc.k + j))).sum ∧
        (mcsTrials [n] edges ev rng m acc).k = acc.k + m := by
  intro m
  induction m with
  | zero =>
    intro acc
    refine ⟨by simp [mcsTrials], by simp [mcsTrials], rfl⟩
  | succ m ih =>
    intro acc
    obtain ⟨h1, h2, h3⟩ := ih (mcsTrial [n] edges ev rng acc)
    obtain ⟨t1, t2, t3⟩ := mcsTrial_single n edges ev rng acc
    refine ⟨?_, ?_, ?_⟩
    · show (mcsTrials [n] edges ev rng m
        (mcsTrial [n] edges ev rng acc)).sums n.id = _
      rw [h1, t1, t3, range_map_sum_shift (fun t => mcsVal n ev rng t) acc.k m]
      ring
    · show (mcsTrials [n] edges ev rng m
        (mcsTrial [n] edges ev rng acc)).sumsSq n.id = _
      rw [h2, t2, t3, range_map_sum_shift
        (fun t => mcsVal n ev rng t * mcsVal n ev rng t) acc.k m]
      ring
    · show (mcsTrials [n] edges ev rng m
        (mcsTrial [n] edges ev rng acc)).k = _
      rw [h3, t3]
      omega

def c1Node : GraphNode :=
  { id := "A", ntype := NodeType.part, context := BOMContext.design }

def c1Graph : KnowledgeGraph := { nodes := [c1Node], edges := [] }

def c1Ev : Evidence := [("A", (1/2 : ℚ))]

def c1Rng : ℕ → ℚ := fun _ => 3/4

theorem c1_mcsVal (t : ℕ) : mcsVal c1Node c1Ev c1Rng t = 3/5 := by
  unfold mcsVal
  show clamp01 ((lookupA c1Ev c1Node.id).getD (getNodePrior c1Node) +
      (c1Rng t - 0.5) * 0.4 *
        (1 - |(lookupA c1Ev c1Node.id).getD (getNodePrior c1Node) - 0.5|)) =
    3/5
  rw [show (lookupA c1Ev c1Node.id).getD (getNodePrior c1Node) =
    (1/2 : ℚ) from rfl]
  rw [show c1Rng t = 3/4 from rfl]
  unfold clamp01
  rw [show |(1 : ℚ)/2 - 0.5| = 0 from by norm_num]
  norm_num

theorem c1_mcs_score :
    (runMCS c1Graph.nodes c1Graph.edges c1Ev c1Rng 0).1.scores "A" = 3/5 := by
  unfold runMCS
  dsimp only
  rw [show c1Graph.nodes = [c1Node] from rfl,
    show c1Graph.edges = ([] : List GraphEdge) from rfl,
    show ("A" : String) = c1Node.id from rfl]
  obtain ⟨h1, -, -⟩ := mcsTrials_single c1Node [] c1Ev c1Rng 300
    ⟨(fun _ => 0), (fun _ => 0), 0⟩
  rw [h1]
  dsimp only
  rw [List.map_congr_left (fun j _ => c1_mcsVal (0 + j)),
    range_map_sum_const]
  norm_num

theorem c1_mcs_rel :
    (runMCS c1Graph.nodes c1Graph.edges c1Ev c1Rng 0).1.reliability = 1 := by
  unfold runMCS
  dsimp only
  rw [if_neg (by decide)]
  norm_num

/-- Claim C1, counterexample: a single node `A` with evidence `A = 1/2` and
only MCS selected.  MCS's per-trial initialisation noises the evidence node
(with the constant random stream `3/4` every trial draws `clamp01 (1/2 +
(3/4 − 1/2)·0.4·1) = 3/5`), so both the MCS score and the fused output are
`3/5 ≠ 1/2`. -/
theorem C1_cx :
    lookupA c1Ev "A" = some (1/2) ∧
      (runMCS c1Graph.nodes c1Graph.edges c1Ev c1Rng 0).1.scores "A" =
        3/5 ∧
      (analyze c1Graph c1Ev ["MCS"] true c1Rng (fun _ => 1)).1 "A" = 3/5 ∧
      (3/5 : ℚ) ≠ 1/2 := by
  refine ⟨rfl, c1_mcs_score, ?_, by norm_num⟩
  have hcore : analyzeCore c1Graph c1Ev ["MCS"] true c1Rng (fun _ => 1) =
      stageFn c1Graph c1Ev true c1Rng (fun _ => 1)
        ⟨(fun _ => 0), 0, c1Graph.nodes, 0⟩ "MCS" := rfl
  have hsr : stageRun c1Graph c1Ev true c1Rng (fun _ => 1)
      ⟨(fun _ => 0), 0, c1Graph.nodes, 0⟩ "MCS" =
    ((runMCS c1Graph.nodes c1Graph.edges c1Ev c1Rng 0).1, c1Graph.nodes,
      (runMCS c1Graph.nodes c1Graph.edges c1Ev c1Rng 0).2) := rfl
  have htw : (stageFn c1Graph c1Ev true c1Rng (fun _ => 1)
      ⟨(fun _ => 0), 0, c1Graph.nodes, 0⟩ "MCS").totalWeight = 1.2 := by
    rw [stageFn_totalWeight, hsr]
    dsimp only
    rw [c1_mcs_rel]
    rw [show baseBias "MCS" = 1.2 from rfl]
    norm_num
  have hcons : (stageFn c1Graph c1Ev true c1Rng (fun _ => 1)
      ⟨(fun _ => 0), 0, c1Graph.nodes, 0⟩ "MCS").cons "A" = 18/25 := by
    have hc := congrFun (stageFn_cons c1Graph c1Ev true c1Rng (fun _ => 1)
      ⟨(fun _ => 0), 0, c1Graph.nodes, 0⟩ "MCS") "A"
    rw [hc, addToConsensus_cons, hsr]
    dsimp only
    rw [c1_mcs_score, c1_mcs_rel]
    rw [show (nodeIds c1Graph.nodes).count "A" = 1 from rfl, Nat.cast_one]
    rw [show baseBias "MCS" = 1.2 from rfl]
    norm_num
  unfold analyze
  dsimp only
  rw [hcore]
  rw [if_pos (show (stageFn c1Graph c1Ev true c1Rng (fun _ => 1)
      ⟨(fun _ => 0), 0, c1Graph.nodes, 0⟩ "MCS").totalWeight > 0 from by
    rw [htw]; norm_num)]
  dsimp only
  rw [hcons, htw]
  apply qeq_num
  with_unfolding_all decide

/-! ## Evidence congruence: unknown evidence ids and the runners -/

theorem foldl_ext_mem {σ ι : Type} :
    ∀ (l : List ι) (f g : σ → ι → σ),
      (∀ acc x, x ∈ l → f acc x = g acc x) → ∀ b, l.foldl f b = l.foldl g b := by
  intro l
  induction l with
  | nil => intro f g h b; rfl
  | cons a l ih =>
    intro f g h b
    rw [List.foldl_cons, List.foldl_cons, h b a (List.mem_cons_self a l)]
    exact ih f g (fun acc x hx => h acc x (List.mem_cons_of_mem a hx)) _

theorem foldl_ext_inv {σ ι : Type} (P : σ → Prop) :
    ∀ (l : List ι) (f g : σ → ι → σ),
      (∀ acc x, P acc → x ∈ l → f acc x = g acc x) →
      (∀ acc x, P acc → P (g acc x)) →
      ∀ b, P b → l.foldl f b = l.foldl g b := by
  intro l
  induction l with
  | nil => intro f g h hP b hb; rfl
  | cons a l ih =>
    intro f g h hP b hb
    rw [List.foldl_cons, List.foldl_cons, h b a hb (List.mem_cons_self a l)]
    exact ih f g (fun acc x hx hm => h acc x hx (List.mem_cons_of_mem a hm))
      hP _ (hP b a hb)

theorem initScores_congr {nodes : List GraphNode} {ev ev' : Evidence}
    (hagree : ∀ id ∈ nodeIds nodes, lookupA ev' id = lookupA ev id) :
    initScores nodes ev' = initScores nodes ev := by
  funext id
  unfold initScores
  cases hf : findNode nodes id with
  | none => rfl
  | some n =>
    dsimp only
    rw [hagree n.id (List.mem_map_of_mem (fun m => m.id) (findNode_mem hf))]

theorem bnNodeUpdate_congr {nodes : List GraphNode} {ev ev' : Evidence}
    (edges : List GraphEdge)
    (hagree : ∀ id ∈ nodeIds nodes, lookupA ev' id = lookupA ev id)
    {node : GraphNode} (hm : node ∈ nodes) (s : Scores) (acc : Scores × ℚ) :
    bnNodeUpdate nodes edges ev' s acc node =
      bnNodeUpdate nodes edges ev s acc node := by
  unfold bnNodeUpdate
  rw [hagree node.id (List.mem_map_of_mem (fun m => m.id) hm)]

theorem bnStep_congr {nodes : List GraphNode} {ev ev' : Evidence}
    (edges : List GraphEdge)
    (hagree : ∀ id ∈ nodeIds nodes, lookupA ev' id = lookupA ev id)
    (s : Scores) : bnStep nodes edges ev' s = bnStep nodes edges ev s := by
  unfold bnStep
  exact foldl_ext_mem nodes _ _
    (fun acc node hm => bnNodeUpdate_congr edges hagree hm s acc) (s, 0)

theorem bnLoop_congr {nodes : List GraphNode} {ev ev' : Evidence}
    (edges : List GraphEdge)
    (hagree : ∀ id ∈ nodeIds nodes, lookupA ev' id = lookupA ev id) :
    ∀ (fuel : ℕ) (s : Scores) (d : ℚ),
      bnLoop nodes edges ev' fuel s d = bnLoop nodes edges ev fuel s d := by
  intro fuel
  induction fuel with
  | zero => intro s d; rfl
  | succ fuel ih =>
    intro s d
    simp only [bnLoop]
    split
    · rw [bnStep_congr edges hagree, ih]
    · rfl

theorem runBN_congr {nodes : List GraphNode} {ev ev' : Evidence}
    (edges : List GraphEdge)
    (hagree : ∀ id ∈ nodeIds nodes, lookupA ev' id = lookupA ev id) :
    runBN nodes edges ev' = runBN nodes edges ev := by
  simp only [runBN]
  rw [initScores_congr hagree, bnLoop_congr edges hagree]

theorem mcsInit_congr {nodes : List GraphNode} {ev ev' : Evidence}
    (hagree : ∀ id ∈ nodeIds nodes, lookupA ev' id = lookupA ev id)
    (rng : ℕ → ℚ) (k : ℕ) :
    mcsInit nodes ev' rng k = mcsInit nodes ev rng k := by
  unfold mcsInit
  exact foldl_ext_mem nodes _ _
    (fun acc node hm => by
      rw [hagree node.id (List.mem_map_of_mem (fun m => m.id) hm)])
    ((fun _ => 0), k)

theorem mcsTrial_congr {nodes : List GraphNode} {ev ev' : Evidence}
    (edges : List GraphEdge)
    (hagree : ∀ id ∈ nodeIds nodes, lookupA ev' id = lookupA ev id)
    (rng : ℕ → ℚ) (acc : McsAcc) :
    mcsTrial nodes edges ev' rng acc = mcsTrial nodes edges ev rng acc := by
  simp only [mcsTrial]
  rw [foldl_mcsProp nodes edges ev', foldl_mcsProp nodes edges ev,
    mcsInit_congr hagree]

theorem mcsTrials_congr {nodes : List GraphNode} {ev ev' : Evidence}
    (edges : List GraphEdge)
    (hagree : ∀ id ∈ nodeIds nodes, lookupA ev' id = lookupA ev id)
    (rng : ℕ → ℚ) :
    ∀ (m : ℕ) (acc : McsAcc),
      mcsTrials nodes edges ev' rng m acc =
        mcsTrials nodes edges ev rng m acc := by
  intro m
  induction m with
  | zero => intro acc; rfl
  | succ m ih =>
    intro acc
    simp only [mcsTrials]
    rw [mcsTrial_congr edges hagree, ih]

/-- MCS is evidence-congruent in its scores and stream index (but not in its
reliability, whose divisor counts raw evidence entries). -/
theorem runMCS_congr_scores {nodes : List GraphNode} {ev ev' : Evidence}
    (edges : List GraphEdge)
    (hagree : ∀ id ∈ nodeIds nodes, lookupA ev' id = lookupA ev id)
    (rng : ℕ → ℚ) (k : ℕ) :
    (runMCS nodes edges ev' rng k).1.scores =
        (runMCS nodes edges ev rng k).1.scores ∧
      (runMCS nodes edges ev' rng k).2 = (runMCS nodes edges ev rng k).2 := by
  unfold runMCS
  dsimp only
  rw [mcsTrials_congr edges hagree]
  exact ⟨rfl, rfl⟩

theorem mcmcVar_congr {nodes : List GraphNode} {ev ev' : Evidence}
    (hn : ∀ n ∈ nodes, lookupA ev' n.id = lookupA ev n.id)
    (sums sumsSq : Scores) (den : ℚ) :
    nodes.foldl
        (fun tv node =>
          let mean := sums node.id / den
          let variance := sumsSq node.id / den - mean * mean
          if (lookupA ev' node.id).isNone then tv + variance else tv) 0 =
      nodes.foldl
        (fun tv node =>
          let mean := sums node.id / den
          let variance := sumsSq node.id / den - mean * mean
          if (lookupA ev node.id).isNone then tv + variance else tv) 0 :=
  foldl_ext_mem nodes _ _ (fun tv node hm => by rw [hn node hm]) 0

theorem runMCMC_congr {nodes : List GraphNode} {ev ev' : Evidence}
    (edges : List GraphEdge)
    (hagree : ∀ id ∈ nodeIds nodes, lookupA ev' id = lookupA ev id)
    (fexp : ℚ → ℚ) (rng : ℕ → ℚ) (k : ℕ) :
    runMCMC nodes edges ev' fexp rng k = runMCMC nodes edges ev fexp rng k := by
  have hn : ∀ n ∈ nodes, lookupA ev' n.id = lookupA ev n.id :=
    fun n hm => hagree n.id (List.mem_map_of_mem (fun m => m.id) hm)
  have hcand : nodes.filter (fun n => (lookupA ev' n.id).isNone) =
      nodes.filter (fun n => (lookupA ev n.id).isNone) :=
    List.filter_congr (fun n hm => by rw [hn n hm])
  unfold runMCMC
  dsimp only
  rw [hcand, initScores_congr hagree, mcmcVar_congr hn]

theorem dtPass_congr {nodes : List GraphNode} {ev ev' : Evidence}
    (edges : List GraphEdge)
    (hagree : ∀ id ∈ nodeIds nodes, lookupA ev' id = lookupA ev id)
    (s : Scores) : dtPass nodes edges ev' s = dtPass nodes edges ev s := by
  unfold dtPass
  exact foldl_ext_mem nodes _ _
    (fun ns node hm => by
      rw [hagree node.id (List.mem_map_of_mem (fun m => m.id) hm)]) s

theorem runDT_congr {nodes : List GraphNode} {ev ev' : Evidence}
    (edges : List GraphEdge)
    (hagree : ∀ id ∈ nodeIds nodes, lookupA ev' id = lookupA ev id) :
    runDT nodes edges ev' = runDT nodes edges ev := by
  unfold runDT
  dsimp only
  rw [initScores_congr hagree,
    show (fun (s : Scores) (j : ℕ) => dtPass nodes edges ev' s) =
        (fun (s : Scores) (j : ℕ) => dtPass nodes edges ev s) from
      funext fun s => funext fun j => dtPass_congr edges hagree s]

theorem viPass_congr {nodes : List GraphNode} {ev ev' : Evidence}
    (edges : List GraphEdge)
    (hagree : ∀ id ∈ nodeIds nodes, lookupA ev' id = lookupA ev id)
    (means : Scores) :
    viPass nodes edges ev' means = viPass nodes edges ev means := by
  unfold viPass
  exact foldl_ext_mem nodes _ _
    (fun acc node hm => by
      rw [hagree node.id (List.mem_map_of_mem (fun m => m.id) hm)])
    (means, 0)

theorem runVI_congr {nodes : List GraphNode} {ev ev' : Evidence}
    (edges : List GraphEdge)
    (hagree : ∀ id ∈ nodeIds nodes, lookupA ev' id = lookupA ev id) :
    runVI nodes edges ev' = runVI nodes edges ev := by
  unfold runVI
  dsimp only
  rw [initScores_congr hagree,
    show (fun (st : Scores × ℚ) (j : ℕ) => viPass nodes edges ev' st.1) =
        (fun (st : Scores × ℚ) (j : ℕ) => viPass nodes edges ev st.1) from
      funext fun st => funext fun j => viPass_congr edges hagree st.1]

theorem lrNodeUpdate_congr {nodes : List GraphNode} {ev ev' : Evidence}
    (training : Bool) (edges : List GraphEdge)
    (hagree : ∀ id ∈ nodeIds nodes, lookupA ev' id = lookupA ev id)
    (scores : Scores) {acc : PassAcc} (h : framedNodes nodes acc.nodes)
    (i : ℕ) :
    lrNodeUpdate training edges ev' scores acc i =
      lrNodeUpdate training edges ev scores acc i := by
  unfold lrNodeUpdate
  cases hg : acc.nodes[i]? with
  | none => rfl
  | some node =>
    dsimp only
    rw [hagree node.id (by
      rw [← framedNodes_ids h]
      exact List.mem_map_of_mem (fun m => m.id) (List.getElem?_mem hg))]

theorem logRegNodeUpdate_congr {nodes : List GraphNode} {ev ev' : Evidence}
    (training : Bool) (fexp : ℚ → ℚ) (edges : List GraphEdge)
    (hagree : ∀ id ∈ nodeIds nodes, lookupA ev' id = lookupA ev id)
    (scores : Scores) {acc : PassAcc} (h : framedNodes nodes acc.nodes)
    (i : ℕ) :
    logRegNodeUpdate training fexp edges ev' scores acc i =
      logRegNodeUpdate training fexp edges ev scores acc i := by
  unfold logRegNodeUpdate
  cases hg : acc.nodes[i]? with
  | none => rfl
  | some node =>
    dsimp only
    rw [hagree node.id (by
      rw [← framedNodes_ids h]
      exact List.mem_map_of_mem (fun m => m.id) (List.getElem?_mem hg))]

theorem tfNodeUpdate_congr {nodes : List GraphNode} {ev ev' : Evidence}
    (fexp : ℚ → ℚ) (edges : List GraphEdge)
    (hagree : ∀ id ∈ nodeIds nodes, lookupA ev' id = lookupA ev id)
    (scores : Scores) {acc : PassAcc} (h : framedNodes nodes acc.nodes)
    (i : ℕ) :
    tfNodeUpdate fexp edges ev' scores acc i =
      tfNodeUpdate fexp edges ev scores acc i := by
  unfold tfNodeUpdate
  cases hg : acc.nodes[i]? with
  | none => rfl
  | some node =>
    dsimp only
    rw [hagree node.id (by
      rw [← framedNodes_ids h]
      exact List.mem_map_of_mem (fun m => m.id) (List.getElem?_mem hg))]

theorem lrPass_congr {nodes : List GraphNode} {ev ev' : Evidence}
    (training : Bool) (edges : List GraphEdge)
    (hagree : ∀ id ∈ nodeIds nodes, lookupA ev' id = lookupA ev id)
    (st : List GraphNode × Scores × ℚ) (hst : framedNodes nodes st.1) :
    lrPass training edges ev' st = lrPass training edges ev st := by
  unfold lrPass
  dsimp only
  rw [foldl_ext_inv (fun (acc : PassAcc) => framedNodes nodes acc.nodes)
    (List.range st.1.length) _ _
    (fun acc i hacc _ => lrNodeUpdate_congr training edges hagree st.2.1 hacc i)
    (fun acc i hacc => lrNodeUpdate_framed training edges ev st.2.1 hacc i)
    ⟨st.1, st.2.1, 0⟩ hst]

theorem logRegPass_congr {nodes : List GraphNode} {ev ev' : Evidence}
    (training : Bool) (fexp : ℚ → ℚ) (edges : List GraphEdge)
    (hagree : ∀ id ∈ nodeIds nodes, lookupA ev' id = lookupA ev id)
    (st : List GraphNode × Scores × ℚ) (hst : framedNodes nodes st.1) :
    logRegPass training fexp edges ev' st =
      logRegPass training fexp edges ev st := by
  unfold logRegPass
  dsimp only
  rw [foldl_ext_inv (fun (acc : PassAcc) => framedNodes nodes acc.nodes)
    (List.range st.1.length) _ _
    (fun acc i hacc _ =>
      logRegNodeUpdate_congr training fexp edges hagree st.2.1 hacc i)
    (fun acc i hacc =>
      logRegNodeUpdate_framed training fexp edges ev st.2.1 hacc i)
    ⟨st.1, st.2.1, 0⟩ hst]

theorem tfPass_congr {nodes : List GraphNode} {ev ev' : Evidence}
    (fexp : ℚ → ℚ) (edges : List GraphEdge)
    (hagree : ∀ id ∈ nodeIds nodes, lookupA ev' id = lookupA ev id)
    (st : List GraphNode × Scores × ℚ) (hst : framedNodes nodes st.1) :
    tfPass fexp edges ev' st = tfPass fexp edges ev st := by
  unfold tfPass
  dsimp only
  rw [foldl_ext_inv (fun (acc : PassAcc) => framedNodes nodes acc.nodes)
    (List.range st.1.length) _ _
    (fun acc i hacc _ => tfNodeUpdate_congr fexp edges hagree st.2.1 hacc i)
    (fun acc i hacc => tfNodeUpdate_framed fexp edges ev st.2.1 hacc i)
    ⟨st.1, st.2.1, 0⟩ hst]

theorem lrPass_framed {nodes : List GraphNode} (training : Bool)
    (edges : List GraphEdge) (ev : Evidence)
    (st : List GraphNode × Scores × ℚ) (hst : framedNodes nodes st.1) :
    framedNodes nodes (lrPass training edges ev st).1 := by
  unfold lrPass
  dsimp only
  exact foldl_inv (List.range st.1.length) _
    (fun (acc : PassAcc) => framedNodes nodes acc.nodes) ⟨st.1, st.2.1, 0⟩ hst
    (fun acc i _ hacc => lrNodeUpdate_framed training edges ev st.2.1 hacc i)

theorem logRegPass_framed {nodes : List GraphNode} (training : Bool)
    (fexp : ℚ → ℚ) (edges : List GraphEdge) (ev : Evidence)
    (st : List GraphNode × Scores × ℚ) (hst : framedNodes nodes st.1) :
    framedNodes nodes (logRegPass training fexp edges ev st).1 := by
  unfold logRegPass
  dsimp only
  exact foldl_inv (List.range st.1.length) _
    (fun (acc : PassAcc) => framedNodes nodes acc.nodes) ⟨st.1, st.2.1, 0⟩ hst
    (fun acc i _ hacc =>
      logRegNodeUpdate_framed training fexp edges ev st.2.1 hacc i)

theorem tfPass_framed {nodes : List GraphNode} (fexp : ℚ → ℚ)
    (edges : List GraphEdge) (ev : Evidence)
    (st : List GraphNode × Scores × ℚ) (hst : framedNodes nodes st.1) :
    framedNodes nodes (tfPass fexp edges ev st).1 := by
  unfold tfPass
  dsimp only
  exact foldl_inv (List.range st.1.length) _
    (fun (acc : PassAcc) => framedNodes nodes acc.nodes) ⟨st.1, st.2.1, 0⟩ hst
    (fun acc i _ hacc => tfNodeUpdate_framed fexp edges ev st.2.1 hacc i)

theorem runLinearRegression_congr {nodes : List GraphNode} {ev ev' : Evidence}
    (training : Bool) (edges : List GraphEdge)
    (hagree : ∀ id ∈ nodeIds nodes, lookupA ev' id = lookupA ev id) :
    runLinearRegression training nodes edges ev' =
      runLinearRegression training nodes edges ev := by
  unfold runLinearRegression
  dsimp only
  rw [initScores_congr hagree,
    foldl_ext_inv (fun (st : List GraphNode × Scores × ℚ) =>
        framedNodes nodes st.1)
      (List.range 5) _ _
      (fun st j hst _ => lrPass_congr training edges hagree st hst)
      (fun st j hst => lrPass_framed training edges ev st hst)
      (nodes, initScores nodes ev, 0) (framedNodes_refl nodes)]

theorem runLogisticRegression_congr {nodes : List GraphNode}
    {ev ev' : Evidence} (training : Bool) (fexp : ℚ → ℚ)
    (edges : List GraphEdge)
    (hagree : ∀ id ∈ nodeIds nodes, lookupA ev' id = lookupA ev id) :
    runLogisticRegression training fexp nodes edges ev' =
      runLogisticRegression training fexp nodes edges ev := by
  unfold runLogisticRegression
  dsimp only
  rw [initScores_congr hagree,
    foldl_ext_inv (fun (st : List GraphNode × Scores × ℚ) =>
        framedNodes nodes st.1)
      (List.range 5) _ _
      (fun st j hst _ => logRegPass_congr training fexp edges hagree st hst)
      (fun st j hst => logRegPass_framed training fexp edges ev st hst)
      (nodes, initScores nodes ev, 0) (framedNodes_refl nodes)]

theorem runTransformer_congr {nodes : List GraphNode} {ev ev' : Evidence}
    (fexp : ℚ → ℚ) (edges : List GraphEdge)
    (hagree : ∀ id ∈ nodeIds nodes, lookupA ev' id = lookupA ev id) :
    runTransformer fexp nodes edges ev' =
      runTransformer fexp nodes edges ev := by
  unfold runTransformer
  dsimp only
  rw [initScores_congr hagree,
    foldl_ext_inv (fun (st : List GraphNode × Scores × ℚ) =>
        framedNodes nodes st.1)
      (List.range 3) _ _
      (fun st j hst _ => tfPass_congr fexp edges hagree st hst)
      (fun st j hst => tfPass_framed fexp edges ev st hst)
      (nodes, initScores nodes ev, 0) (framedNodes_refl nodes)]

/-- Any dispatched runner other than MCS is evidence-congruent. -/
theorem stageRun_congr (g : KnowledgeGraph) {ev ev' : Evidence} (tr : Bool)
    (rng : ℕ → ℚ) (fexp : ℚ → ℚ) (st : FusionState) (name : String)
    (hagree : ∀ id ∈ nodeIds st.nodes, lookupA ev' id = lookupA ev id)
    (hname : name ∈ runnerOrder) (hnm : name ≠ "MCS") :
    stageRun g ev' tr rng fexp st name = stageRun g ev tr rng fexp st name := by
  simp only [runnerOrder, List.mem_cons, List.not_mem_nil, or_false] at hname
  rcases hname with rfl | rfl | rfl | rfl | rfl | rfl | rfl | rfl
  · show (runBN st.nodes g.edges ev', st.nodes, st.k) =
      (runBN st.nodes g.edges ev, st.nodes, st.k)
    rw [runBN_congr g.edges hagree]
  · exact absurd rfl hnm
  · show ((runMCMC st.nodes g.edges ev' fexp rng st.k).1, st.nodes,
        (runMCMC st.nodes g.edges ev' fexp rng st.k).2) =
      ((runMCMC st.nodes g.edges ev fexp rng st.k).1, st.nodes,
        (runMCMC st.nodes g.edges ev fexp rng st.k).2)
    rw [runMCMC_congr g.edges hagree fexp rng st.k]
  · show (runDT st.nodes g.edges ev', st.nodes, st.k) =
      (runDT st.nodes g.edges ev, st.nodes, st.k)
    rw [runDT_congr g.edges hagree]
  · show ((runLinearRegression tr st.nodes g.edges ev').1,
        (runLinearRegression tr st.nodes g.edges ev').2, st.k) =
      ((runLinearRegression tr st.nodes g.edges ev).1,
        (runLinearRegression tr st.nodes g.edges ev).2, st.k)
    rw [runLinearRegression_congr tr g.edges hagree]
  · show ((runLogisticRegression tr fexp st.nodes g.edges ev').1,
        (runLogisticRegression tr fexp st.nodes g.edges ev').2, st.k) =
      ((runLogisticRegression tr fexp st.nodes g.edges ev).1,
        (runLogisticRegression tr fexp st.nodes g.edges ev).2, st.k)
    rw [runLogisticRegression_congr tr fexp g.edges hagree]
  · show (runVI st.nodes g.edges ev', st.nodes, st.k) =
      (runVI st.nodes g.edges ev, st.nodes, st.k)
    rw [runVI_congr g.edges hagree]
  · show ((runTransformer fexp st.nodes g.edges ev').1,
        (runTransformer fexp st.nodes g.edges ev').2, st.k) =
      ((runTransformer fexp st.nodes g.edges ev).1,
        (runTransformer fexp st.nodes g.edges ev).2, st.k)
    rw [runTransformer_congr fexp g.edges hagree]

theorem stageFn_congr (g : KnowledgeGraph) {ev ev' : Evidence} (tr : Bool)
    (rng : ℕ → ℚ) (fexp : ℚ → ℚ) (st : FusionState)
    (hagree : ∀ id ∈ nodeIds g.nodes, lookupA ev' id = lookupA ev id)
    (hst : framedNodes g.nodes st.nodes) (name : String)
    (hname : name ∈ runnerOrder) (hnm : name ≠ "MCS") :
    stageFn g ev' tr rng fexp st name = stageFn g ev tr rng fexp st name := by
  have hagree' : ∀ id ∈ nodeIds st.nodes, lookupA ev' id = lookupA ev id :=
    fun id hid => hagree id (by rwa [framedNodes_ids hst] at hid)
  unfold stageFn
  rw [stageRun_congr g tr rng fexp st name hagree' hname hnm]

theorem analyzeCore_congr (g : KnowledgeGraph) {ev ev' : Evidence}
    (algos : List String) (tr : Bool) (rng : ℕ → ℚ) (fexp : ℚ → ℚ)
    (hagree : ∀ id ∈ nodeIds g.nodes, lookupA ev' id = lookupA ev id)
    (hMCS : algos.contains "MCS" = false) :
    analyzeCore g ev' algos tr rng fexp = analyzeCore g ev algos tr rng fexp := by
  unfold analyzeCore
  refine foldl_ext_inv (fun (st : FusionState) => framedNodes g.nodes st.nodes)
    runnerOrder _ _ ?_ ?_ _ (framedNodes_refl g.nodes)
  · intro st name hst hname
    by_cases hcn : algos.contains name = true
    · simp only [if_pos hcn]
      have hnm : name ≠ "MCS" := fun he => by
        rw [he, hMCS] at hcn
        exact absurd hcn (by simp)
      exact stageFn_congr g tr rng fexp st hagree hst name hname hnm
    · have hcn' : algos.contains name = false := by simpa using hcn
      simp only [hcn', Bool.false_eq_true, if_false]
  · intro st name hst
    split
    · exact stageFn_framed g ev tr rng fexp hst name
    · exact hst

/-- Claim C9 (corrected): evidence entries whose ids do not occur in the
graph leave every runner's scores unchanged, and with MCS deselected they
leave `analyze` unchanged entirely.  But MCS's reliability divisor
`nodes.size − evidence.size` counts the unknown entries, so with MCS
selected an unknown evidence id can change MCS's reliability and the fused
output (see the counterexample). -/
theorem C9_unknownEvidence (g : KnowledgeGraph) (ev ev' : Evidence)
    (algos : List String) (tr : Bool) (rng : ℕ → ℚ) (fexp : ℚ → ℚ) (k : ℕ)
    (hagree : ∀ id ∈ nodeIds g.nodes, lookupA ev' id = lookupA ev id)
    (hMCS : algos.contains "MCS" = false) :
    runBN g.nodes g.edges ev' = runBN g.nodes g.edges ev ∧
      (runMCS g.nodes g.edges ev' rng k).1.scores =
        (runMCS g.nodes g.edges ev rng k).1.scores ∧
      runMCMC g.nodes g.edges ev' fexp rng k =
        runMCMC g.nodes g.edges ev fexp rng k ∧
      runDT g.nodes g.edges ev' = runDT g.nodes g.edges ev ∧
      runLinearRegression tr g.nodes g.edges ev' =
        runLinearRegression tr g.nodes g.edges ev ∧
      runLogisticRegression tr fexp g.nodes g.edges ev' =
        runLogisticRegression tr fexp g.nodes g.edges ev ∧
      runVI g.nodes g.edges ev' = runVI g.nodes g.edges ev ∧
      runTransformer fexp g.nodes g.edges ev' =
        runTransformer fexp g.nodes g.edges ev ∧
      analyze g ev' algos tr rng fexp = analyze g ev algos tr rng fexp := by
  refine ⟨runBN_congr g.edges hagree,
    (runMCS_congr_scores g.edges hagree rng k).1,
    runMCMC_congr g.edges hagree fexp rng k,
    runDT_congr g.edges hagree,
    runLinearRegression_congr tr g.edges hagree,
    runLogisticRegression_congr tr fexp g.edges hagree,
    runVI_congr g.edges hagree,
    runTransformer_congr fexp g.edges hagree, ?_⟩
  unfold analyze
  dsimp only
  rw [analyzeCore_congr g algos tr rng fexp hagree hMCS]
  rw [runBN_congr g.edges (fun id hid => hagree id (by
    rwa [framedNodes_ids (analyzeCore_framed g ev algos tr rng fexp)] at hid))]

/-- Claim C9, witness: adding the unknown-id entry `("ZZZ", 1/3)` to the
evidence leaves `analyze` on the two-node graph unchanged with BN and DT
selected. -/
theorem C9_witness :
    (∀ id ∈ nodeIds c4Graph.nodes,
        lookupA [("A", (1/4 : ℚ)), ("ZZZ", (1/3 : ℚ))] id =
          lookupA [("A", (1/4 : ℚ))] id) ∧
      (["BN", "DT"] : List String).contains "MCS" = false ∧
      analyze c4Graph [("A", (1/4 : ℚ)), ("ZZZ", (1/3 : ℚ))] ["BN", "DT"]
          true (fun _ => 0) (fun _ => 1) =
        analyze c4Graph [("A", (1/4 : ℚ))] ["BN", "DT"] true (fun _ => 0)
          (fun _ => 1) := by
  have hagree : ∀ id ∈ nodeIds c4Graph.nodes,
      lookupA [("A", (1/4 : ℚ)), ("ZZZ", (1/3 : ℚ))] id =
        lookupA [("A", (1/4 : ℚ))] id := by
    intro id hid
    rw [show nodeIds c4Graph.nodes = ["A", "B"] from rfl] at hid
    simp only [List.mem_cons, List.not_mem_nil, or_false] at hid
    rcases hid with rfl | rfl
    · rfl
    · rfl
  exact ⟨hagree, by decide,
    (C9_unknownEvidence c4Graph [("A", (1/4 : ℚ))]
      [("A", (1/4 : ℚ)), ("ZZZ", (1/3 : ℚ))] ["BN", "DT"] true (fun _ => 0)
      (fun _ => 1) 0 hagree (by decide)).2.2.2.2.2.2.2.2⟩

def c9Node : GraphNode :=
  { id := "A", ntype := NodeType.part, context := BOMContext.design,
    beliefsWorking := some (1/2) }

def c9Graph : KnowledgeGraph := { nodes := [c9Node], edges := [] }

def c9Ev' : Evidence := [("ZZZ", (1/2 : ℚ))]

def c9Rng : ℕ → ℚ := fun t => if t < 150 then 1 else 1/2

theorem c9_val_lo (t : ℕ) (ht : t < 150) {ev : Evidence}
    (hev : lookupA ev c9Node.id = none) :
    mcsVal c9Node ev c9Rng t = 7/10 := by
  unfold mcsVal
  show clamp01 ((lookupA ev c9Node.id).getD (getNodePrior c9Node) +
      (c9Rng t - 0.5) * 0.4 *
        (1 - |(lookupA ev c9Node.id).getD (getNodePrior c9Node) - 0.5|)) =
    7/10
  rw [hev]
  rw [show (none : Option ℚ).getD (getNodePrior c9Node) = (1/2 : ℚ) from rfl]
  have hr : c9Rng t = (1 : ℚ) := if_pos ht
  rw [hr]
  unfold clamp01
  rw [show |(1 : ℚ)/2 - 0.5| = 0 from by norm_num]
  norm_num

theorem c9_val_hi (t : ℕ) (ht : ¬ t < 150) {ev : Evidence}
    (hev : lookupA ev c9Node.id = none) :
    mcsVal c9Node ev c9Rng t = 1/2 := by
  unfold mcsVal
  show clamp01 ((lookupA ev c9Node.id).getD (getNodePrior c9Node) +
      (c9Rng t - 0.5) * 0.4 *
        (1 - |(lookupA ev c9Node.id).getD (getNodePrior c9Node) - 0.5|)) =
    1/2
  rw [hev]
  rw [show (none : Option ℚ).getD (getNodePrior c9Node) = (1/2 : ℚ) from rfl]
  have hr : c9Rng t = (1/2 : ℚ) := if_neg ht
  rw [hr]
  unfold clamp01
  rw [show |(1 : ℚ)/2 - 0.5| = 0 from by norm_num]
  norm_num

theorem c9_sums {ev : Evidence} (hev : lookupA ev c9Node.id = none) :
    ((List.range 300).map (fun j => mcsVal c9Node ev c9Rng (0 + j))).sum =
        180 ∧
      ((List.range 300).map (fun j =>
        mcsVal c9Node ev c9Rng (0 + j) *
          mcsVal c9Node ev c9Rng (0 + j))).sum = 111 := by
  constructor
  · rw [show (300 : ℕ) = 150 + 150 from rfl, List.range_add,
      List.map_append, List.sum_append, List.map_map]
    rw [List.map_congr_left (fun j hj =>
      c9_val_lo (0 + j) (by have := List.mem_range.mp hj; omega) hev)]
    rw [List.map_congr_left (fun j hj =>
      show ((fun j => mcsVal c9Node ev c9Rng (0 + j)) ∘
          (fun x => 150 + x)) j = (1 : ℚ)/2 from
        c9_val_hi (0 + (150 + j)) (by omega) hev)]
    rw [range_map_sum_const, range_map_sum_const]
    norm_num
  · rw [show (300 : ℕ) = 150 + 150 from rfl, List.range_add,
      List.map_append, List.sum_append, List.map_map]
    rw [List.map_congr_left (fun j hj => show
      mcsVal c9Node ev c9Rng (0 + j) * mcsVal c9Node ev c9Rng (0 + j) =
        (49 : ℚ)/100 from by
      rw [c9_val_lo (0 + j) (by have := List.mem_range.mp hj; omega) hev]
      norm_num)]
    rw [List.map_congr_left (fun j hj =>
      show ((fun j => mcsVal c9Node ev c9Rng (0 + j) *
          mcsVal c9Node ev c9Rng (0 + j)) ∘ (fun x => 150 + x)) j =
        (1 : ℚ)/4 from by
      show mcsVal c9Node ev c9Rng (0 + (150 + j)) *
        mcsVal c9Node ev c9Rng (0 + (150 + j)) = (1 : ℚ)/4
      rw [c9_val_hi (0 + (150 + j)) (by omega) hev]
      norm_num)]
    rw [range_map_sum_const, range_map_sum_const]
    norm_num

theorem c9_mcs_score {ev : Evidence} (hev : lookupA ev c9Node.id = none) :
    (runMCS c9Graph.nodes c9Graph.edges ev c9Rng 0).1.scores "A" = 3/5 := by
  unfold runMCS
  dsimp only
  rw [show c9Graph.nodes = [c9Node] from rfl,
    show c9Graph.edges = ([] : List GraphEdge) from rfl,
    show ("A" : String) = c9Node.id from rfl]
  obtain ⟨h1, -, -⟩ := mcsTrials_single c9Node [] ev c9Rng 300
    ⟨(fun _ => 0), (fun _ => 0), 0⟩
  rw [h1]
  dsimp only
  rw [(c9_sums hev).1]
  norm_num

theorem c9_mcs_rel1 :
    (runMCS c9Graph.nodes c9Graph.edges [] c9Rng 0).1.reliability = 10/11 := by
  have hev : lookupA ([] : Evidence) c9Node.id = none := rfl
  unfold runMCS
  dsimp only
  rw [show c9Graph.nodes = [c9Node] from rfl,
    show c9Graph.edges = ([] : List GraphEdge) from rfl]
  rw [if_pos (by decide)]
  simp only [List.foldl_cons, List.foldl_nil]
  rw [if_pos (show (lookupA ([] : Evidence) c9Node.id).isNone = true from
    rfl)]
  obtain ⟨h1, h2, -⟩ := mcsTrials_single c9Node [] [] c9Rng 300
    ⟨(fun _ => 0), (fun _ => 0), 0⟩
  rw [h1, h2]
  dsimp only
  rw [(c9_sums hev).1, (c9_sums hev).2]
  push_cast
  norm_num

theorem c9_mcs_rel2 :
    (runMCS c9Graph.nodes c9Graph.edges c9Ev' c9Rng 0).1.reliability = 1 := by
  unfold runMCS
  dsimp only
  rw [if_neg (by decide)]
  norm_num

theorem c9_dt_score {ev : Evidence} (hev : lookupA ev "A" = none) :
    (runDT c9Graph.nodes c9Graph.edges ev).scores "A" = 1/2 := by
  rw [runDT_at (show findNode c9Graph.nodes "A" = some c9Node from rfl) hev
    (show getParents c9Graph.edges "A" = ([] : List String) from rfl)]
  rfl

theorem stageFn_at (g : KnowledgeGraph) (ev : Evidence) (tr : Bool)
    (rng : ℕ → ℚ) (fexp : ℚ → ℚ) (st : FusionState) (name : String)
    (id : String) (hcount : (nodeIds g.nodes).count id = 1) :
    (stageFn g ev tr rng fexp st name).cons id =
        st.cons id + (stageRun g ev tr rng fexp st name).1.scores id *
          ((stageRun g ev tr rng fexp st name).1.reliability * baseBias name) ∧
      (stageFn g ev tr rng fexp st name).totalWeight =
        st.totalWeight +
          (stageRun g ev tr rng fexp st name).1.reliability * baseBias name := by
  refine ⟨?_, stageFn_totalWeight g ev tr rng fexp st name⟩
  rw [congrFun (stageFn_cons g ev tr rng fexp st name) id, addToConsensus_cons,
    hcount, Nat.cast_one, one_mul]

theorem c9_fused (ev : Evidence) (relM : ℚ) (hev : lookupA ev "A" = none)
    (hrel : (runMCS c9Graph.nodes c9Graph.edges ev c9Rng 0).1.reliability =
      relM) (hpos : 0 < relM) :
    (analyze c9Graph ev ["MCS", "DT"] true c9Rng (fun _ => 1)).1 "A" =
      roundTo 4 ((3/5 * (relM * 1.2) + 1/2 * (0.6 * 0.8)) /
        (relM * 1.2 + 0.6 * 0.8)) := by
  have hmcs := c9_mcs_score hev
  have hdt := c9_dt_score hev
  have hcount : (nodeIds c9Graph.nodes).count "A" = 1 := rfl
  obtain ⟨hc1, ht1⟩ := stageFn_at c9Graph ev true c9Rng (fun _ => 1)
    ⟨(fun _ => 0), 0, c9Graph.nodes, 0⟩ "MCS" "A" hcount
  have hsrM : stageRun c9Graph ev true c9Rng (fun _ => 1)
      ⟨(fun _ => 0), 0, c9Graph.nodes, 0⟩ "MCS" =
    ((runMCS c9Graph.nodes c9Graph.edges ev c9Rng 0).1, c9Graph.nodes,
      (runMCS c9Graph.nodes c9Graph.edges ev c9Rng 0).2) := rfl
  rw [hsrM] at hc1 ht1
  dsimp only at hc1 ht1
  rw [hmcs, hrel] at hc1
  rw [hrel] at ht1
  obtain ⟨hc2, ht2⟩ := stageFn_at c9Graph ev true c9Rng (fun _ => 1)
    (stageFn c9Graph ev true c9Rng (fun _ => 1)
      ⟨(fun _ => 0), 0, c9Graph.nodes, 0⟩ "MCS") "DT" "A" hcount
  have hsrD : stageRun c9Graph ev true c9Rng (fun _ => 1)
      (stageFn c9Graph ev true c9Rng (fun _ => 1)
        ⟨(fun _ => 0), 0, c9Graph.nodes, 0⟩ "MCS") "DT" =
    (runDT c9Graph.nodes c9Graph.edges ev, c9Graph.nodes,
      (runMCS c9Graph.nodes c9Graph.edges ev c9Rng 0).2) := rfl
  rw [hsrD] at hc2 ht2
  dsimp only at hc2 ht2
  rw [hdt, runDT_reliability] at hc2
  rw [runDT_reliability] at ht2
  rw [hc1] at hc2
  rw [ht1] at ht2
  have hbM : baseBias "MCS" = 1.2 := rfl
  have hbD : baseBias "DT" = 0.8 := rfl
  rw [hbM, hbD] at hc2
  rw [hbM, hbD] at ht2
  unfold analyze
  dsimp only
  rw [show analyzeCore c9Graph ev ["MCS", "DT"] true c9Rng (fun _ => 1) =
    stageFn c9Graph ev true c9Rng (fun _ => 1)
      (stageFn c9Graph ev true c9Rng (fun _ => 1)
        ⟨(fun _ => 0), 0, c9Graph.nodes, 0⟩ "MCS") "DT" from rfl]
  have hpos' : (stageFn c9Graph ev true c9Rng (fun _ => 1)
      (stageFn c9Graph ev true c9Rng (fun _ => 1)
        ⟨(fun _ => 0), 0, c9Graph.nodes, 0⟩ "MCS") "DT").totalWeight > 0 := by
    rw [ht2]
    nlinarith
  rw [if_pos hpos']
  dsimp only
  rw [hc2, ht2]
  congr 1
  ring

set_option maxRecDepth 2000000 in
/-- Claim C9, counterexample: on a one-node graph with MCS and DT selected,
adding the unknown-id evidence entry `("ZZZ", 1/2)` changes MCS's
reliability (its divisor `nodes.size − evidence.size` drops to `0`, which
zeroes the average variance) from `10/11` to `1`, and with it the fused
output: `0.5694` without the entry versus `0.5714` with it. -/
theorem C9_cx :
    (∀ n ∈ c9Graph.nodes, lookupA c9Ev' n.id = lookupA ([] : Evidence) n.id) ∧
      (runMCS c9Graph.nodes c9Graph.edges [] c9Rng 0).1.reliability =
        10/11 ∧
      (runMCS c9Graph.nodes c9Graph.edges c9Ev' c9Rng 0).1.reliability = 1 ∧
      (analyze c9Graph [] ["MCS", "DT"] true c9Rng (fun _ => 1)).1 "A" =
        5694/10000 ∧
      (analyze c9Graph c9Ev' ["MCS", "DT"] true c9Rng (fun _ => 1)).1 "A" =
        5714/10000 ∧
      (5694/10000 : ℚ) ≠ 5714/10000 := by
  refine ⟨?_, c9_mcs_rel1, c9_mcs_rel2, ?_, ?_, by norm_num⟩
  · intro n hn
    rw [show c9Graph.nodes = [c9Node] from rfl, List.mem_singleton] at hn
    subst hn
    rfl
  · rw [c9_fused [] (10/11) rfl c9_mcs_rel1 (by norm_num)]
    apply qeq_num
    with_unfolding_all decide
  · rw [c9_fused c9Ev' 1 rfl c9_mcs_rel2 (by norm_num)]
    apply qeq_num
    with_unfolding_all decide

end AetherLink
